import Mathlib

/-!
# Verification development for `hungarian.go` (lungsin/go-hungarian)

A shallow embedding of `MinCostMatching` and its helpers.

Modelling conventions:

* `float64` values are exact rationals (`ℚ`); the tolerance `1e-10` is the rational `1 / 10^10`.
  Statements about this model are statements about the program in exact arithmetic.
* The definitions with the suffix `F64` repeat the arithmetic steps of the program with every
  `float64` operation rounded to nearest, ties to even (`rnd64`); they show where rounding
  changes a result. Infinities and NaN are not modelled: these definitions describe runs in
  which every value stays below `2^1024` in magnitude.
* Go slices are lists; `[]int` slices hold `Int` values so that the sentinel `-1` is literal.
* Every slice access goes through `idx` / `upd`, which fail with `Err.indexOutOfRange`
  exactly where Go panics with "index out of range".
* The three loops without a syntactic bound (`for { ... }`, `for dad[j] >= 0`, and
  `for ; mated < n; mated++`) take an iteration budget and fail with `Err.outOfFuel` when it is
  exhausted; counting loops are modelled by `forLoop`.
-/

namespace Hungarian

/-- Failure modes of a run: a Go run-time panic, or an exhausted iteration budget. -/
inductive Err where
  | indexOutOfRange
  | outOfFuel
deriving DecidableEq

/-- Result of a possibly failing computation. -/
abbrev Res (α : Type) := Except Err α

instance instDecidableEqRes {ε α : Type} [DecidableEq ε] [DecidableEq α] :
    DecidableEq (Except ε α)
  | .ok a, .ok b =>
    if h : a = b then isTrue (h ▸ rfl) else isFalse (fun h' => h (Except.ok.inj h'))
  | .error a, .error b =>
    if h : a = b then isTrue (h ▸ rfl) else isFalse (fun h' => h (Except.error.inj h'))
  | .ok _, .error _ => isFalse (fun h => nomatch h)
  | .error _, .ok _ => isFalse (fun h => nomatch h)

/-- The tolerance `1e-10` of `zero`. -/
def eps : ℚ := 1 / 10000000000

/-- Source: `func zero(x float64) bool { return math.Abs(x) < 1e-10 }`. -/
def zero (x : ℚ) : Bool := decide (|x| < eps)

/-- Source: `vi(n, v)`, a fresh slice of length `n` filled with `v`. -/
def vi (n : Nat) (v : Int) : List Int := List.replicate n v

/-- Source: `fill(arr, val)`, overwrite every entry of `arr` with `val`. -/
def fill (arr : List Int) (val : Int) : List Int := arr.map (fun _ => val)

/-- Slice read `xs[i]`; panics when `i` is negative or not below the length. -/
def idx {α : Type} (xs : List α) (i : Int) : Res α :=
  if i < 0 then .error .indexOutOfRange
  else match xs[i.toNat]? with
    | some a => .ok a
    | none => .error .indexOutOfRange

/-- Slice write `xs[i] = a`; panics when `i` is negative or not below the length. -/
def upd {α : Type} (xs : List α) (i : Int) (a : α) : Res (List α) :=
  if i < 0 then .error .indexOutOfRange
  else if i.toNat < xs.length then .ok (xs.set i.toNat a)
  else .error .indexOutOfRange

/-- Matrix read `cost[i][j]`. -/
def cell (cost : List (List ℚ)) (i j : Int) : Res ℚ := do
  let row ← idx cost i
  idx row j

/-- Counting loop `for k := lo; k < lo + cnt; k++ { st = body k st }`. -/
def forLoop {σ : Type} (body : Nat → σ → Res σ) : Nat → Nat → σ → Res σ
  | 0, _, st => .ok st
  | cnt + 1, k, st => do
    let st' ← body k st
    forLoop body cnt (k + 1) st'

/-- Lines 52-55: `u[i] = cost[i][0]; for j := 1; j < n; j++ { u[i] = min(u[i], cost[i][j]) }`. -/
def initRow (cost : List (List ℚ)) (n : Nat) (i : Nat) (u : List ℚ) : Res (List ℚ) := do
  let c0 ← cell cost i 0
  let u ← upd u i c0
  forLoop (fun j u => do
      let ui ← idx u i
      let c ← cell cost i j
      upd u i (min ui c)) (n - 1) 1 u

/-- Lines 58-61: `v[j] = cost[0][j] - u[0]; for i := 1; i < n; i++ { v[j] = min(v[j], cost[i][j] - u[i]) }`. -/
def initCol (cost : List (List ℚ)) (n : Nat) (u : List ℚ) (j : Nat) (v : List ℚ) :
    Res (List ℚ) := do
  let c0 ← cell cost 0 j
  let u0 ← idx u 0
  let v ← upd v j (c0 - u0)
  forLoop (fun i v => do
      let vj ← idx v j
      let c ← cell cost i j
      let ui ← idx u i
      upd v j (min vj (c - ui))) (n - 1) 1 v

/-- Lines 44-62: allocate `u`, `v` and construct the dual feasible solution. -/
def initDuals (cost : List (List ℚ)) (n : Nat) : Res (List ℚ × List ℚ) := do
  let u ← forLoop (initRow cost n) n 0 (List.replicate n 0)
  let v ← forLoop (initCol cost n u) n 0 (List.replicate n 0)
  pure (u, v)

/-- Matching state of the greedy pass: `L`, `R` and the counter `mated`. -/
structure Mate where
  L : List Int
  R : List Int
  mated : Nat
deriving DecidableEq

/-- Lines 69-80: the column scan for row `i`, from column `j`, with `cnt` columns left. -/
def greedyRow (cost : List (List ℚ)) (u v : List ℚ) (i : Nat) : Nat → Nat → Mate → Res Mate
  | 0, _, m => .ok m
  | cnt + 1, j, m => do
    let r ← idx m.R j
    if r ≠ -1 then greedyRow cost u v i cnt (j + 1) m
    else do
      let c ← cell cost i j
      let ui ← idx u i
      let vj ← idx v j
      if zero (c - ui - vj) then do
        let L ← upd m.L i (j : Int)
        let R ← upd m.R j (i : Int)
        pure ⟨L, R, m.mated + 1⟩
      else greedyRow cost u v i cnt (j + 1) m

/-- Lines 65-81: the greedy complementary-slackness pass. -/
def greedy (cost : List (List ℚ)) (n : Nat) (u v : List ℚ) : Res Mate :=
  forLoop (fun i m => greedyRow cost u v i n 0 m) n 0 ⟨vi n (-1), vi n (-1), 0⟩

/-- Lines 84-87: `s := 0; for L[s] != -1 { s++ }`; `cnt` bounds the scan by the slice length
plus one, the step at which the read `L[s]` panics. -/
def findFree (L : List Int) : Nat → Nat → Res Nat
  | 0, _ => .error .indexOutOfRange
  | cnt + 1, s => do
    let l ← idx L s
    if l ≠ -1 then findFree L cnt (s + 1) else pure s

/-- Lines 96-104: select the unsettled column with the least `dist` (first minimum). -/
def closest (dist : List ℚ) (seen : List Int) : Nat → Nat → Int → Res Int
  | 0, _, j => .ok j
  | cnt + 1, k, j => do
    let sk ← idx seen k
    if sk ≠ 0 then closest dist seen cnt (k + 1) j
    else if j = -1 then closest dist seen cnt (k + 1) k
    else do
      let dk ← idx dist k
      let dj ← idx dist j
      if dk < dj then closest dist seen cnt (k + 1) k
      else closest dist seen cnt (k + 1) j

/-- Scratch state of one augmentation round. -/
structure Scratch where
  dist : List ℚ
  dad : List Int
  seen : List Int
deriving DecidableEq

/-- Lines 112-121: relax through row `i`, the partner of the settled column `j`. -/
def relax (cost : List (List ℚ)) (n : Nat) (u v : List ℚ) (j i : Int) (sc : Scratch) :
    Res Scratch :=
  forLoop (fun k sc => do
      let sk ← idx sc.seen k
      if sk ≠ 0 then pure sc
      else do
        let dj ← idx sc.dist j
        let c ← cell cost i k
        let ui ← idx u i
        let vk ← idx v k
        let new_dist := dj + c - ui - vk
        let dk ← idx sc.dist k
        if dk > new_dist then do
          let dist ← upd sc.dist k new_dist
          let dad ← upd sc.dad k j
          pure { sc with dist := dist, dad := dad }
        else pure sc) n 0 sc

/-- Lines 95-122: the `for { ... }` search loop; returns the terminal column `j`. -/
def search (cost : List (List ℚ)) (n : Nat) (u v : List ℚ) (R : List Int) :
    Nat → Scratch → Res (Int × Scratch)
  | 0, _ => .error .outOfFuel
  | fuel + 1, sc => do
    let j ← closest sc.dist sc.seen n 0 (-1)
    let seen ← upd sc.seen j 1
    let sc := { sc with seen := seen }
    let i ← idx R j
    if i = -1 then pure (j, sc)
    else do
      let sc ← relax cost n u v j i sc
      search cost n u v R fuel sc

/-- Lines 126-131: the body of the dual update for column `k`. -/
def dualStep (R : List Int) (j : Int) (sc : Scratch) (k : Nat) (uv : List ℚ × List ℚ) :
    Res (List ℚ × List ℚ) :=
  if (k : Int) = j then pure uv
  else do
    let sk ← idx sc.seen k
    if sk ≠ 0 then pure uv
    else do
      let dk ← idx sc.dist k
      let dj ← idx sc.dist j
      let w := dk - dj
      let vk ← idx uv.2 k
      let v ← upd uv.2 k (vk + w)
      let r ← idx R k
      let ur ← idx uv.1 r
      let u ← upd uv.1 r (ur - w)
      pure (u, v)

/-- Lines 125-133: the dual update, followed by `u[s] += dist[j]`. -/
def updateDuals (n : Nat) (R : List Int) (s : Nat) (j : Int) (sc : Scratch)
    (uv : List ℚ × List ℚ) : Res (List ℚ × List ℚ) := do
  let (u, v) ← forLoop (dualStep R j sc) n 0 uv
  let us ← idx u s
  let dj ← idx sc.dist j
  let u ← upd u s (us + dj)
  pure (u, v)

/-- Lines 136-141: walk back along `dad`, flipping matched edges; returns the last column. -/
def walk (dad : List Int) : Nat → Int → List Int → List Int → Res (Int × List Int × List Int)
  | fuel, j, L, R => do
    let d ← idx dad j
    if d ≥ 0 then
      match fuel with
      | 0 => .error .outOfFuel
      | fuel + 1 => do
        let rd ← idx R d
        let R ← upd R j rd
        let rj ← idx R j
        let L ← upd L rj j
        walk dad fuel d L R
    else pure (j, L, R)

/-- Whole state carried by the augmentation loop. -/
structure State where
  u : List ℚ
  v : List ℚ
  L : List Int
  R : List Int
  mated : Nat
  dist : List ℚ
  dad : List Int
  seen : List Int
deriving DecidableEq

/-- Lines 84-143: the body of one augmentation round (`mated++` is done by `rounds`). -/
def round (cost : List (List ℚ)) (n fs fw : Nat) (st : State) : Res State := do
  let s ← findFree st.L (st.L.length + 1) 0
  let dad := fill st.dad (-1)
  let seen := fill st.seen 0
  let dist ← forLoop (fun k dist => do
      let c ← cell cost s k
      let us ← idx st.u s
      let vk ← idx st.v k
      upd dist k (c - us - vk)) n 0 st.dist
  let (j, sc) ← search cost n st.u st.v st.R fs ⟨dist, dad, seen⟩
  let (u, v) ← updateDuals n st.R s j sc (st.u, st.v)
  let (j, L, R) ← walk sc.dad fw j st.L st.R
  let R ← upd R j (s : Int)
  let L ← upd L s j
  pure { u := u, v := v, L := L, R := R, mated := st.mated,
         dist := sc.dist, dad := sc.dad, seen := sc.seen }

/-- Line 83: `for ; mated < n; mated++ { round }` with an iteration budget. -/
def rounds (cost : List (List ℚ)) (n fs fw : Nat) : Nat → State → Res State
  | fuel, st =>
    if st.mated < n then
      match fuel with
      | 0 => .error .outOfFuel
      | fuel + 1 => do
        let st ← round cost n fs fw st
        rounds cost n fs fw fuel { st with mated := st.mated + 1 }
    else .ok st

/-- Lines 146-149: `value = 0; for i := 0; i < n; i++ { value += cost[i][L[i]] }`. -/
def totalCost (cost : List (List ℚ)) (n : Nat) (L : List Int) : Res ℚ :=
  forLoop (fun i value => do
      let l ← idx L i
      let c ← cell cost i l
      pure (value + c)) n 0 0

/-- Lines 42-81: the state on entering the augmentation loop (`make` zero-fills the scratch
slices `dist`, `dad`, `seen`). -/
def startState (cost : List (List ℚ)) : Res State := do
  let n := cost.length
  let (u, v) ← initDuals cost n
  let m ← greedy cost n u v
  pure { u := u, v := v, L := m.L, R := m.R, mated := m.mated,
         dist := List.replicate n 0, dad := List.replicate n 0, seen := List.replicate n 0 }

/-- The state on leaving the augmentation loop, with budgets `fs` (search iterations per round),
`fw` (back-walk steps per round) and `fr` (rounds). -/
def finalState (fs fw fr : Nat) (cost : List (List ℚ)) : Res State := do
  let st ← startState cost
  rounds cost cost.length fs fw fr st

/-- Source: `MinCostMatching(cost)` returning `(value, L, R)`, with explicit loop budgets. -/
def MinCostMatchingFuel (fs fw fr : Nat) (cost : List (List ℚ)) :
    Res (ℚ × List Int × List Int) := do
  let st ← finalState fs fw fr cost
  let value ← totalCost cost cost.length st.L
  pure (value, st.L, st.R)

/-- Source: `MinCostMatching(cost)`; each loop gets a budget of `n = len(cost)` iterations. -/
def MinCostMatching (cost : List (List ℚ)) : Res (ℚ × List Int × List Int) :=
  MinCostMatchingFuel cost.length cost.length cost.length cost

/-! ## Vocabulary of the statements -/

/-- Entry `k` of a slice as a total function (`0` outside the slice). -/
def nth {α : Type} [Zero α] (xs : List α) (k : Nat) : α := xs.getD k 0

/-- Entry `cost[i][j]` as a total function (`0` outside the matrix). -/
def ent (cost : List (List ℚ)) (i j : Nat) : ℚ := nth (cost.getD i []) j

/-- Reduced cost `cost[i][j] - u[i] - v[j]`. -/
def red (cost : List (List ℚ)) (u v : List ℚ) (i j : Nat) : ℚ :=
  ent cost i j - nth u i - nth v j

/-- The matrix is square: every row is as long as the number of rows. -/
def Square (cost : List (List ℚ)) : Prop := ∀ row ∈ cost, row.length = cost.length

instance instDecidableSquare (cost : List (List ℚ)) : Decidable (Square cost) :=
  inferInstanceAs (Decidable (∀ row ∈ cost, row.length = cost.length))

/-- Every entry of the matrix is an integer. -/
def Integral (cost : List (List ℚ)) : Prop := ∀ row ∈ cost, ∀ x ∈ row, x.den = 1

instance instDecidableIntegral (cost : List (List ℚ)) : Decidable (Integral cost) :=
  inferInstanceAs (Decidable (∀ row ∈ cost, ∀ x ∈ row, x.den = 1))

/-- Total cost `Σ_i cost[i][p(i)]` of the assignment given by the permutation `p`. -/
def permCost (cost : List (List ℚ)) (n : Nat) (p : Equiv.Perm (Fin n)) : ℚ :=
  ∑ i : Fin n, ent cost i (p i)

/-- The least total cost over all permutations of `{0, ..., n-1}`. -/
def minPermCost (cost : List (List ℚ)) (n : Nat) : ℚ :=
  Finset.univ.inf' Finset.univ_nonempty (permCost cost n)

/-- The greatest total cost over all permutations of `{0, ..., n-1}`. -/
def maxPermCost (cost : List (List ℚ)) (n : Nat) : ℚ :=
  Finset.univ.sup' Finset.univ_nonempty (permCost cost n)

/-- The entry-wise negated matrix. -/
def negate (cost : List (List ℚ)) : List (List ℚ) := cost.map (fun row => row.map (fun x => -x))

/-- The matrix with `c` added to every entry of row `r`. -/
def addRow (cost : List (List ℚ)) (r : Nat) (c : ℚ) : List (List ℚ) :=
  cost.set r ((cost.getD r []).map (fun x => x + c))

/-- The matrix with `c` added to every entry of column `q`. -/
def addCol (cost : List (List ℚ)) (q : Nat) (c : ℚ) : List (List ℚ) :=
  cost.map (fun row => row.set q (row.getD q 0 + c))

/-- The slices `L`, `R` of length `n` hold a permutation of `{0, ..., n-1}` and its inverse. -/
def InversePerms (n : Nat) (L R : List Int) : Prop :=
  L.length = n ∧ R.length = n ∧
  (∀ i, i < n → 0 ≤ nth L i ∧ nth L i < n ∧ nth R (nth L i).toNat = i) ∧
  (∀ j, j < n → 0 ≤ nth R j ∧ nth R j < n ∧ nth L (nth R j).toNat = j)

/-- Partial-matching invariant of `(L, R)`: entries are `-1` or indices below `n`, and
`L[i] = j` exactly when `R[j] = i`. -/
structure Matching (n : Nat) (L R : List Int) : Prop where
  lenL : L.length = n
  lenR : R.length = n
  rangeL : ∀ i, i < n → -1 ≤ nth L i ∧ nth L i < n
  rangeR : ∀ j, j < n → -1 ≤ nth R j ∧ nth R j < n
  inv : ∀ i j, i < n → j < n → (nth L i = (j : Int) ↔ nth R j = (i : Int))

/-- Indices below `n` whose entry in `xs` is the sentinel `-1` (unmatched rows of `L`,
unmatched columns of `R`). -/
def free (n : Nat) (xs : List Int) : Finset Nat :=
  (Finset.range n).filter (fun k => nth xs k = -1)

/-- Every matched edge passes the `zero` test on its reduced cost. -/
def Tight (cost : List (List ℚ)) (n : Nat) (u v : List ℚ) (L : List Int) : Prop :=
  ∀ i j, i < n → j < n → nth L i = (j : Int) → zero (red cost u v i j) = true

/-- Sum of the reduced costs of the matched edges of `L`. -/
def redSum (cost : List (List ℚ)) (n : Nat) (u v : List ℚ) (L : List Int) : ℚ :=
  ∑ i ∈ Finset.range n, if nth L i = -1 then 0 else red cost u v i (nth L i).toNat

/-- Columns below `n` already settled by the search. -/
def seenSet (n : Nat) (seen : List Int) : Finset Nat :=
  (Finset.range n).filter (fun k => nth seen k ≠ 0)

/-- State of the shortest-path search at the head of the `for { ... }` loop, for the free row
`s` and the column partners `R`; `t` records the order in which columns were settled. -/
structure SearchInv (cost : List (List ℚ)) (n : Nat) (u v : List ℚ) (R : List Int) (s : Nat)
    (t : Nat → Nat) (sc : Scratch) : Prop where
  lenDist : sc.dist.length = n
  lenDad : sc.dad.length = n
  lenSeen : sc.seen.length = n
  seenMatched : ∀ k, k < n → nth sc.seen k ≠ 0 → 0 ≤ nth R k
  dadRange : ∀ k, k < n → -1 ≤ nth sc.dad k ∧ nth sc.dad k < n
  dadRoot : ∀ k, k < n → nth sc.dad k = -1 → nth sc.dist k = red cost u v s k
  dadLink : ∀ k d, k < n → d < n → nth sc.dad k = (d : Int) →
    nth sc.seen d ≠ 0 ∧ 0 ≤ nth R d ∧
    nth sc.dist k = nth sc.dist d + red cost u v (nth R d).toNat k ∧
    (nth sc.seen k ≠ 0 → t d < t k)
  rankBound : ∀ k, k < n → nth sc.seen k ≠ 0 → t k < (seenSet n sc.seen).card
  settled : ∀ x k, x < n → k < n → nth sc.seen x ≠ 0 → nth sc.seen k = 0 →
    nth sc.dist x ≤ nth sc.dist k
  relaxed : ∀ x k, x < n → k < n → nth sc.seen x ≠ 0 →
    nth sc.dist k ≤ nth sc.dist x + red cost u v (nth R x).toNat k
  direct : ∀ k, k < n → nth sc.dist k ≤ red cost u v s k

/-- State of the search on leaving the loop at the unmatched column `j0`. -/
structure SearchDone (cost : List (List ℚ)) (n : Nat) (u v : List ℚ) (R : List Int) (s : Nat)
    (t : Nat → Nat) (j0 : Nat) (sc : Scratch) : Prop where
  lenDist : sc.dist.length = n
  lenDad : sc.dad.length = n
  lenSeen : sc.seen.length = n
  terminal : j0 < n
  terminalFree : nth R j0 = -1
  terminalSeen : nth sc.seen j0 ≠ 0
  seenMatched : ∀ k, k < n → nth sc.seen k ≠ 0 → k ≠ j0 → 0 ≤ nth R k
  dadRange : ∀ k, k < n → -1 ≤ nth sc.dad k ∧ nth sc.dad k < n
  dadRoot : ∀ k, k < n → nth sc.dad k = -1 → nth sc.dist k = red cost u v s k
  dadLink : ∀ k d, k < n → d < n → nth sc.dad k = (d : Int) →
    nth sc.seen d ≠ 0 ∧ 0 ≤ nth R d ∧
    nth sc.dist k = nth sc.dist d + red cost u v (nth R d).toNat k ∧
    (nth sc.seen k ≠ 0 → t d < t k)
  rankBound : ∀ k, k < n → nth sc.seen k ≠ 0 → t k < n
  settledLe : ∀ x, x < n → nth sc.seen x ≠ 0 → nth sc.dist x ≤ nth sc.dist j0
  unsettledGe : ∀ k, k < n → nth sc.seen k = 0 → nth sc.dist j0 ≤ nth sc.dist k
  relaxed : ∀ x k, x < n → k < n → nth sc.seen x ≠ 0 → x ≠ j0 →
    nth sc.dist k ≤ nth sc.dist x + red cost u v (nth R x).toNat k
  direct : ∀ k, k < n → nth sc.dist k ≤ red cost u v s k

/-- State of the greedy pass before row `i` is processed. -/
structure GreedyInv (cost : List (List ℚ)) (n : Nat) (u v : List ℚ) (i : Nat) (m : Mate) :
    Prop where
  matching : Matching n m.L m.R
  later : ∀ i', i ≤ i' → i' < n → nth m.L i' = -1
  rows : m.mated + (free n m.L).card = n
  cols : m.mated + (free n m.R).card = n
  tight : Tight cost n u v m.L

/-- State of the back-walk at column `j`: `(L, R)` is a matching in which column `j` is not
yet assigned a row. -/
structure WalkInv (cost : List (List ℚ)) (n : Nat) (u v : List ℚ) (L0 R0 : List Int)
    (t : Nat → Nat) (j0 : Nat) (sc : Scratch) (j : Nat) (L R : List Int) : Prop where
  lenL : L.length = n
  lenR : R.length = n
  cur : j < n
  curSeen : nth sc.seen j ≠ 0
  rangeL : ∀ i, i < n → -1 ≤ nth L i ∧ nth L i < n
  rangeR : ∀ k, k < n → -1 ≤ nth R k ∧ nth R k < n
  inv : ∀ i k, i < n → k < n → k ≠ j → (nth L i = (k : Int) ↔ nth R k = (i : Int))
  noRow : ∀ i, i < n → nth L i ≠ (j : Int)
  freeRows : ∀ i, i < n → (nth L i = -1 ↔ nth L0 i = -1)
  freeCols : ∀ k, k < n → k ≠ j → (nth R k = -1 ↔ (nth R0 k = -1 ∧ k ≠ j0))
  unchanged : ∀ x, x < n → nth sc.seen x ≠ 0 → t x ≤ t j → nth R x = nth R0 x
  costBound : redSum cost n u v L + nth sc.dist j ≤ redSum cost n u v L0 + nth sc.dist j0

/-- A permutation of `Fin n` as a function on indices. -/
def permFun {n : Nat} (p : Equiv.Perm (Fin n)) (i : Nat) : Nat :=
  if h : i < n then (p ⟨i, h⟩ : Nat) else 0

/-- State at the head of the augmentation loop, before the first round. -/
structure RoundInv (cost : List (List ℚ)) (n : Nat) (st : State) : Prop where
  lenU : st.u.length = n
  lenV : st.v.length = n
  lenDist : st.dist.length = n
  lenDad : st.dad.length = n
  lenSeen : st.seen.length = n
  matching : Matching n st.L st.R
  feas : ∀ i k, i < n → k < n → 0 ≤ red cost st.u st.v i k
  rows : st.mated + (free n st.L).card = n
  cols : st.mated + (free n st.R).card = n

/-- The run `r'` agrees with `r` unless `r` exhausted its budget. -/
def Extends {α : Type} (r r' : Res α) : Prop := r ≠ .error .outOfFuel → r' = r

/-- The run `r` either panics with an index out of range or returns a value satisfying `P`. -/
def Safe {α : Type} (P : α → Prop) (r : Res α) : Prop :=
  r = .error .indexOutOfRange ∨ ∃ a, r = .ok a ∧ P a

/-- Two runs fail alike or return related values. -/
def RelRes {α β : Type} (P : α → β → Prop) : Res α → Res β → Prop
  | .ok a, .ok b => P a b
  | .error e, .error e' => e = e'
  | _, _ => False

/-- The slice `u'` is `u` with `E k` added to entry `k`. -/
def Shifted (n : Nat) (E : Nat → ℚ) (u u' : List ℚ) : Prop :=
  u.length = n ∧ u'.length = n ∧ ∀ k, k < n → nth u' k = nth u k + E k

/-- The offset of row `k` under `addRow cost r c`. -/
def rowOffset (r : Nat) (c : ℚ) (k : Nat) : ℚ := if k = r then c else 0

/-- Offsets during the row initialisation: rows below `m` are already shifted. -/
def initOffset (r : Nat) (c : ℚ) (m : Nat) (k : Nat) : ℚ := if k < m then rowOffset r c k else 0

/-- Two loop states that differ only in the shifted row potential. -/
def StateShift (n r : Nat) (c : ℚ) (st st' : State) : Prop :=
  Shifted n (rowOffset r c) st.u st'.u ∧ st'.v = st.v ∧ st'.L = st.L ∧ st'.R = st.R ∧
  st'.mated = st.mated ∧ st'.dist = st.dist ∧ st'.dad = st.dad ∧ st'.seen = st.seen

/-- Lines 68-81 restricted to the rows below `k`: the state of the greedy pass when row `k`
is about to be processed (`greedy` is `greedyUpTo` at `k = n`). -/
def greedyUpTo (cost : List (List ℚ)) (n : Nat) (u v : List ℚ) (k : Nat) : Res Mate :=
  forLoop (fun i m => greedyRow cost u v i n 0 m) k 0 ⟨vi n (-1), vi n (-1), 0⟩

/-- The entry `l` is what the column scan of row `i` must leave in `L[i]` when it starts in
the state `before`: the lowest column that is unmatched in `before` and whose reduced cost is
below the tolerance in absolute value, or `-1` when there is no such column. -/
def FirstTight (cost : List (List ℚ)) (n : Nat) (u v : List ℚ) (i : Nat) (before : Mate)
    (l : Int) : Prop :=
  (∃ j, j < n ∧ l = (j : Int) ∧ nth before.R j = -1 ∧ |red cost u v i j| < eps ∧
    ∀ j', j' < j → nth before.R j' ≠ -1 ∨ ¬ |red cost u v i j'| < eps) ∨
  (l = -1 ∧ ∀ j, j < n → nth before.R j ≠ -1 ∨ ¬ |red cost u v i j| < eps)

/-- Line 83 with a counter: the loop of `rounds`, returning also the number of completed
rounds added to `cnt`. -/
def roundsCounted (cost : List (List ℚ)) (n fs fw : Nat) : Nat → State → Nat → Res (State × Nat)
  | fuel, st, cnt =>
    if st.mated < n then
      match fuel with
      | 0 => .error .outOfFuel
      | fuel + 1 => do
        let st ← round cost n fs fw st
        roundsCounted cost n fs fw fuel { st with mated := st.mated + 1 } (cnt + 1)
    else .ok (st, cnt)

/-- The number of augmentation rounds a call of `MinCostMatching` completes. -/
def roundCount (cost : List (List ℚ)) : Res Nat := do
  let st ← startState cost
  let (_, k) ← roundsCounted cost cost.length cost.length cost.length cost.length st 0
  pure k

/-! ## The program with `float64` rounding -/

/-- Floor of the binary logarithm of `n` (`0` for `n < 2`), by halving at most `fuel` times. -/
def log2Fuel : Nat → Nat → Nat
  | 0, _ => 0
  | fuel + 1, n => if n < 2 then 0 else log2Fuel fuel (n / 2) + 1

/-- The binary exponent of `p / q` for positive `p` and `q`: the `e` with
`2^e ≤ p / q < 2^(e+1)`. -/
def binExp (p q : Nat) : Int :=
  let e0 : Int := (log2Fuel p p : Int) - (log2Fuel q q : Int)
  if 0 ≤ e0 then (if q * 2 ^ e0.toNat ≤ p then e0 else e0 - 1)
  else (if q ≤ p * 2 ^ (-e0).toNat then e0 else e0 - 1)

/-- The integer nearest to `p / q`, the even one of the two on a tie. -/
def roundHalfEven (p q : Nat) : Nat :=
  if 2 * (p % q) < q then p / q
  else if q < 2 * (p % q) then p / q + 1
  else if (p / q) % 2 = 0 then p / q else p / q + 1

/-- The rational `2^k` for an integer `k`. -/
def pow2 (k : Int) : ℚ :=
  if 0 ≤ k then ((2 ^ k.toNat : Nat) : ℚ) else 1 / ((2 ^ (-k).toNat : Nat) : ℚ)

/-- The `float64` nearest to `x` (IEEE 754 binary64, round to nearest, ties to even): a
multiple of `2^k` with `k = max (e - 52) (-1074)`, `e` the binary exponent of `x`. Valid for
results below `2^1024` in magnitude. -/
def rnd64 (x : ℚ) : ℚ :=
  if x = 0 then 0
  else
    let p := x.num.natAbs
    let q := x.den
    let k := max (binExp p q - 52) (-1074)
    let m := if 0 ≤ k then roundHalfEven p (q * 2 ^ k.toNat)
             else roundHalfEven (p * 2 ^ (-k).toNat) q
    if x < 0 then -((m : ℚ) * pow2 k) else (m : ℚ) * pow2 k

/-- The `float64` sum `x + y`. -/
def addF64 (x y : ℚ) : ℚ := rnd64 (x + y)

/-- The `float64` difference `x - y`. -/
def subF64 (x y : ℚ) : ℚ := rnd64 (x - y)

/-- The constant `1e-10` as a `float64`. -/
def epsF64 : ℚ := rnd64 eps

/-- Source: `zero`, on `float64` values. -/
def zeroF64 (x : ℚ) : Bool := decide (|x| < epsF64)

/-- Every entry of the matrix is a `float64`. -/
def Representable (cost : List (List ℚ)) : Prop := ∀ row ∈ cost, ∀ x ∈ row, rnd64 x = x

instance instDecidableRepresentable (cost : List (List ℚ)) : Decidable (Representable cost) :=
  inferInstanceAs (Decidable (∀ row ∈ cost, ∀ x ∈ row, rnd64 x = x))

/-- Lines 58-61 with `float64` subtraction. -/
def initColF64 (cost : List (List ℚ)) (n : Nat) (u : List ℚ) (j : Nat) (v : List ℚ) :
    Res (List ℚ) := do
  let c0 ← cell cost 0 j
  let u0 ← idx u 0
  let v ← upd v j (subF64 c0 u0)
  forLoop (fun i v => do
      let vj ← idx v j
      let c ← cell cost i j
      let ui ← idx u i
      upd v j (min vj (subF64 c ui))) (n - 1) 1 v

/-- Lines 44-62 with `float64` subtraction (`math.Min` does not round). -/
def initDualsF64 (cost : List (List ℚ)) (n : Nat) : Res (List ℚ × List ℚ) := do
  let u ← forLoop (initRow cost n) n 0 (List.replicate n 0)
  let v ← forLoop (initColF64 cost n u) n 0 (List.replicate n 0)
  pure (u, v)

/-- Lines 69-80 with `float64` subtraction. -/
def greedyRowF64 (cost : List (List ℚ)) (u v : List ℚ) (i : Nat) : Nat → Nat → Mate → Res Mate
  | 0, _, m => .ok m
  | cnt + 1, j, m => do
    let r ← idx m.R j
    if r ≠ -1 then greedyRowF64 cost u v i cnt (j + 1) m
    else do
      let c ← cell cost i j
      let ui ← idx u i
      let vj ← idx v j
      if zeroF64 (subF64 (subF64 c ui) vj) then do
        let L ← upd m.L i (j : Int)
        let R ← upd m.R j (i : Int)
        pure ⟨L, R, m.mated + 1⟩
      else greedyRowF64 cost u v i cnt (j + 1) m

/-- Lines 65-81 with `float64` subtraction. -/
def greedyF64 (cost : List (List ℚ)) (n : Nat) (u v : List ℚ) : Res Mate :=
  forLoop (fun i m => greedyRowF64 cost u v i n 0 m) n 0 ⟨vi n (-1), vi n (-1), 0⟩

/-- Lines 112-121 with `float64` arithmetic. -/
def relaxF64 (cost : List (List ℚ)) (n : Nat) (u v : List ℚ) (j i : Int) (sc : Scratch) :
    Res Scratch :=
  forLoop (fun k sc => do
      let sk ← idx sc.seen k
      if sk ≠ 0 then pure sc
      else do
        let dj ← idx sc.dist j
        let c ← cell cost i k
        let ui ← idx u i
        let vk ← idx v k
        let new_dist := subF64 (subF64 (addF64 dj c) ui) vk
        let dk ← idx sc.dist k
        if dk > new_dist then do
          let dist ← upd sc.dist k new_dist
          let dad ← upd sc.dad k j
          pure { sc with dist := dist, dad := dad }
        else pure sc) n 0 sc

/-- Lines 95-122 with `float64` arithmetic. -/
def searchF64 (cost : List (List ℚ)) (n : Nat) (u v : List ℚ) (R : List Int) :
    Nat → Scratch → Res (Int × Scratch)
  | 0, _ => .error .outOfFuel
  | fuel + 1, sc => do
    let j ← closest sc.dist sc.seen n 0 (-1)
    let seen ← upd sc.seen j 1
    let sc := { sc with seen := seen }
    let i ← idx R j
    if i = -1 then pure (j, sc)
    else do
      let sc ← relaxF64 cost n u v j i sc
      searchF64 cost n u v R fuel sc

/-- Lines 126-131 with `float64` arithmetic. -/
def dualStepF64 (R : List Int) (j : Int) (sc : Scratch) (k : Nat) (uv : List ℚ × List ℚ) :
    Res (List ℚ × List ℚ) :=
  if (k : Int) = j then pure uv
  else do
    let sk ← idx sc.seen k
    if sk ≠ 0 then pure uv
    else do
      let dk ← idx sc.dist k
      let dj ← idx sc.dist j
      let w := subF64 dk dj
      let vk ← idx uv.2 k
      let v ← upd uv.2 k (addF64 vk w)
      let r ← idx R k
      let ur ← idx uv.1 r
      let u ← upd uv.1 r (subF64 ur w)
      pure (u, v)

/-- Lines 125-133 with `float64` arithmetic. -/
def updateDualsF64 (n : Nat) (R : List Int) (s : Nat) (j : Int) (sc : Scratch)
    (uv : List ℚ × List ℚ) : Res (List ℚ × List ℚ) := do
  let (u, v) ← forLoop (dualStepF64 R j sc) n 0 uv
  let us ← idx u s
  let dj ← idx sc.dist j
  let u ← upd u s (addF64 us dj)
  pure (u, v)

/-- Lines 84-143 with `float64` arithmetic. -/
def roundF64 (cost : List (List ℚ)) (n fs fw : Nat) (st : State) : Res State := do
  let s ← findFree st.L (st.L.length + 1) 0
  let dad := fill st.dad (-1)
  let seen := fill st.seen 0
  let dist ← forLoop (fun k dist => do
      let c ← cell cost s k
      let us ← idx st.u s
      let vk ← idx st.v k
      upd dist k (subF64 (subF64 c us) vk)) n 0 st.dist
  let (j, sc) ← searchF64 cost n st.u st.v st.R fs ⟨dist, dad, seen⟩
  let (u, v) ← updateDualsF64 n st.R s j sc (st.u, st.v)
  let (j, L, R) ← walk sc.dad fw j st.L st.R
  let R ← upd R j (s : Int)
  let L ← upd L s j
  pure { u := u, v := v, L := L, R := R, mated := st.mated,
         dist := sc.dist, dad := sc.dad, seen := sc.seen }

/-- Line 83 with `float64` arithmetic in the rounds. -/
def roundsF64 (cost : List (List ℚ)) (n fs fw : Nat) : Nat → State → Res State
  | fuel, st =>
    if st.mated < n then
      match fuel with
      | 0 => .error .outOfFuel
      | fuel + 1 => do
        let st ← roundF64 cost n fs fw st
        roundsF64 cost n fs fw fuel { st with mated := st.mated + 1 }
    else .ok st

/-- Lines 146-149 with `float64` addition, left to right from `0`. -/
def totalCostF64 (cost : List (List ℚ)) (n : Nat) (L : List Int) : Res ℚ :=
  forLoop (fun i value => do
      let l ← idx L i
      let c ← cell cost i l
      pure (addF64 value c)) n 0 0

/-- Lines 42-81 with `float64` arithmetic. -/
def startStateF64 (cost : List (List ℚ)) : Res State := do
  let n := cost.length
  let (u, v) ← initDualsF64 cost n
  let m ← greedyF64 cost n u v
  pure { u := u, v := v, L := m.L, R := m.R, mated := m.mated,
         dist := List.replicate n 0, dad := List.replicate n 0, seen := List.replicate n 0 }

/-- Source: `MinCostMatching(cost)` with `float64` arithmetic; each loop gets a budget of
`n = len(cost)` iterations. -/
def MinCostMatchingF64 (cost : List (List ℚ)) : Res (ℚ × List Int × List Int) := do
  let st ← startStateF64 cost
  let st ← roundsF64 cost cost.length cost.length cost.length cost.length st
  let value ← totalCostF64 cost cost.length st.L
  pure (value, st.L, st.R)


/-! ## Sequencing -/

theorem ok_bind {α β : Type} (a : α) (f : α → Res β) : (Except.ok a >>= f) = f a := rfl

theorem error_bind {α β : Type} (e : Err) (f : α → Res β) :
    ((Except.error e : Res α) >>= f) = .error e := rfl

/-! ## Slice access -/

theorem nth_eq_getElem? {α : Type} [Zero α] (xs : List α) (k : Nat) :
    nth xs k = xs[k]?.getD 0 := by
  simp [nth, List.getD_eq_getElem?_getD]

theorem getElem?_eq_nth {α : Type} [Zero α] {xs : List α} {k : Nat} (h : k < xs.length) :
    xs[k]? = some (nth xs k) := by
  simp [nth_eq_getElem?, List.getElem?_eq_getElem h]

theorem nth_set_eq {α : Type} [Zero α] {xs : List α} {k : Nat} (a : α) (h : k < xs.length) :
    nth (xs.set k a) k = a := by
  simp [nth_eq_getElem?, List.getElem?_set, h]

theorem nth_set_ne {α : Type} [Zero α] {xs : List α} {k k' : Nat} (a : α) (h : k ≠ k') :
    nth (xs.set k a) k' = nth xs k' := by
  simp [nth_eq_getElem?, List.getElem?_set, h]

theorem nth_set {α : Type} [Zero α] {xs : List α} {k : Nat} (a : α) (h : k < xs.length)
    (k' : Nat) : nth (xs.set k a) k' = if k' = k then a else nth xs k' := by
  by_cases hk : k' = k
  · subst hk; simp [nth_set_eq a h]
  · simp [hk, nth_set_ne a (Ne.symm hk)]

theorem nth_replicate {α : Type} [Zero α] (n k : Nat) (a : α) (h : k < n) :
    nth (List.replicate n a) k = a := by
  simp [nth_eq_getElem?, List.getElem?_replicate, h]

theorem nth_fill (arr : List Int) (val : Int) (k : Nat) (h : k < arr.length) :
    nth (fill arr val) k = val := by
  simp [nth_eq_getElem?, fill, List.getElem?_replicate, h]

@[simp] theorem length_fill (arr : List Int) (val : Int) : (fill arr val).length = arr.length := by
  simp [fill]

@[simp] theorem length_vi (n : Nat) (v : Int) : (vi n v).length = n := by
  simp [vi]

theorem nth_vi (n k : Nat) (v : Int) (h : k < n) : nth (vi n v) k = v := by
  simp [vi, nth_replicate n k v h]

theorem idx_nat {α : Type} [Zero α] {xs : List α} {k : Nat} (h : k < xs.length) :
    idx xs (k : Int) = .ok (nth xs k) := by
  have h0 : ¬ ((k : Int) < 0) := by omega
  simp [idx, h0, getElem?_eq_nth h]

theorem idx_int {α : Type} [Zero α] {xs : List α} {i : Int} (h0 : 0 ≤ i)
    (h : i < xs.length) : idx xs i = .ok (nth xs i.toNat) := by
  have hk : i.toNat < xs.length := by omega
  have := idx_nat hk
  rwa [Int.toNat_of_nonneg h0] at this

theorem idx_neg {α : Type} {xs : List α} {i : Int} (h : i < 0) :
    idx xs i = .error .indexOutOfRange := by
  simp [idx, h]

theorem idx_ge {α : Type} {xs : List α} {i : Int} (h : (xs.length : Int) ≤ i) :
    idx xs i = .error .indexOutOfRange := by
  have h0 : ¬ (i < 0) := by omega
  have h1 : xs.length ≤ i.toNat := by omega
  simp [idx, h0, List.getElem?_eq_none h1]

theorem idx_ok_iff {α : Type} [Zero α] {xs : List α} {i : Int} {a : α} :
    idx xs i = .ok a ↔ 0 ≤ i ∧ i < xs.length ∧ nth xs i.toNat = a := by
  by_cases h0 : i < 0
  · simp [idx_neg h0]; omega
  · by_cases h1 : (xs.length : Int) ≤ i
    · simp [idx_ge h1]; omega
    · rw [idx_int (by omega) (by omega)]
      constructor
      · intro h; exact ⟨by omega, by omega, Except.ok.inj h⟩
      · rintro ⟨_, _, h⟩; rw [h]

theorem idx_error {α : Type} {xs : List α} {i : Int} {e : Err} (h : idx xs i = .error e) :
    e = .indexOutOfRange := by
  unfold idx at h
  split at h
  · exact (Except.error.inj h).symm
  · split at h
    · cases h
    · exact (Except.error.inj h).symm

theorem upd_nat {α : Type} {xs : List α} {k : Nat} (a : α) (h : k < xs.length) :
    upd xs (k : Int) a = .ok (xs.set k a) := by
  have h0 : ¬ ((k : Int) < 0) := by omega
  simp [upd, h0, h]

theorem upd_int {α : Type} {xs : List α} {i : Int} (a : α) (h0 : 0 ≤ i)
    (h : i < xs.length) : upd xs i a = .ok (xs.set i.toNat a) := by
  have hk : i.toNat < xs.length := by omega
  have := upd_nat a hk
  rwa [Int.toNat_of_nonneg h0] at this

theorem upd_neg {α : Type} {xs : List α} {i : Int} (a : α) (h : i < 0) :
    upd xs i a = .error .indexOutOfRange := by
  simp [upd, h]

theorem upd_ge {α : Type} {xs : List α} {i : Int} (a : α) (h : (xs.length : Int) ≤ i) :
    upd xs i a = .error .indexOutOfRange := by
  have h0 : ¬ (i < 0) := by omega
  have h1 : ¬ (i.toNat < xs.length) := by omega
  simp [upd, h0, h1]

theorem upd_error {α : Type} {xs : List α} {i : Int} {a : α} {e : Err}
    (h : upd xs i a = .error e) : e = .indexOutOfRange := by
  unfold upd at h
  split at h
  · exact (Except.error.inj h).symm
  · split at h
    · cases h
    · exact (Except.error.inj h).symm

/-! ## Matrix access -/

theorem length_getD_of_wide {cost : List (List ℚ)} {n i : Nat}
    (hw : ∀ row ∈ cost, n ≤ row.length) (hi : i < cost.length) :
    n ≤ (cost.getD i []).length := by
  have : cost.getD i [] = cost[i] := by
    simp [List.getD_eq_getElem?_getD, List.getElem?_eq_getElem hi]
  rw [this]
  exact hw _ (List.getElem_mem hi)

theorem idx_row {cost : List (List ℚ)} {i : Nat} (hi : i < cost.length) :
    idx cost (i : Int) = .ok (cost.getD i []) := by
  have h0 : ¬ ((i : Int) < 0) := by omega
  simp [idx, h0, List.getD_eq_getElem?_getD, List.getElem?_eq_getElem hi]

theorem cell_nat {cost : List (List ℚ)} {n i j : Nat}
    (hw : ∀ row ∈ cost, n ≤ row.length) (hi : i < cost.length) (hj : j < n) :
    cell cost (i : Int) (j : Int) = .ok (ent cost i j) := by
  have hlen := length_getD_of_wide hw hi
  have hj' : j < (cost.getD i []).length := by omega
  simp only [cell, idx_row hi, bind, Except.bind, idx_nat hj', ent]

theorem cell_int {cost : List (List ℚ)} {n : Nat} {i j : Int}
    (hw : ∀ row ∈ cost, n ≤ row.length) (hi0 : 0 ≤ i) (hi : i < cost.length)
    (hj0 : 0 ≤ j) (hj : j < n) :
    cell cost i j = .ok (ent cost i.toNat j.toNat) := by
  have h := cell_nat (i := i.toNat) (j := j.toNat) hw (by omega) (by omega)
  rwa [Int.toNat_of_nonneg hi0, Int.toNat_of_nonneg hj0] at h

theorem cell_error {cost : List (List ℚ)} {i j : Int} {e : Err}
    (h : cell cost i j = .error e) : e = .indexOutOfRange := by
  unfold cell at h
  cases hr : idx cost i with
  | error e' =>
    rw [hr] at h
    have := idx_error hr
    simp only [bind, Except.bind] at h
    cases h; exact this
  | ok row =>
    rw [hr] at h
    simp only [bind, Except.bind] at h
    exact idx_error h

/-! ## Counting loops -/

theorem forLoop_zero {σ : Type} (body : Nat → σ → Res σ) (k : Nat) (st : σ) :
    forLoop body 0 k st = .ok st := rfl

theorem forLoop_succ {σ : Type} (body : Nat → σ → Res σ) (cnt k : Nat) (st : σ) :
    forLoop body (cnt + 1) k st = (body k st >>= fun st' => forLoop body cnt (k + 1) st') := rfl

/-- Invariant rule: if every iteration succeeds and carries `Inv k` to `Inv (k+1)`, the loop
succeeds and establishes the invariant at the upper bound. -/
theorem forLoop_ok {σ : Type} (body : Nat → σ → Res σ) (Inv : Nat → σ → Prop) :
    ∀ (cnt lo : Nat) (st : σ), Inv lo st →
      (∀ k st, lo ≤ k → k < lo + cnt → Inv k st → ∃ st', body k st = .ok st' ∧ Inv (k + 1) st') →
      ∃ st', forLoop body cnt lo st = .ok st' ∧ Inv (lo + cnt) st' := by
  intro cnt
  induction cnt with
  | zero => intro lo st h0 _; exact ⟨st, rfl, by simpa using h0⟩
  | succ c ih =>
    intro lo st h0 hstep
    obtain ⟨st1, hb, h1⟩ := hstep lo st (le_refl _) (by omega) h0
    obtain ⟨st2, hl, h2⟩ := ih (lo + 1) st1 h1 (fun k st hk1 hk2 hi =>
      hstep k st (by omega) (by omega) hi)
    refine ⟨st2, ?_, ?_⟩
    · rw [forLoop_succ, hb]; exact hl
    · have : lo + (c + 1) = lo + 1 + c := by omega
      rw [this]; exact h2

/-- Failure rule: if the iterations before `k0` succeed and carry the invariant, and iteration
`k0` fails with `e` on every state satisfying the invariant, the loop fails with `e`. -/
theorem forLoop_error {σ : Type} (body : Nat → σ → Res σ) (Inv : Nat → σ → Prop) (e : Err) :
    ∀ (cnt lo : Nat) (st : σ) (k0 : Nat), lo ≤ k0 → k0 < lo + cnt → Inv lo st →
      (∀ k st, lo ≤ k → k < k0 → Inv k st →
        body k st = .error e ∨ ∃ st', body k st = .ok st' ∧ Inv (k + 1) st') →
      (∀ st, Inv k0 st → body k0 st = .error e) →
      forLoop body cnt lo st = .error e := by
  intro cnt
  induction cnt with
  | zero => intro lo st k0 h1 h2; omega
  | succ c ih =>
    intro lo st k0 h1 h2 h0 hstep hfail
    rw [forLoop_succ]
    by_cases hk : lo = k0
    · subst hk
      rw [hfail st h0]; rfl
    · rcases hstep lo st (le_refl _) (by omega) h0 with hb | ⟨st1, hb, hi1⟩
      · rw [hb]; rfl
      · rw [hb]
        exact ih (lo + 1) st1 k0 (by omega) (by omega) hi1
          (fun k st hk1 hk2 hi => hstep k st (by omega) hk2 hi) hfail


/-! ## Dual initialisation (lines 50-62) -/

theorem initRow_spec {cost : List (List ℚ)} {n i : Nat} {u : List ℚ}
    (hn : cost.length = n) (hw : ∀ row ∈ cost, n ≤ row.length) (hi : i < n)
    (hu : u.length = n) :
    ∃ u', initRow cost n i u = .ok u' ∧ u'.length = n ∧
      (∀ i', i' ≠ i → nth u' i' = nth u i') ∧
      (∀ j, j < n → nth u' i ≤ ent cost i j) ∧ (∃ j, j < n ∧ nth u' i = ent cost i j) := by
  have hc0 : cell cost (i : Int) 0 = .ok (ent cost i 0) := by
    have := cell_nat (i := i) (j := 0) hw (by omega) (by omega)
    simpa using this
  have hu0 : upd u (i : Int) (ent cost i 0) = .ok (u.set i (ent cost i 0)) :=
    upd_nat _ (by omega)
  obtain ⟨u', hl, hlen, hoth, hle, hex⟩ := forLoop_ok
    (fun j (w : List ℚ) => do
      let ui ← idx w i
      let c ← cell cost i j
      upd w i (min ui c))
    (fun j w => w.length = n ∧ (∀ i', i' ≠ i → nth w i' = nth u i') ∧
      (∀ j', j' < j → nth w i ≤ ent cost i j') ∧ (∃ j', j' < j ∧ nth w i = ent cost i j'))
    (n - 1) 1 (u.set i (ent cost i 0))
    (by
      refine ⟨by simp [hu], ?_, ?_, ?_⟩
      · intro i' hi'; exact nth_set_ne _ (Ne.symm hi')
      · intro j' hj'
        have : j' = 0 := by omega
        subst this
        rw [nth_set_eq _ (by omega)]
      · exact ⟨0, by omega, nth_set_eq _ (by omega)⟩)
    (by
      rintro j w hj1 hj2 ⟨hwl, hwo, hwle, j0, hj0, hj0e⟩
      have hjn : j < n := by omega
      refine ⟨w.set i (min (nth w i) (ent cost i j)), ?_, ?_, ?_, ?_, ?_⟩
      · simp only [idx_nat (show i < w.length by omega), bind, Except.bind,
          cell_nat hw (show i < cost.length by omega) hjn, upd_nat _ (show i < w.length by omega)]
      · simp [hwl]
      · intro i' hi'; rw [nth_set_ne _ (Ne.symm hi')]; exact hwo i' hi'
      · intro j' hj'
        rw [nth_set_eq _ (by omega)]
        by_cases hjj : j' = j
        · subst hjj; exact min_le_right _ _
        · exact le_trans (min_le_left _ _) (hwle j' (by omega))
      · rw [nth_set_eq _ (by omega)]
        by_cases hm : nth w i ≤ ent cost i j
        · exact ⟨j0, by omega, by rw [min_eq_left hm]; exact hj0e⟩
        · exact ⟨j, by omega, by rw [min_eq_right (le_of_lt (not_le.mp hm))]⟩)
  have hn1 : 1 + (n - 1) = n := by omega
  rw [hn1] at hle hex
  refine ⟨u', ?_, hlen, hoth, hle, hex⟩
  simp only [initRow, hc0, bind, Except.bind, hu0]
  exact hl

theorem initCol_spec {cost : List (List ℚ)} {n j : Nat} {u v : List ℚ}
    (hn : cost.length = n) (hw : ∀ row ∈ cost, n ≤ row.length) (hj : j < n)
    (hu : u.length = n) (hv : v.length = n) :
    ∃ v', initCol cost n u j v = .ok v' ∧ v'.length = n ∧
      (∀ j', j' ≠ j → nth v' j' = nth v j') ∧
      (∀ i, i < n → nth v' j ≤ ent cost i j - nth u i) ∧
      (∃ i, i < n ∧ nth v' j = ent cost i j - nth u i) := by
  have hc0 : cell cost 0 (j : Int) = .ok (ent cost 0 j) := by
    have := cell_nat (i := 0) (j := j) hw (by omega) hj
    simpa using this
  have hu0 : idx u 0 = .ok (nth u 0) := by
    have := @idx_nat _ _ u 0 (by omega)
    simpa using this
  have hv0 : upd v (j : Int) (ent cost 0 j - nth u 0) = .ok (v.set j (ent cost 0 j - nth u 0)) :=
    upd_nat _ (by omega)
  obtain ⟨v', hl, hlen, hoth, hle, hex⟩ := forLoop_ok
    (fun i (w : List ℚ) => do
      let vj ← idx w j
      let c ← cell cost i j
      let ui ← idx u i
      upd w j (min vj (c - ui)))
    (fun i w => w.length = n ∧ (∀ j', j' ≠ j → nth w j' = nth v j') ∧
      (∀ i', i' < i → nth w j ≤ ent cost i' j - nth u i') ∧
      (∃ i', i' < i ∧ nth w j = ent cost i' j - nth u i'))
    (n - 1) 1 (v.set j (ent cost 0 j - nth u 0))
    (by
      refine ⟨by simp [hv], ?_, ?_, ?_⟩
      · intro j' hj'; exact nth_set_ne _ (Ne.symm hj')
      · intro i' hi'
        have : i' = 0 := by omega
        subst this
        rw [nth_set_eq _ (by omega)]
      · exact ⟨0, by omega, nth_set_eq _ (by omega)⟩)
    (by
      rintro i w hi1 hi2 ⟨hwl, hwo, hwle, i0, hi0, hi0e⟩
      have hin : i < n := by omega
      refine ⟨w.set j (min (nth w j) (ent cost i j - nth u i)), ?_, ?_, ?_, ?_, ?_⟩
      · simp only [idx_nat (show j < w.length by omega), bind, Except.bind,
          cell_nat hw (show i < cost.length by omega) hj, upd_nat _ (show j < w.length by omega),
          idx_nat (show i < u.length by omega)]
      · simp [hwl]
      · intro j' hj'; rw [nth_set_ne _ (Ne.symm hj')]; exact hwo j' hj'
      · intro i' hi'
        rw [nth_set_eq _ (by omega)]
        by_cases hii : i' = i
        · subst hii; exact min_le_right _ _
        · exact le_trans (min_le_left _ _) (hwle i' (by omega))
      · rw [nth_set_eq _ (by omega)]
        by_cases hm : nth w j ≤ ent cost i j - nth u i
        · exact ⟨i0, by omega, by rw [min_eq_left hm]; exact hi0e⟩
        · exact ⟨i, by omega, by rw [min_eq_right (le_of_lt (not_le.mp hm))]⟩)
  have hn1 : 1 + (n - 1) = n := by omega
  rw [hn1] at hle hex
  refine ⟨v', ?_, hlen, hoth, hle, hex⟩
  simp only [initCol, hc0, bind, Except.bind, hu0, hv0]
  exact hl

/-- The dual initialisation succeeds on every matrix whose rows are at least `n` long; `u[i]`
is the least entry of row `i` and `v[j]` the least value of `cost[i][j] - u[i]` in column `j`. -/
theorem initDuals_spec {cost : List (List ℚ)} {n : Nat}
    (hn : cost.length = n) (hw : ∀ row ∈ cost, n ≤ row.length) :
    ∃ u v, initDuals cost n = .ok (u, v) ∧ u.length = n ∧ v.length = n ∧
      (∀ i, i < n → (∀ j, j < n → nth u i ≤ ent cost i j) ∧ ∃ j, j < n ∧ nth u i = ent cost i j) ∧
      (∀ j, j < n → (∀ i, i < n → nth v j ≤ ent cost i j - nth u i) ∧
        ∃ i, i < n ∧ nth v j = ent cost i j - nth u i) := by
  obtain ⟨u, hlu, hulen, hu⟩ := forLoop_ok (initRow cost n)
    (fun i (w : List ℚ) => w.length = n ∧ ∀ i', i' < i →
      (∀ j, j < n → nth w i' ≤ ent cost i' j) ∧ ∃ j, j < n ∧ nth w i' = ent cost i' j)
    n 0 (List.replicate n 0) ⟨by simp, fun i' hi' => by omega⟩
    (by
      rintro i w _ hi ⟨hwl, hwp⟩
      obtain ⟨w', hr, hl, hoth, hle, hex⟩ := initRow_spec hn hw (show i < n by omega) hwl
      refine ⟨w', hr, hl, ?_⟩
      intro i' hi'
      by_cases hii : i' = i
      · subst hii; exact ⟨hle, hex⟩
      · rw [hoth i' hii]; exact hwp i' (by omega))
  obtain ⟨v, hlv, hvlen, hv⟩ := forLoop_ok (initCol cost n u)
    (fun j (w : List ℚ) => w.length = n ∧ ∀ j', j' < j →
      (∀ i, i < n → nth w j' ≤ ent cost i j' - nth u i) ∧
        ∃ i, i < n ∧ nth w j' = ent cost i j' - nth u i)
    n 0 (List.replicate n 0) ⟨by simp, fun j' hj' => by omega⟩
    (by
      rintro j w _ hj ⟨hwl, hwp⟩
      obtain ⟨w', hr, hl, hoth, hle, hex⟩ :=
        initCol_spec hn hw (show j < n by omega) hulen hwl
      refine ⟨w', hr, hl, ?_⟩
      intro j' hj'
      by_cases hjj : j' = j
      · subst hjj; exact ⟨hle, hex⟩
      · rw [hoth j' hjj]; exact hwp j' (by omega))
  simp only [Nat.zero_add] at hu hv
  refine ⟨u, v, ?_, hulen, hvlen, hu, hv⟩
  simp only [initDuals, hlu, bind, Except.bind, hlv, pure, Except.pure]

/-- After the dual initialisation every reduced cost is non-negative. -/
theorem red_nonneg_of_init {cost : List (List ℚ)} {n : Nat} {u v : List ℚ}
    (hv : ∀ j, j < n → ∀ i, i < n → nth v j ≤ ent cost i j - nth u i)
    {i j : Nat} (hi : i < n) (hj : j < n) : 0 ≤ red cost u v i j := by
  have := hv j hj i hi
  unfold red; linarith


/-! ## Unmatched indices -/

theorem mem_free {n : Nat} {xs : List Int} {k : Nat} :
    k ∈ free n xs ↔ k < n ∧ nth xs k = -1 := by
  simp [free]

theorem free_set_erase {n : Nat} {xs : List Int} {k : Nat} {a : Int}
    (hk : k < xs.length) (ha : a ≠ -1) :
    free n (xs.set k a) = (free n xs).erase k := by
  ext x
  simp only [mem_free, Finset.mem_erase, nth_set a hk]
  by_cases hx : x = k
  · subst hx; simp [ha]
  · simp [hx]

theorem card_free_set {n : Nat} {xs : List Int} {k : Nat} {a : Int}
    (hk : k < xs.length) (hkn : k < n) (hfree : nth xs k = -1) (ha : a ≠ -1) :
    (free n (xs.set k a)).card + 1 = (free n xs).card := by
  rw [free_set_erase hk ha]
  exact Finset.card_erase_add_one (mem_free.mpr ⟨hkn, hfree⟩)

theorem free_set_same {n : Nat} {xs : List Int} {k : Nat} {a : Int}
    (hk : k < xs.length) (hold : nth xs k ≠ -1) (ha : a ≠ -1) :
    free n (xs.set k a) = free n xs := by
  ext x
  simp only [mem_free, nth_set a hk]
  by_cases hx : x = k
  · subst hx; simp [ha, hold]
  · simp [hx]

theorem card_free_le (n : Nat) (xs : List Int) : (free n xs).card ≤ n := by
  have := Finset.card_filter_le (Finset.range n) (fun k => nth xs k = -1)
  simpa [free] using this

/-! ## Greedy pass (lines 64-81) -/

/-- The column scan of row `i`: it stops at the first unmatched column whose reduced cost
passes `zero`, and changes nothing when there is none. -/
theorem greedyRow_spec {cost : List (List ℚ)} {n i : Nat} {u v : List ℚ} {m : Mate}
    (hn : cost.length = n) (hw : ∀ row ∈ cost, n ≤ row.length) (hi : i < n)
    (hu : u.length = n) (hv : v.length = n) (hL : m.L.length = n) (hR : m.R.length = n) :
    ∀ cnt j, j + cnt = n →
      (∀ j', j' < j → nth m.R j' ≠ -1 ∨ zero (red cost u v i j') = false) →
      (∃ j0, j0 < n ∧ nth m.R j0 = -1 ∧ zero (red cost u v i j0) = true ∧
          (∀ j', j' < j0 → nth m.R j' ≠ -1 ∨ zero (red cost u v i j') = false) ∧
          greedyRow cost u v i cnt j m = .ok ⟨m.L.set i j0, m.R.set j0 i, m.mated + 1⟩) ∨
      ((∀ j', j' < n → nth m.R j' ≠ -1 ∨ zero (red cost u v i j') = false) ∧
          greedyRow cost u v i cnt j m = .ok m) := by
  intro cnt
  induction cnt with
  | zero =>
    intro j hj hpre
    right
    have : j = n := by omega
    subst this
    exact ⟨hpre, rfl⟩
  | succ c ih =>
    intro j hj hpre
    have hjn : j < n := by omega
    have hidx : idx m.R (j : Int) = .ok (nth m.R j) := idx_nat (by omega)
    by_cases hr : nth m.R j ≠ -1
    · have hnext := ih (j + 1) (by omega) (fun j' hj' => by
        by_cases hjj : j' = j
        · subst hjj; exact Or.inl hr
        · exact hpre j' (by omega))
      have hunf : greedyRow cost u v i (c + 1) j m = greedyRow cost u v i c (j + 1) m := by
        simp only [greedyRow, hidx, bind, Except.bind]
        rw [if_pos hr]
      rw [hunf]; exact hnext
    · have hr' : nth m.R j = -1 := by simpa using hr
      have hcell : cell cost (i : Int) (j : Int) = .ok (ent cost i j) :=
        cell_nat hw (by omega) hjn
      have hui : idx u (i : Int) = .ok (nth u i) := idx_nat (by omega)
      have hvj : idx v (j : Int) = .ok (nth v j) := idx_nat (by omega)
      by_cases hz : zero (red cost u v i j) = true
      · left
        refine ⟨j, hjn, hr', hz, hpre, ?_⟩
        have hz' : zero (ent cost i j - nth u i - nth v j) = true := hz
        simp only [greedyRow, hidx, bind, Except.bind]
        rw [if_neg hr]
        simp only [hcell, hui, hvj, hz',
          upd_nat _ (show i < m.L.length by omega), upd_nat _ (show j < m.R.length by omega),
          pure, Except.pure, if_true]
      · have hz0 : zero (red cost u v i j) = false := by simpa using hz
        have hnext := ih (j + 1) (by omega) (fun j' hj' => by
          by_cases hjj : j' = j
          · subst hjj; exact Or.inr hz0
          · exact hpre j' (by omega))
        have hz' : zero (ent cost i j - nth u i - nth v j) = false := hz0
        have hunf : greedyRow cost u v i (c + 1) j m = greedyRow cost u v i c (j + 1) m := by
          simp only [greedyRow, hidx, bind, Except.bind]
          rw [if_neg hr]
          simp only [hcell, hui, hvj, hz']
          simp
        rw [hunf]; exact hnext

theorem greedyInv_init (cost : List (List ℚ)) (n : Nat) (u v : List ℚ) :
    GreedyInv cost n u v 0 ⟨vi n (-1), vi n (-1), 0⟩ := by
  have hfree : free n (vi n (-1)) = Finset.range n := by
    ext x
    simp only [mem_free, Finset.mem_range]
    constructor
    · exact fun h => h.1
    · exact fun h => ⟨h, nth_vi n x (-1) h⟩
  refine ⟨⟨by simp, by simp, ?_, ?_, ?_⟩, ?_, ?_, ?_, ?_⟩
  · intro i hi; rw [nth_vi n i _ hi]; omega
  · intro i hi; rw [nth_vi n i _ hi]; omega
  · intro i j hi hj
    rw [nth_vi n i _ hi, nth_vi n j _ hj]
    constructor <;> intro h <;> omega
  · intro i' _ hi'; exact nth_vi n i' _ hi'
  · simp [hfree]
  · simp [hfree]
  · intro i j hi hj h
    rw [nth_vi n i _ hi] at h
    omega

theorem matching_set {n : Nat} {L R : List Int} (hm : Matching n L R) {i j : Nat}
    (hi : i < n) (hj : j < n) (hLi : nth L i = -1) (hRj : nth R j = -1) :
    Matching n (L.set i j) (R.set j i) := by
  have hiL : i < L.length := by rw [hm.lenL]; exact hi
  have hjR : j < R.length := by rw [hm.lenR]; exact hj
  refine ⟨by simp [hm.lenL], by simp [hm.lenR], ?_, ?_, ?_⟩
  · intro a ha
    rw [nth_set _ hiL]
    split
    · omega
    · exact hm.rangeL a ha
  · intro b hb
    rw [nth_set _ hjR]
    split
    · omega
    · exact hm.rangeR b hb
  · intro a b ha hb
    rw [nth_set _ hiL, nth_set _ hjR]
    by_cases hai : a = i
    · subst hai
      by_cases hbj : b = j
      · subst hbj; simp
      · simp only [if_true, hbj, if_false]
        constructor
        · intro h; omega
        · intro h
          have := (hm.inv a b ha hb).mpr h
          omega
    · by_cases hbj : b = j
      · subst hbj
        simp only [hai, if_false, if_true]
        constructor
        · intro h
          have := (hm.inv a b ha hb).mp h
          omega
        · intro h; omega
      · simp only [hai, hbj, if_false]
        exact hm.inv a b ha hb

theorem greedy_step {cost : List (List ℚ)} {n i : Nat} {u v : List ℚ} {m : Mate}
    (hn : cost.length = n) (hw : ∀ row ∈ cost, n ≤ row.length) (hi : i < n)
    (hu : u.length = n) (hv : v.length = n) (hinv : GreedyInv cost n u v i m) :
    ∃ m', greedyRow cost u v i n 0 m = .ok m' ∧ GreedyInv cost n u v (i + 1) m' := by
  have hL := hinv.matching.lenL
  have hR := hinv.matching.lenR
  rcases greedyRow_spec (m := m) hn hw hi hu hv hL hR n 0 (by omega) (fun j' hj' => by omega)
    with ⟨j0, hj0, hfree, hz, _, hrun⟩ | ⟨_, hrun⟩
  · refine ⟨_, hrun, ?_⟩
    have hLi : nth m.L i = -1 := hinv.later i (le_refl _) hi
    refine ⟨matching_set hinv.matching hi hj0 hLi hfree, ?_, ?_, ?_, ?_⟩
    · intro i' h1 h2
      show nth (m.L.set i j0) i' = -1
      rw [nth_set_ne _ (by omega)]
      exact hinv.later i' (by omega) h2
    · have := card_free_set (n := n) (a := (j0 : Int)) (show i < m.L.length by omega) hi hLi
        (by omega)
      have := hinv.rows
      show m.mated + 1 + (free n (m.L.set i j0)).card = n
      omega
    · have := card_free_set (n := n) (a := (i : Int)) (show j0 < m.R.length by omega) hj0 hfree
        (by omega)
      have := hinv.cols
      show m.mated + 1 + (free n (m.R.set j0 i)).card = n
      omega
    · intro a b ha hb hab
      have hab' : nth (m.L.set i j0) a = (b : Int) := hab
      rw [nth_set _ (show i < m.L.length by omega)] at hab'
      by_cases hai : a = i
      · subst hai
        simp only [if_true] at hab'
        have : j0 = b := by omega
        subst this; exact hz
      · simp only [hai, if_false] at hab'
        exact hinv.tight a b ha hb hab'
  · refine ⟨m, hrun, hinv.matching, ?_, hinv.rows, hinv.cols, hinv.tight⟩
    intro i' h1 h2
    exact hinv.later i' (by omega) h2

/-- The greedy pass succeeds and leaves a partial matching along edges passing `zero`, with
`mated` counting its pairs. -/
theorem greedy_spec {cost : List (List ℚ)} {n : Nat} {u v : List ℚ}
    (hn : cost.length = n) (hw : ∀ row ∈ cost, n ≤ row.length)
    (hu : u.length = n) (hv : v.length = n) :
    ∃ m, greedy cost n u v = .ok m ∧ GreedyInv cost n u v n m := by
  obtain ⟨m, hrun, hinv⟩ := forLoop_ok (fun i m => greedyRow cost u v i n 0 m)
    (fun i m => GreedyInv cost n u v i m) n 0 ⟨vi n (-1), vi n (-1), 0⟩
    (greedyInv_init cost n u v)
    (fun k st _ hk hinv => greedy_step hn hw (by omega) hu hv hinv)
  simp only [Nat.zero_add] at hinv
  exact ⟨m, hrun, hinv⟩


/-! ## One augmentation round: picking the free row and the search (lines 84-122) -/

/-- The scan `for L[s] != -1 { s++ }` stops at the first unmatched row when there is one. -/
theorem findFree_spec {L : List Int} {n : Nat} (hL : L.length = n) :
    ∀ cnt s, (∀ i, i < s → nth L i ≠ -1) → (∃ s0, s ≤ s0 ∧ s0 < n ∧ nth L s0 = -1) →
      n < s + cnt →
      ∃ s1, findFree L cnt s = .ok s1 ∧ s1 < n ∧ nth L s1 = -1 ∧ ∀ i, i < s1 → nth L i ≠ -1 := by
  intro cnt
  induction cnt with
  | zero =>
    rintro s _ ⟨s0, h1, h2, _⟩ h3
    omega
  | succ c ih =>
    rintro s hpre ⟨s0, h1, h2, h3⟩ hc
    have hs : s < n := by omega
    have hidx : idx L (s : Int) = .ok (nth L s) := idx_nat (by omega)
    by_cases hl : nth L s ≠ -1
    · have hne : s ≠ s0 := fun h => hl (h ▸ h3)
      obtain ⟨s1, hrun, hres⟩ := ih (s + 1) (fun i hi => by
          by_cases his : i = s
          · subst his; exact hl
          · exact hpre i (by omega)) ⟨s0, by omega, h2, h3⟩ (by omega)
      refine ⟨s1, ?_, hres⟩
      simp only [findFree, hidx, bind, Except.bind]
      rw [if_pos hl]; exact hrun
    · refine ⟨s, ?_, hs, by simpa using hl, hpre⟩
      simp only [findFree, hidx, bind, Except.bind]
      rw [if_neg hl]; rfl

/-- Lines 90-92: `dist[k] = cost[s][k] - u[s] - v[k]` for every column `k`. -/
theorem distInit_spec {cost : List (List ℚ)} {n s : Nat} {u v dist : List ℚ}
    (hn : cost.length = n) (hw : ∀ row ∈ cost, n ≤ row.length) (hs : s < n)
    (hu : u.length = n) (hv : v.length = n) (hd : dist.length = n) :
    ∃ dist', forLoop (fun k dist => do
        let c ← cell cost s k
        let us ← idx u s
        let vk ← idx v k
        upd dist k (c - us - vk)) n 0 dist = .ok dist' ∧ dist'.length = n ∧
      ∀ k, k < n → nth dist' k = red cost u v s k := by
  obtain ⟨d', hrun, hlen, hval⟩ := forLoop_ok
    (fun k (dist : List ℚ) => do
        let c ← cell cost s k
        let us ← idx u s
        let vk ← idx v k
        upd dist k (c - us - vk))
    (fun k (w : List ℚ) => w.length = n ∧ ∀ k', k' < k → nth w k' = red cost u v s k')
    n 0 dist ⟨hd, fun k' hk' => by omega⟩
    (by
      rintro k w _ hk ⟨hwl, hwv⟩
      have hkn : k < n := by omega
      refine ⟨w.set k (ent cost s k - nth u s - nth v k), ?_, by simp [hwl], ?_⟩
      · simp only [cell_nat hw (show s < cost.length by omega) hkn, bind, Except.bind,
          idx_nat (show s < u.length by omega), idx_nat (show k < v.length by omega),
          upd_nat _ (show k < w.length by omega)]
      · intro k' hk'
        by_cases hkk : k' = k
        · subst hkk; rw [nth_set_eq _ (by omega)]; rfl
        · rw [nth_set_ne _ (Ne.symm hkk)]; exact hwv k' (by omega))
  simp only [Nat.zero_add] at hval
  exact ⟨d', hrun, hlen, hval⟩

/-- The selection loop returns an unsettled column of least `dist`, or `-1` when every column
is settled. -/
theorem closest_spec {dist : List ℚ} {seen : List Int} {n : Nat}
    (hd : dist.length = n) (hs : seen.length = n) :
    ∀ cnt k (j : Int), k + cnt = n →
      ((j = -1 ∧ ∀ k', k' < k → nth seen k' ≠ 0) ∨
        (∃ j0 : Nat, j = (j0 : Int) ∧ j0 < k ∧ nth seen j0 = 0 ∧
          ∀ k', k' < k → nth seen k' = 0 → nth dist j0 ≤ nth dist k')) →
      ∃ j', closest dist seen cnt k j = .ok j' ∧
        ((j' = -1 ∧ ∀ k', k' < n → nth seen k' ≠ 0) ∨
          (∃ j0 : Nat, j' = (j0 : Int) ∧ j0 < n ∧ nth seen j0 = 0 ∧
            ∀ k', k' < n → nth seen k' = 0 → nth dist j0 ≤ nth dist k')) := by
  intro cnt
  induction cnt with
  | zero =>
    intro k j hk h
    have : k = n := by omega
    subst this
    exact ⟨j, rfl, h⟩
  | succ c ih =>
    intro k j hk h
    have hkn : k < n := by omega
    have hidx : idx seen (k : Int) = .ok (nth seen k) := idx_nat (by omega)
    by_cases hsk : nth seen k ≠ 0
    · have hunf : closest dist seen (c + 1) k j = closest dist seen c (k + 1) j := by
        simp only [closest, hidx, bind, Except.bind]
        rw [if_pos hsk]
      rw [hunf]
      apply ih (k + 1) j (by omega)
      rcases h with ⟨hj, hall⟩ | ⟨j0, hj, hj0, hsj, hmin⟩
      · left
        refine ⟨hj, fun k' hk' => ?_⟩
        by_cases hkk : k' = k
        · subst hkk; exact hsk
        · exact hall k' (by omega)
      · right
        refine ⟨j0, hj, by omega, hsj, fun k' hk' hs' => ?_⟩
        by_cases hkk : k' = k
        · subst hkk; exact absurd hs' hsk
        · exact hmin k' (by omega) hs'
    · have hsk0 : nth seen k = 0 := by simpa using hsk
      rcases h with ⟨hj, hall⟩ | ⟨j0, hj, hj0, hsj, hmin⟩
      · have hunf : closest dist seen (c + 1) k j = closest dist seen c (k + 1) k := by
          simp only [closest, hidx, bind, Except.bind]
          rw [if_neg hsk, if_pos hj]
        rw [hunf]
        apply ih (k + 1) k (by omega)
        right
        refine ⟨k, rfl, by omega, hsk0, fun k' hk' hs' => ?_⟩
        by_cases hkk : k' = k
        · subst hkk; exact le_refl _
        · exact absurd hs' (hall k' (by omega))
      · have hjne : j ≠ -1 := by omega
        have hidk : idx dist (k : Int) = .ok (nth dist k) := idx_nat (by omega)
        have hidj : idx dist j = .ok (nth dist j0) := by
          rw [hj]; exact idx_nat (by omega)
        by_cases hlt : nth dist k < nth dist j0
        · have hunf : closest dist seen (c + 1) k j = closest dist seen c (k + 1) k := by
            simp only [closest, hidx, bind, Except.bind]
            rw [if_neg hsk, if_neg hjne]
            simp only [hidk, hidj]
            rw [if_pos hlt]
          rw [hunf]
          apply ih (k + 1) k (by omega)
          right
          refine ⟨k, rfl, by omega, hsk0, fun k' hk' hs' => ?_⟩
          by_cases hkk : k' = k
          · subst hkk; exact le_refl _
          · exact le_trans (le_of_lt hlt) (hmin k' (by omega) hs')
        · have hunf : closest dist seen (c + 1) k j = closest dist seen c (k + 1) j := by
            simp only [closest, hidx, bind, Except.bind]
            rw [if_neg hsk, if_neg hjne]
            simp only [hidk, hidj]
            rw [if_neg hlt]
          rw [hunf]
          apply ih (k + 1) j (by omega)
          right
          refine ⟨j0, hj, by omega, hsj, fun k' hk' hs' => ?_⟩
          by_cases hkk : k' = k
          · subst hkk; exact not_lt.mp hlt
          · exact hmin k' (by omega) hs'

/-- The relaxation loop through row `i`, the partner of the settled column `j`: an unsettled
column `k` with `dist[k] > dist[j] + red i k` gets that value and `dad[k] = j`; nothing else
changes. -/
theorem relax_spec {cost : List (List ℚ)} {n j i : Nat} {u v : List ℚ} {sc : Scratch}
    (hn : cost.length = n) (hw : ∀ row ∈ cost, n ≤ row.length)
    (hu : u.length = n) (hv : v.length = n) (hj : j < n) (hi : i < n)
    (hsj : nth sc.seen j ≠ 0)
    (hd : sc.dist.length = n) (hdad : sc.dad.length = n) (hseen : sc.seen.length = n) :
    ∃ sc', relax cost n u v j i sc = .ok sc' ∧ sc'.seen = sc.seen ∧
      sc'.dist.length = n ∧ sc'.dad.length = n ∧
      ∀ k, k < n →
        (nth sc.seen k = 0 ∧ nth sc.dist k > nth sc.dist j + red cost u v i k →
          nth sc'.dist k = nth sc.dist j + red cost u v i k ∧ nth sc'.dad k = (j : Int)) ∧
        (¬ (nth sc.seen k = 0 ∧ nth sc.dist k > nth sc.dist j + red cost u v i k) →
          nth sc'.dist k = nth sc.dist k ∧ nth sc'.dad k = nth sc.dad k) := by
  obtain ⟨sc', hrun, hs', hdl, hdadl, _, hval⟩ := forLoop_ok
    (fun k (sc : Scratch) => do
      let sk ← idx sc.seen k
      if sk ≠ 0 then pure sc
      else do
        let dj ← idx sc.dist (j : Int)
        let c ← cell cost (i : Int) k
        let ui ← idx u (i : Int)
        let vk ← idx v k
        let new_dist := dj + c - ui - vk
        let dk ← idx sc.dist k
        if dk > new_dist then do
          let dist ← upd sc.dist k new_dist
          let dad ← upd sc.dad k (j : Int)
          pure { sc with dist := dist, dad := dad }
        else pure sc)
    (fun k (w : Scratch) => w.seen = sc.seen ∧ w.dist.length = n ∧ w.dad.length = n ∧
      (∀ k', k ≤ k' → nth w.dist k' = nth sc.dist k' ∧ nth w.dad k' = nth sc.dad k') ∧
      ∀ k', k' < k →
        (nth sc.seen k' = 0 ∧ nth sc.dist k' > nth sc.dist j + red cost u v i k' →
          nth w.dist k' = nth sc.dist j + red cost u v i k' ∧ nth w.dad k' = (j : Int)) ∧
        (¬ (nth sc.seen k' = 0 ∧ nth sc.dist k' > nth sc.dist j + red cost u v i k') →
          nth w.dist k' = nth sc.dist k' ∧ nth w.dad k' = nth sc.dad k'))
    n 0 sc ⟨rfl, hd, hdad, fun _ _ => ⟨rfl, rfl⟩, fun k' hk' => by omega⟩
    (by
      rintro k w _ hk ⟨hws, hwd, hwdad, hrest, hdone⟩
      have hkn : k < n := by omega
      have hidx : idx w.seen (k : Int) = .ok (nth sc.seen k) := by
        rw [hws]; exact idx_nat (by omega)
      -- the entry of the settled column is never overwritten
      have hwj : nth w.dist j = nth sc.dist j := by
        by_cases hjk : k ≤ j
        · exact (hrest j hjk).1
        · exact ((hdone j (by omega)).2 (fun h => hsj h.1)).1
      by_cases hsk : nth sc.seen k ≠ 0
      · refine ⟨w, ?_, hws, hwd, hwdad, fun k' hk' => hrest k' (by omega), ?_⟩
        · simp only [hidx, bind, Except.bind]
          rw [if_pos hsk]; rfl
        · intro k' hk'
          by_cases hkk : k' = k
          · subst hkk
            exact ⟨fun h => absurd h.1 hsk, fun _ => hrest k' (le_refl _)⟩
          · exact hdone k' (by omega)
      · have hsk0 : nth sc.seen k = 0 := by simpa using hsk
        have hdj : idx w.dist (j : Int) = .ok (nth sc.dist j) := by
          rw [← hwj]; exact idx_nat (by omega)
        have hc : cell cost (i : Int) (k : Int) = .ok (ent cost i k) :=
          cell_nat hw (by omega) hkn
        have hui : idx u (i : Int) = .ok (nth u i) := idx_nat (by omega)
        have hvk : idx v (k : Int) = .ok (nth v k) := idx_nat (by omega)
        have hdk : idx w.dist (k : Int) = .ok (nth sc.dist k) := by
          rw [← (hrest k (le_refl _)).1]; exact idx_nat (by omega)
        have hnew : nth sc.dist j + ent cost i k - nth u i - nth v k =
            nth sc.dist j + red cost u v i k := by
          unfold red; ring
        by_cases hgt : nth sc.dist k > nth sc.dist j + red cost u v i k
        · refine ⟨{ w with dist := w.dist.set k (nth sc.dist j + red cost u v i k),
                           dad := w.dad.set k (j : Int) }, ?_, hws, by simp [hwd],
                   by simp [hwdad], ?_, ?_⟩
          · simp only [hidx, bind, Except.bind]
            rw [if_neg hsk]
            simp only [hdj, hc, hui, hvk, hdk, hnew]
            rw [if_pos hgt]
            simp only [upd_nat _ (show k < w.dist.length by omega),
              upd_nat _ (show k < w.dad.length by omega), pure, Except.pure]
          · intro k' hk'
            show nth (w.dist.set k _) k' = _ ∧ nth (w.dad.set k _) k' = _
            rw [nth_set_ne _ (by omega), nth_set_ne _ (by omega)]
            exact hrest k' (by omega)
          · intro k' hk'
            show (_ → nth (w.dist.set k _) k' = _ ∧ nth (w.dad.set k _) k' = _) ∧
              (_ → nth (w.dist.set k _) k' = _ ∧ nth (w.dad.set k _) k' = _)
            by_cases hkk : k' = k
            · subst hkk
              rw [nth_set_eq _ (by omega), nth_set_eq _ (by omega)]
              exact ⟨fun _ => ⟨rfl, rfl⟩, fun h => absurd ⟨hsk0, hgt⟩ h⟩
            · rw [nth_set_ne _ (Ne.symm hkk), nth_set_ne _ (Ne.symm hkk)]
              exact hdone k' (by omega)
        · refine ⟨w, ?_, hws, hwd, hwdad, fun k' hk' => hrest k' (by omega), ?_⟩
          · simp only [hidx, bind, Except.bind]
            rw [if_neg hsk]
            simp only [hdj, hc, hui, hvk, hdk, hnew]
            rw [if_neg hgt]; rfl
          · intro k' hk'
            by_cases hkk : k' = k
            · subst hkk
              exact ⟨fun h => absurd h.2 hgt, fun _ => hrest k' (le_refl _)⟩
            · exact hdone k' (by omega))
  simp only [Nat.zero_add] at hval
  exact ⟨sc', hrun, hs', hdl, hdadl, hval⟩


/-! ## The search loop -/

theorem mem_seenSet {n : Nat} {seen : List Int} {k : Nat} :
    k ∈ seenSet n seen ↔ k < n ∧ nth seen k ≠ 0 := by
  simp [seenSet]

theorem seenSet_set {n : Nat} {seen : List Int} {j : Nat} (hj : j < n)
    (hlen : seen.length = n) :
    seenSet n (seen.set j 1) = insert j (seenSet n seen) := by
  ext x
  simp only [mem_seenSet, Finset.mem_insert, nth_set (1 : Int) (show j < seen.length by omega)]
  by_cases hx : x = j
  · subst hx; simp [hj]
  · simp [hx]

theorem card_seenSet_set {n : Nat} {seen : List Int} {j : Nat} (hj : j < n)
    (hlen : seen.length = n) (hun : nth seen j = 0) :
    (seenSet n (seen.set j 1)).card = (seenSet n seen).card + 1 := by
  rw [seenSet_set hj hlen]
  exact Finset.card_insert_of_not_mem (fun h => (mem_seenSet.mp h).2 hun)

theorem card_seenSet_le (n : Nat) (seen : List Int) : (seenSet n seen).card ≤ n := by
  have := Finset.card_filter_le (Finset.range n) (fun k => nth seen k ≠ 0)
  simpa [seenSet] using this

theorem card_seen_add_free_le {n : Nat} {seen R : List Int}
    (h : ∀ k, k < n → nth seen k ≠ 0 → 0 ≤ nth R k) :
    (seenSet n seen).card + (free n R).card ≤ n := by
  have hdis : Disjoint (seenSet n seen) (free n R) := by
    rw [Finset.disjoint_left]
    intro k hk hk'
    have h1 := mem_seenSet.mp hk
    have h2 := mem_free.mp hk'
    have := h k h1.1 h1.2
    omega
  have hsub : seenSet n seen ∪ free n R ⊆ Finset.range n := by
    intro k hk
    rcases Finset.mem_union.mp hk with h | h
    · exact Finset.mem_range.mpr (mem_seenSet.mp h).1
    · exact Finset.mem_range.mpr (mem_free.mp h).1
  have := Finset.card_le_card hsub
  rw [Finset.card_union_of_disjoint hdis, Finset.card_range] at this
  exact this

/-- The scratch state at the start of a round satisfies the search invariant. -/
theorem searchInv_init {cost : List (List ℚ)} {n s : Nat} {u v : List ℚ} {R : List Int}
    {dist : List ℚ} {dad seen : List Int}
    (hd : dist.length = n) (hdad : dad.length = n) (hseen : seen.length = n)
    (hdist : ∀ k, k < n → nth dist k = red cost u v s k) :
    SearchInv cost n u v R s (fun _ => 0) ⟨dist, fill dad (-1), fill seen 0⟩ := by
  have hs0 : ∀ k, k < n → nth (fill seen 0) k = 0 := fun k hk =>
    nth_fill seen 0 k (by omega)
  have hd0 : ∀ k, k < n → nth (fill dad (-1)) k = -1 := fun k hk =>
    nth_fill dad (-1) k (by omega)
  refine ⟨hd, by simp [hdad], by simp [hseen], ?_, ?_, ?_, ?_, ?_, ?_, ?_, ?_⟩
  · intro k hk h; exact absurd (hs0 k hk) h
  · intro k hk; show -1 ≤ nth (fill dad (-1)) k ∧ _; rw [hd0 k hk]; omega
  · intro k hk _; exact hdist k hk
  · intro k d hk _ h
    have h' : nth (fill dad (-1)) k = (d : Int) := h
    rw [hd0 k hk] at h'; omega
  · intro k hk h; exact absurd (hs0 k hk) h
  · intro x k hx _ h; exact absurd (hs0 x hx) h
  · intro x k hx _ h; exact absurd (hs0 x hx) h
  · intro k hk; exact le_of_eq (hdist k hk)

/-- The search loop succeeds within the budget whenever an unmatched column exists, and stops
at an unmatched column `j0`. -/
theorem search_spec {cost : List (List ℚ)} {n s : Nat} {u v : List ℚ} {R : List Int}
    (hn : cost.length = n) (hw : ∀ row ∈ cost, n ≤ row.length)
    (hu : u.length = n) (hv : v.length = n) (hR : R.length = n)
    (hrange : ∀ j, j < n → -1 ≤ nth R j ∧ nth R j < n)
    (hfeas : ∀ i k, i < n → k < n → 0 ≤ red cost u v i k)
    (hfree : (free n R).Nonempty) :
    ∀ fuel sc t, SearchInv cost n u v R s t sc →
      n < (seenSet n sc.seen).card + (free n R).card + fuel →
      ∃ (j0 : Nat) (sc' : Scratch) (t' : Nat → Nat),
        search cost n u v R fuel sc = .ok ((j0 : Int), sc') ∧
        SearchDone cost n u v R s t' j0 sc' := by
  intro fuel
  induction fuel with
  | zero =>
    intro sc t hinv hf
    have := card_seen_add_free_le hinv.seenMatched
    omega
  | succ f ih =>
    intro sc t hinv hf
    obtain ⟨fc, hfc⟩ := hfree
    have hfc' := mem_free.mp hfc
    -- selection
    obtain ⟨j, hcl, hj⟩ := closest_spec hinv.lenDist hinv.lenSeen n 0 (-1) (by omega)
      (Or.inl ⟨rfl, fun k' hk' => by omega⟩)
    have hjun : ∃ j0 : Nat, j = (j0 : Int) ∧ j0 < n ∧ nth sc.seen j0 = 0 ∧
        ∀ k', k' < n → nth sc.seen k' = 0 → nth sc.dist j0 ≤ nth sc.dist k' := by
      rcases hj with ⟨_, hall⟩ | h
      · exfalso
        have := hinv.seenMatched fc hfc'.1 (hall fc hfc'.1)
        omega
      · exact h
    obtain ⟨j0, rfl, hj0, hj0un, hj0min⟩ := hjun
    have hupd : upd sc.seen (j0 : Int) 1 = .ok (sc.seen.set j0 1) :=
      upd_nat _ (by rw [hinv.lenSeen]; exact hj0)
    have hidR : idx R (j0 : Int) = .ok (nth R j0) := idx_nat (by omega)
    have hseen' : ∀ k, nth (sc.seen.set j0 1) k = if k = j0 then 1 else nth sc.seen k :=
      fun k => nth_set _ (by rw [hinv.lenSeen]; exact hj0) k
    have hseen_ne : ∀ k, nth (sc.seen.set j0 1) k ≠ 0 ↔ (k = j0 ∨ nth sc.seen k ≠ 0) := by
      intro k; rw [hseen' k]
      by_cases hk : k = j0
      · simp [hk]
      · simp [hk]
    have hseen_eq : ∀ k, nth (sc.seen.set j0 1) k = 0 ↔ (k ≠ j0 ∧ nth sc.seen k = 0) := by
      intro k; rw [hseen' k]
      by_cases hk : k = j0
      · simp [hk]
      · simp [hk]
    have hcard := card_seenSet_set hj0 hinv.lenSeen hj0un
    by_cases hRj : nth R j0 = -1
    · -- the augmenting path ends at `j0`
      refine ⟨j0, { sc with seen := sc.seen.set j0 1 },
        fun k => if k = j0 then (seenSet n sc.seen).card else t k, ?_, ?_⟩
      · simp only [search, hcl, bind, Except.bind, hupd, hidR]
        rw [if_pos hRj]; rfl
      · refine ⟨hinv.lenDist, hinv.lenDad, by simp [hinv.lenSeen], hj0, hRj,
          (hseen_ne j0).mpr (Or.inl rfl), ?_, hinv.dadRange, hinv.dadRoot, ?_, ?_, ?_, ?_, ?_,
          hinv.direct⟩
        · intro k hk hs hne
          rcases (hseen_ne k).mp hs with h | h
          · exact absurd h hne
          · exact hinv.seenMatched k hk h
        · intro k d hk hd hdad
          obtain ⟨h1, h2, h3, h4⟩ := hinv.dadLink k d hk hd hdad
          have hdne : d ≠ j0 := fun h => h1 (h ▸ hj0un)
          refine ⟨(hseen_ne d).mpr (Or.inr h1), h2, h3, ?_⟩
          intro hs
          simp only [hdne, if_false]
          rcases (hseen_ne k).mp hs with h | h
          · simp only [h, if_true]
            exact hinv.rankBound d hd h1
          · have hkne : k ≠ j0 := fun h' => h (h' ▸ hj0un)
            simp only [hkne, if_false]
            exact h4 h
        · intro k hk hs
          have hle := card_seenSet_le n sc.seen
          have hle' := card_seenSet_le n (sc.seen.set j0 1)
          by_cases hkj : k = j0
          · simp only [hkj, if_true]; omega
          · simp only [hkj, if_false]
            rcases (hseen_ne k).mp hs with h | h
            · exact absurd h hkj
            · have := hinv.rankBound k hk h; omega
        · intro x hx hs
          rcases (hseen_ne x).mp hs with h | h
          · rw [h]
          · exact hinv.settled x j0 hx hj0 h hj0un
        · intro k hk hs
          exact hj0min k hk ((hseen_eq k).mp hs).2
        · intro x k hx hk hs hne
          rcases (hseen_ne x).mp hs with h | h
          · exact absurd h hne
          · exact hinv.relaxed x k hx hk h
    · -- relax through the partner of `j0` and continue
      have hr := hrange j0 hj0
      have hi0 : 0 ≤ nth R j0 := by omega
      have hin : (nth R j0).toNat < n := by omega
      have hcast : ((nth R j0).toNat : Int) = nth R j0 := Int.toNat_of_nonneg hi0
      obtain ⟨sc2, hrel, hs2, hd2, hdad2, hval⟩ := @relax_spec cost n j0 (nth R j0).toNat u v
        { sc with seen := sc.seen.set j0 1 }
        hn hw hu hv hj0 hin ((hseen_ne j0).mpr (Or.inl rfl)) hinv.lenDist hinv.lenDad
        (by simp [hinv.lenSeen])
      rw [hcast] at hrel
      have hs2' : sc2.seen = sc.seen.set j0 1 := hs2
      -- consequences of the relaxation
      have hkeep : ∀ k, k < n → nth (sc.seen.set j0 1) k ≠ 0 →
          nth sc2.dist k = nth sc.dist k ∧ nth sc2.dad k = nth sc.dad k := by
        intro k hk hs
        exact (hval k hk).2 (fun h => hs h.1)
      have hcases : ∀ k, k < n →
          (nth sc2.dist k = nth sc.dist k ∧ nth sc2.dad k = nth sc.dad k ∧
            nth sc.dist k ≤ nth sc.dist j0 + red cost u v (nth R j0).toNat k) ∨
          (nth (sc.seen.set j0 1) k = 0 ∧
            nth sc2.dist k = nth sc.dist j0 + red cost u v (nth R j0).toNat k ∧
            nth sc2.dad k = (j0 : Int) ∧
            nth sc.dist j0 + red cost u v (nth R j0).toNat k < nth sc.dist k) ∨
          (nth (sc.seen.set j0 1) k ≠ 0 ∧
            nth sc2.dist k = nth sc.dist k ∧ nth sc2.dad k = nth sc.dad k) := by
        intro k hk
        by_cases hs : nth (sc.seen.set j0 1) k = 0
        · by_cases hgt : nth sc.dist k > nth sc.dist j0 + red cost u v (nth R j0).toNat k
          · right; left
            obtain ⟨h1, h2⟩ := (hval k hk).1 ⟨hs, hgt⟩
            exact ⟨hs, h1, h2, hgt⟩
          · left
            obtain ⟨h1, h2⟩ := (hval k hk).2 (fun h => hgt h.2)
            exact ⟨h1, h2, not_lt.mp hgt⟩
        · right; right
          obtain ⟨h1, h2⟩ := hkeep k hk hs
          exact ⟨hs, h1, h2⟩
      have hle : ∀ k, k < n → nth sc2.dist k ≤ nth sc.dist k := by
        intro k hk
        rcases hcases k hk with ⟨h, _, _⟩ | ⟨_, h, _, hlt⟩ | ⟨_, h, _⟩
        · exact le_of_eq h
        · rw [h]; exact le_of_lt hlt
        · exact le_of_eq h
      have hge : ∀ k, k < n → nth (sc.seen.set j0 1) k = 0 →
          nth sc.dist j0 ≤ nth sc2.dist k := by
        intro k hk hs
        have hun := ((hseen_eq k).mp hs).2
        rcases hcases k hk with ⟨h, _, _⟩ | ⟨_, h, _, _⟩ | ⟨hs', _, _⟩
        · rw [h]; exact hj0min k hk hun
        · rw [h]
          have := hfeas (nth R j0).toNat k hin hk
          linarith
        · exact absurd hs hs'
      have hinv2 : SearchInv cost n u v R s
          (fun k => if k = j0 then (seenSet n sc.seen).card else t k) sc2 := by
        refine ⟨hd2, hdad2, by rw [hs2']; simp [hinv.lenSeen], ?_, ?_, ?_, ?_, ?_, ?_, ?_, ?_⟩
        · intro k hk hs
          rw [hs2'] at hs
          rcases (hseen_ne k).mp hs with h | h
          · rw [h]; exact hi0
          · exact hinv.seenMatched k hk h
        · intro k hk
          rcases hcases k hk with ⟨_, h, _⟩ | ⟨_, _, h, _⟩ | ⟨_, _, h⟩
          · rw [h]; exact hinv.dadRange k hk
          · rw [h]; omega
          · rw [h]; exact hinv.dadRange k hk
        · intro k hk hroot
          rcases hcases k hk with ⟨h1, h2, _⟩ | ⟨_, _, h, _⟩ | ⟨_, h1, h2⟩
          · rw [h1]; exact hinv.dadRoot k hk (h2 ▸ hroot)
          · rw [h] at hroot; omega
          · rw [h1]; exact hinv.dadRoot k hk (h2 ▸ hroot)
        · intro k d hk hd hdad
          rw [hs2']
          have hold : nth sc.dad k = (d : Int) →
              nth sc2.dist k = nth sc.dist k →
              nth (sc.seen.set j0 1) d ≠ 0 ∧ 0 ≤ nth R d ∧
              nth sc2.dist k = nth sc2.dist d + red cost u v (nth R d).toNat k ∧
              (nth (sc.seen.set j0 1) k ≠ 0 →
                (if d = j0 then (seenSet n sc.seen).card else t d) <
                  (if k = j0 then (seenSet n sc.seen).card else t k)) := by
            intro hdk hdist
            obtain ⟨h1, h2, h3, h4⟩ := hinv.dadLink k d hk hd hdk
            have hdne : d ≠ j0 := fun h => h1 (h ▸ hj0un)
            have hds : nth (sc.seen.set j0 1) d ≠ 0 := (hseen_ne d).mpr (Or.inr h1)
            refine ⟨hds, h2, ?_, ?_⟩
            · rw [hdist, (hkeep d hd hds).1]; exact h3
            · intro hs
              simp only [hdne, if_false]
              rcases (hseen_ne k).mp hs with h | h
              · simp only [h, if_true]
                exact hinv.rankBound d hd h1
              · have hkne : k ≠ j0 := fun h' => h (h' ▸ hj0un)
                simp only [hkne, if_false]
                exact h4 h
          rcases hcases k hk with ⟨h1, h2, _⟩ | ⟨hs, h1, h2, _⟩ | ⟨_, h1, h2⟩
          · exact hold (h2 ▸ hdad) h1
          · rw [h2] at hdad
            have hdj : d = j0 := by omega
            subst hdj
            refine ⟨(hseen_ne d).mpr (Or.inl rfl), hi0, ?_, fun h => absurd hs h⟩
            rw [h1, (hkeep d hd ((hseen_ne d).mpr (Or.inl rfl))).1]
          · exact hold (h2 ▸ hdad) h1
        · intro k hk hs
          rw [hs2'] at hs ⊢
          rw [hcard]
          by_cases hkj : k = j0
          · simp only [hkj, if_true]; omega
          · simp only [hkj, if_false]
            rcases (hseen_ne k).mp hs with h | h
            · exact absurd h hkj
            · have := hinv.rankBound k hk h; omega
        · intro x k hx hk hsx hsk
          rw [hs2'] at hsx hsk
          rw [(hkeep x hx hsx).1]
          have h1 : nth sc.dist x ≤ nth sc.dist j0 := by
            rcases (hseen_ne x).mp hsx with h | h
            · rw [h]
            · exact hinv.settled x j0 hx hj0 h hj0un
          exact le_trans h1 (hge k hk hsk)
        · intro x k hx hk hsx
          rw [hs2'] at hsx
          rw [(hkeep x hx hsx).1]
          rcases (hseen_ne x).mp hsx with h | h
          · subst h
            rcases hcases k hk with ⟨h1, _, h3⟩ | ⟨_, h1, _, _⟩ | ⟨hs, h1, _⟩
            · rw [h1]; exact h3
            · rw [h1]
            · rw [h1]
              have hfe := hfeas (nth R x).toNat k hin hk
              rcases (hseen_ne k).mp hs with h | h
              · rw [h] at hfe ⊢; linarith
              · have := hinv.settled k x hk hx h hj0un
                linarith
          · exact le_trans (hle k hk) (hinv.relaxed x k hx hk h)
        · intro k hk
          exact le_trans (hle k hk) (hinv.direct k hk)
      obtain ⟨j1, sc3, t3, hrun, hdone⟩ := ih sc2 _ hinv2 (by
        rw [hs2', hcard]; omega)
      refine ⟨j1, sc3, t3, ?_, hdone⟩
      simp only [search, hcl, bind, Except.bind, hupd, hidR]
      rw [if_neg hRj]
      simp only [hrel]
      exact hrun


/-! ## The dual update (lines 124-133) -/

theorem updateDuals_body {n : Nat} {R : List Int} {j : Int} {sc : Scratch}
    (hR : R.length = n) (hrange : ∀ k, k < n → -1 ≤ nth R k ∧ nth R k < n)
    (hd : sc.dist.length = n) (hseen : sc.seen.length = n)
    (hj0 : 0 ≤ j) (hjn : j < n)
    {k : Nat} (hk : k < n) {uv : List ℚ × List ℚ} (hu : uv.1.length = n) (hv : uv.2.length = n) :
    (((k : Int) ≠ j ∧ nth sc.seen k = 0 ∧ nth R k = -1) →
      dualStep R j sc k uv = .error .indexOutOfRange) ∧
    (¬ ((k : Int) ≠ j ∧ nth sc.seen k = 0 ∧ nth R k = -1) →
      ∃ uv', dualStep R j sc k uv = .ok uv' ∧ uv'.1.length = n ∧ uv'.2.length = n) := by
  have hidx : idx sc.seen (k : Int) = .ok (nth sc.seen k) := idx_nat (by omega)
  have hdk : idx sc.dist (k : Int) = .ok (nth sc.dist k) := idx_nat (by omega)
  have hdj : idx sc.dist j = .ok (nth sc.dist j.toNat) := idx_int hj0 (by omega)
  have hvk : idx uv.2 (k : Int) = .ok (nth uv.2 k) := idx_nat (by omega)
  have hRk : idx R (k : Int) = .ok (nth R k) := idx_nat (by omega)
  constructor
  · rintro ⟨h1, h2, h3⟩
    have hc : ¬ (nth sc.seen k ≠ 0) := fun h => h h2
    unfold dualStep
    rw [if_neg h1]
    simp only [hidx, ok_bind]
    rw [if_neg hc]
    simp only [hdk, hdj, hvk, upd_nat _ (show k < uv.2.length by omega), hRk, h3,
      idx_neg (show (-1 : Int) < 0 by omega), ok_bind, error_bind]
  · intro hnot
    by_cases hkj : (k : Int) = j
    · refine ⟨uv, ?_, hu, hv⟩
      unfold dualStep
      rw [if_pos hkj]; rfl
    · by_cases hc : nth sc.seen k ≠ 0
      · refine ⟨uv, ?_, hu, hv⟩
        unfold dualStep
        rw [if_neg hkj]
        simp only [hidx, ok_bind]
        rw [if_pos hc]; rfl
      · have hr := hrange k hk
        have hr0 : 0 ≤ nth R k := by
          by_contra hneg
          apply hnot
          refine ⟨hkj, ?_, by omega⟩
          by_contra hs
          exact hc hs
        refine ⟨(uv.1.set (nth R k).toNat
            (nth uv.1 (nth R k).toNat - (nth sc.dist k - nth sc.dist j.toNat)),
          uv.2.set k (nth uv.2 k + (nth sc.dist k - nth sc.dist j.toNat))), ?_,
          by simp [hu], by simp [hv]⟩
        unfold dualStep
        rw [if_neg hkj]
        simp only [hidx, ok_bind]
        rw [if_neg hc]
        simp only [hdk, hdj, hvk, upd_nat _ (show k < uv.2.length by omega), hRk,
          idx_int hr0 (show nth R k < uv.1.length by omega),
          upd_int _ hr0 (show nth R k < uv.1.length by omega), ok_bind]
        rfl

/-- The dual update panics exactly when some unsettled column other than the terminal one is
unmatched: the write `u[R[k]] -= w` then has `R[k] = -1`. -/
theorem updateDuals_spec {n s : Nat} {R : List Int} {j0 : Nat} {sc : Scratch} {u v : List ℚ}
    (hR : R.length = n) (hrange : ∀ k, k < n → -1 ≤ nth R k ∧ nth R k < n)
    (hd : sc.dist.length = n) (hseen : sc.seen.length = n)
    (hj : j0 < n) (hs : s < n) (hu : u.length = n) (hv : v.length = n) :
    ((∃ k, k < n ∧ k ≠ j0 ∧ nth sc.seen k = 0 ∧ nth R k = -1) →
      updateDuals n R s (j0 : Int) sc (u, v) = .error .indexOutOfRange) ∧
    ((∀ k, k < n → k ≠ j0 → nth sc.seen k = 0 → nth R k ≠ -1) →
      ∃ u' v', updateDuals n R s (j0 : Int) sc (u, v) = .ok (u', v') ∧
        u'.length = n ∧ v'.length = n) := by
  have hbody := fun (k : Nat) (hk : k < n) (uv : List ℚ × List ℚ) (h1 : uv.1.length = n)
      (h2 : uv.2.length = n) =>
    @updateDuals_body n R (j0 : Int) sc hR hrange hd hseen (by omega)
      (by omega) k hk uv h1 h2
  constructor
  · rintro ⟨k0, hk0, hne, hun, hfree⟩
    have := forLoop_error (dualStep R (j0 : Int) sc)
      (fun _ (uv : List ℚ × List ℚ) => uv.1.length = n ∧ uv.2.length = n)
      .indexOutOfRange n 0 (u, v) k0 (by omega) (by omega) ⟨hu, hv⟩
      (fun k st _ hk hinv => by
        by_cases hbad : (k : Int) ≠ (j0 : Int) ∧ nth sc.seen k = 0 ∧ nth R k = -1
        · exact Or.inl ((hbody k (by omega) st hinv.1 hinv.2).1 hbad)
        · exact Or.inr ((hbody k (by omega) st hinv.1 hinv.2).2 hbad))
      (fun st hinv => (hbody k0 hk0 st hinv.1 hinv.2).1 ⟨by omega, hun, hfree⟩)
    simp only [updateDuals, this, error_bind]
  · intro hall
    obtain ⟨⟨u', v'⟩, hrun, hu', hv'⟩ := forLoop_ok (dualStep R (j0 : Int) sc)
      (fun _ (uv : List ℚ × List ℚ) => uv.1.length = n ∧ uv.2.length = n)
      n 0 (u, v) ⟨hu, hv⟩
      (fun k st _ hk hinv => (hbody k (by omega) st hinv.1 hinv.2).2 (by
        rintro ⟨h1, h2, h3⟩
        exact hall k (by omega) (by omega) h2 h3))
    refine ⟨u'.set s (nth u' s + nth sc.dist j0), v', ?_, by simp [hu'], hv'⟩
    simp only [] at hu' hv'
    simp only [updateDuals, hrun, ok_bind, idx_nat (show s < u'.length by omega), idx_nat (show j0 < sc.dist.length by omega),
      upd_nat _ (show s < u'.length by omega), pure, Except.pure]


/-! ## Augmenting along the path (lines 135-143) -/

theorem redSum_set {cost : List (List ℚ)} {n : Nat} {u v : List ℚ} {L : List Int} {i : Nat}
    (a : Int) (hi : i < n) (hL : L.length = n) :
    redSum cost n u v (L.set i a) + (if nth L i = -1 then 0 else red cost u v i (nth L i).toNat) =
      redSum cost n u v L + (if a = -1 then 0 else red cost u v i a.toNat) := by
  have hmem : i ∈ Finset.range n := Finset.mem_range.mpr hi
  unfold redSum
  rw [← Finset.add_sum_erase _ _ hmem, ← Finset.add_sum_erase (Finset.range n) _ hmem]
  have hrest : ∑ x ∈ (Finset.range n).erase i,
      (if nth (L.set i a) x = -1 then 0 else red cost u v x (nth (L.set i a) x).toNat) =
      ∑ x ∈ (Finset.range n).erase i,
      (if nth L x = -1 then 0 else red cost u v x (nth L x).toNat) := by
    apply Finset.sum_congr rfl
    intro x hx
    have hxi : x ≠ i := (Finset.mem_erase.mp hx).1
    rw [nth_set_ne _ (Ne.symm hxi)]
  rw [hrest, nth_set_eq _ (by omega)]
  ring

theorem walkInv_init {cost : List (List ℚ)} {n s : Nat} {u v : List ℚ} {L0 R0 : List Int}
    {t : Nat → Nat} {j0 : Nat} {sc : Scratch}
    (hm : Matching n L0 R0) (hdone : SearchDone cost n u v R0 s t j0 sc) :
    WalkInv cost n u v L0 R0 t j0 sc j0 L0 R0 := by
  refine ⟨hm.lenL, hm.lenR, hdone.terminal, hdone.terminalSeen, hm.rangeL, hm.rangeR,
    fun i k hi hk _ => hm.inv i k hi hk, ?_, fun _ _ => Iff.rfl, ?_, fun _ _ _ _ => rfl,
    le_refl _⟩
  · intro i hi h
    have := (hm.inv i j0 hi hdone.terminal).mp h
    have := hdone.terminalFree
    omega
  · intro k _ hk
    exact ⟨fun h => ⟨h, hk⟩, fun h => h.1⟩

theorem walk_unfold (dad : List Int) (fuel : Nat) (j : Int) (L R : List Int) :
    walk dad fuel j L R = (do
      let d ← idx dad j
      if d ≥ 0 then
        match fuel with
        | 0 => .error .outOfFuel
        | fuel + 1 => do
          let rd ← idx R d
          let R ← upd R j rd
          let rj ← idx R j
          let L ← upd L rj j
          walk dad fuel d L R
      else pure (j, L, R)) := by
  cases fuel <;> rfl

/-- The back-walk succeeds within a budget exceeding the rank of its start column and ends
at a column whose `dad` entry is `-1`. -/
theorem walk_spec {cost : List (List ℚ)} {n s : Nat} {u v : List ℚ} {L0 R0 : List Int}
    {t : Nat → Nat} {j0 : Nat} {sc : Scratch}
    (hfeas : ∀ i k, i < n → k < n → 0 ≤ red cost u v i k)
    (hdone : SearchDone cost n u v R0 s t j0 sc) :
    ∀ fuel j L R, WalkInv cost n u v L0 R0 t j0 sc j L R → t j < fuel →
      ∃ (jE : Nat) (L' R' : List Int), walk sc.dad fuel (j : Int) L R = .ok ((jE : Int), L', R') ∧
        WalkInv cost n u v L0 R0 t j0 sc jE L' R' ∧ nth sc.dad jE = -1 := by
  intro fuel
  induction fuel with
  | zero => intro j L R _ h; omega
  | succ f ih =>
    intro j L R hinv hf
    have hj := hinv.cur
    have hidx : idx sc.dad (j : Int) = .ok (nth sc.dad j) :=
      idx_nat (by rw [hdone.lenDad]; exact hj)
    have hdr := hdone.dadRange j hj
    by_cases hd : nth sc.dad j ≥ 0
    · -- one step back: the partner of `d` moves to `j`
      have hdn : (nth sc.dad j).toNat < n := by omega
      have hdcast : ((nth sc.dad j).toNat : Int) = nth sc.dad j := Int.toNat_of_nonneg hd
      obtain ⟨hds, hRd0, hdist, hrank⟩ :=
        hdone.dadLink j (nth sc.dad j).toNat hj hdn hdcast.symm
      have hrk := hrank hinv.curSeen
      have hdj : (nth sc.dad j).toNat ≠ j := fun h => by rw [h] at hrk; omega
      have hRd : nth R (nth sc.dad j).toNat = nth R0 (nth sc.dad j).toNat :=
        hinv.unchanged _ hdn hds (by omega)
      have hR0r := hinv.rangeR (nth sc.dad j).toNat hdn
      rw [hRd] at hR0r
      have hin : (nth R0 (nth sc.dad j).toNat).toNat < n := by omega
      have hicast : ((nth R0 (nth sc.dad j).toNat).toNat : Int) = nth R0 (nth sc.dad j).toNat :=
        Int.toNat_of_nonneg hRd0
      -- the row `i` currently points at `d`
      have hLi : nth L (nth R0 (nth sc.dad j).toNat).toNat = ((nth sc.dad j).toNat : Int) := by
        apply (hinv.inv _ _ hin hdn hdj).mpr
        rw [hRd, hicast]
      have hidR : idx R (nth sc.dad j) = .ok (nth R0 (nth sc.dad j).toNat) := by
        rw [← hRd]; exact idx_int hd (by rw [hinv.lenR]; omega)
      have hupdR : upd R (j : Int) (nth R0 (nth sc.dad j).toNat) =
          .ok (R.set j (nth R0 (nth sc.dad j).toNat)) := upd_nat _ (by rw [hinv.lenR]; exact hj)
      have hidRj : idx (R.set j (nth R0 (nth sc.dad j).toNat)) (j : Int) =
          .ok (nth R0 (nth sc.dad j).toNat) := by
        rw [idx_nat (by simp [hinv.lenR]; exact hj), nth_set_eq _ (by rw [hinv.lenR]; exact hj)]
      have hupdL : upd L (nth R0 (nth sc.dad j).toNat) (j : Int) =
          .ok (L.set (nth R0 (nth sc.dad j).toNat).toNat (j : Int)) :=
        upd_int _ hRd0 (by rw [hinv.lenL]; omega)
      -- abbreviations
      generalize hdE : (nth sc.dad j).toNat = d at *
      generalize hiE : (nth R0 d).toNat = i at *
      have hiL : i < L.length := by rw [hinv.lenL]; exact hin
      have hjR : j < R.length := by rw [hinv.lenR]; exact hj
      have hinv' : WalkInv cost n u v L0 R0 t j0 sc d (L.set i (j : Int)) (R.set j (nth R0 d)) := by
        refine ⟨by simp [hinv.lenL], by simp [hinv.lenR], hdn, hds, ?_, ?_, ?_, ?_, ?_, ?_, ?_,
          ?_⟩
        · intro a ha
          rw [nth_set _ hiL]
          split
          · omega
          · exact hinv.rangeL a ha
        · intro b hb
          rw [nth_set _ hjR]
          split
          · omega
          · exact hinv.rangeR b hb
        · intro a b ha hb hbd
          rw [nth_set _ hiL, nth_set _ hjR]
          by_cases hai : a = i
          · subst hai
            by_cases hbj : b = j
            · subst hbj
              simp only [if_true]
              constructor
              · intro _; exact hicast.symm
              · intro _; trivial
            · simp only [if_true, hbj, if_false]
              constructor
              · intro h; omega
              · intro h
                have := (hinv.inv a b ha hb hbj).mpr h
                omega
          · by_cases hbj : b = j
            · subst hbj
              simp only [hai, if_false, if_true]
              constructor
              · intro h; exact absurd h (hinv.noRow a ha)
              · intro h; omega
            · simp only [hai, hbj, if_false]
              exact hinv.inv a b ha hb hbj
        · intro a ha
          rw [nth_set _ hiL]
          by_cases hai : a = i
          · simp only [hai, if_true]; omega
          · simp only [hai, if_false]
            intro h
            have := (hinv.inv a d ha hdn hdj).mp h
            rw [hRd] at this
            omega
        · intro a ha
          rw [nth_set _ hiL]
          by_cases hai : a = i
          · subst hai
            simp only [if_true]
            have := hinv.freeRows a ha
            constructor
            · intro h; omega
            · intro h
              have := this.mpr h
              omega
          · simp only [hai, if_false]
            exact hinv.freeRows a ha
        · intro b hb hbd
          rw [nth_set _ hjR]
          by_cases hbj : b = j
          · subst hbj
            simp only [if_true]
            constructor
            · intro h; omega
            · rintro ⟨h1, h2⟩
              have := hdone.seenMatched b hb hinv.curSeen h2
              omega
          · simp only [hbj, if_false]
            exact hinv.freeCols b hb hbj
        · intro x hx hsx htx
          have hxj : x ≠ j := fun h => by rw [h] at htx; omega
          rw [nth_set_ne _ (Ne.symm hxj)]
          exact hinv.unchanged x hx hsx (by omega)
        · have hset := @redSum_set cost n u v L i (j : Int) hin hinv.lenL
          have hne1 : nth L i ≠ -1 := by rw [hLi]; omega
          have hne2 : (j : Int) ≠ -1 := by omega
          rw [if_neg hne1, if_neg hne2, hLi] at hset
          simp only [Int.toNat_ofNat] at hset
          have hfe := hfeas i d hin hdn
          have hcb := hinv.costBound
          linarith
      obtain ⟨jE, L', R', hrun, hres⟩ := ih d _ _ hinv' (by omega)
      refine ⟨jE, L', R', ?_, hres⟩
      rw [walk_unfold]
      simp only [hidx, bind, Except.bind]
      rw [if_pos hd]
      simp only [hidR, hupdR, hidRj, hupdL]
      rw [← hdcast]
      exact hrun
    · refine ⟨j, L, R, ?_, hinv, by omega⟩
      rw [walk_unfold]
      simp only [hidx, bind, Except.bind]
      rw [if_neg hd]; rfl

/-- Closing the path: after `R[j] = s; L[s] = j` the pair `(L, R)` is a matching again, with
the row `s` and the column `j0` newly matched. -/
theorem walk_finish {cost : List (List ℚ)} {n s : Nat} {u v : List ℚ} {L0 R0 : List Int}
    {t : Nat → Nat} {j0 : Nat} {sc : Scratch} {jE : Nat} {L R : List Int}
    (hs : s < n) (hsfree : nth L0 s = -1)
    (hdone : SearchDone cost n u v R0 s t j0 sc)
    (hinv : WalkInv cost n u v L0 R0 t j0 sc jE L R) (hroot : nth sc.dad jE = -1) :
    Matching n (L.set s (jE : Int)) (R.set jE (s : Int)) ∧
    free n (L.set s (jE : Int)) = (free n L0).erase s ∧
    free n (R.set jE (s : Int)) = (free n R0).erase j0 ∧
    redSum cost n u v (L.set s (jE : Int)) ≤ redSum cost n u v L0 + nth sc.dist j0 := by
  have hj := hinv.cur
  have hsL : s < L.length := by rw [hinv.lenL]; exact hs
  have hjR : jE < R.length := by rw [hinv.lenR]; exact hj
  have hLs : nth L s = -1 := (hinv.freeRows s hs).mpr hsfree
  refine ⟨⟨by simp [hinv.lenL], by simp [hinv.lenR], ?_, ?_, ?_⟩, ?_, ?_, ?_⟩
  · intro a ha
    rw [nth_set _ hsL]
    split
    · omega
    · exact hinv.rangeL a ha
  · intro b hb
    rw [nth_set _ hjR]
    split
    · omega
    · exact hinv.rangeR b hb
  · intro a b ha hb
    rw [nth_set _ hsL, nth_set _ hjR]
    by_cases has : a = s
    · subst has
      by_cases hbj : b = jE
      · subst hbj; simp
      · simp only [if_true, hbj, if_false]
        constructor
        · intro h; omega
        · intro h
          have := (hinv.inv a b ha hb hbj).mpr h
          omega
    · by_cases hbj : b = jE
      · subst hbj
        simp only [has, if_false, if_true]
        constructor
        · intro h; exact absurd h (hinv.noRow a ha)
        · intro h; omega
      · simp only [has, hbj, if_false]
        exact hinv.inv a b ha hb hbj
  · ext x
    simp only [mem_free, Finset.mem_erase, nth_set _ hsL]
    by_cases hx : x = s
    · subst hx
      simp only [if_true]
      constructor
      · rintro ⟨_, h⟩; omega
      · rintro ⟨h, _⟩; exact absurd rfl h
    · simp only [hx, if_false, ne_eq, not_false_eq_true, true_and]
      constructor
      · rintro ⟨h1, h2⟩; exact ⟨h1, (hinv.freeRows x h1).mp h2⟩
      · rintro ⟨h1, h2⟩; exact ⟨h1, (hinv.freeRows x h1).mpr h2⟩
  · ext x
    simp only [mem_free, Finset.mem_erase, nth_set _ hjR]
    by_cases hx : x = jE
    · subst hx
      simp only [if_true]
      constructor
      · rintro ⟨_, h⟩; omega
      · rintro ⟨h1, h2, h3⟩
        have := hdone.seenMatched x h2 hinv.curSeen h1
        omega
    · simp only [hx, if_false]
      constructor
      · rintro ⟨h1, h2⟩
        have := (hinv.freeCols x h1 hx).mp h2
        exact ⟨this.2, h1, this.1⟩
      · rintro ⟨h1, h2, h3⟩
        exact ⟨h2, (hinv.freeCols x h2 hx).mpr ⟨h3, h1⟩⟩
  · have hset := @redSum_set cost n u v L s (jE : Int) hs hinv.lenL
    have hne2 : (jE : Int) ≠ -1 := by omega
    rw [if_pos hLs, if_neg hne2] at hset
    simp only [Int.toNat_ofNat] at hset
    have hroot' := hdone.dadRoot jE hj hroot
    have hcb := hinv.costBound
    linarith


/-! ## The length of the augmenting path is a lower bound for every assignment -/

theorem permFun_lt {n : Nat} (p : Equiv.Perm (Fin n)) {i : Nat} (h : i < n) :
    permFun p i < n := by
  simp [permFun, h]

theorem permFun_fin {n : Nat} (p : Equiv.Perm (Fin n)) (i : Fin n) :
    permFun p (i : Nat) = (p i : Nat) := by
  simp [permFun, i.2]

theorem sum_perm_range {n : Nat} (p : Equiv.Perm (Fin n)) (f : Nat → Nat → ℚ) :
    ∑ i : Fin n, f i (p i) = ∑ i ∈ Finset.range n, f i (permFun p i) := by
  rw [Finset.sum_range (fun i => f i (permFun p i))]
  apply Finset.sum_congr rfl
  intro i _
  rw [permFun_fin]

theorem sum_comp_perm_range {n : Nat} (p : Equiv.Perm (Fin n)) (g : Nat → ℚ) :
    ∑ i ∈ Finset.range n, g (permFun p i) = ∑ k ∈ Finset.range n, g k := by
  rw [← sum_perm_range p (fun _ k => g k), Finset.sum_range g]
  exact Equiv.sum_comp p (fun k : Fin n => g k)

/-- Reindexing a sum along the matching: rows other than `s` correspond to columns other
than `j0`. -/
theorem sum_matched_cols {n s j0 : Nat} {L R : List Int} (hm : Matching n L R)
    (hrows : ∀ i, i < n → i ≠ s → nth L i ≠ -1) (hcols : ∀ k, k < n → k ≠ j0 → nth R k ≠ -1)
    (hs : nth L s = -1) (hj : nth R j0 = -1) (g : Nat → ℚ) :
    ∑ i ∈ (Finset.range n).erase s, g (nth L i).toNat =
      ∑ k ∈ (Finset.range n).erase j0, g k := by
  apply Finset.sum_nbij' (fun i => (nth L i).toNat) (fun k => (nth R k).toNat)
  · intro i hi
    obtain ⟨hne, hin⟩ := Finset.mem_erase.mp hi
    have hin' := Finset.mem_range.mp hin
    have h1 := hm.rangeL i hin'
    have h2 := hrows i hin' hne
    have hlt : (nth L i).toNat < n := by omega
    refine Finset.mem_erase.mpr ⟨?_, Finset.mem_range.mpr hlt⟩
    intro h
    have := (hm.inv i (nth L i).toNat hin' hlt).mp (by omega)
    rw [h] at this
    omega
  · intro k hk
    obtain ⟨hne, hkn⟩ := Finset.mem_erase.mp hk
    have hkn' := Finset.mem_range.mp hkn
    have h1 := hm.rangeR k hkn'
    have h2 := hcols k hkn' hne
    have hlt : (nth R k).toNat < n := by omega
    refine Finset.mem_erase.mpr ⟨?_, Finset.mem_range.mpr hlt⟩
    intro h
    have := (hm.inv (nth R k).toNat k hlt hkn').mpr (by omega)
    rw [h] at this
    omega
  · intro i hi
    obtain ⟨hne, hin⟩ := Finset.mem_erase.mp hi
    have hin' := Finset.mem_range.mp hin
    have h1 := hm.rangeL i hin'
    have h2 := hrows i hin' hne
    have hlt : (nth L i).toNat < n := by omega
    have := (hm.inv i (nth L i).toNat hin' hlt).mp (by omega)
    show (nth R (nth L i).toNat).toNat = i
    omega
  · intro k hk
    obtain ⟨hne, hkn⟩ := Finset.mem_erase.mp hk
    have hkn' := Finset.mem_range.mp hkn
    have h1 := hm.rangeR k hkn'
    have h2 := hcols k hkn' hne
    have hlt : (nth R k).toNat < n := by omega
    have := (hm.inv (nth R k).toNat k hlt hkn').mpr (by omega)
    show (nth L (nth R k).toNat).toNat = k
    omega
  · intro i _; rfl

/-- When all rows but `s` and all columns but `j0` are matched, the distance of the terminal
column `j0` found by the search is at most the total reduced cost of any assignment. -/
theorem search_bound {cost : List (List ℚ)} {n s : Nat} {u v : List ℚ} {L0 R0 : List Int}
    {t : Nat → Nat} {j0 : Nat} {sc : Scratch}
    (hm : Matching n L0 R0) (hs : s < n) (hsfree : nth L0 s = -1)
    (hrows : ∀ i, i < n → i ≠ s → nth L0 i ≠ -1)
    (hcols : ∀ k, k < n → k ≠ j0 → nth R0 k ≠ -1)
    (hfeas : ∀ i k, i < n → k < n → 0 ≤ red cost u v i k)
    (hdone : SearchDone cost n u v R0 s t j0 sc) (p : Equiv.Perm (Fin n)) :
    nth sc.dist j0 ≤ ∑ i : Fin n, red cost u v i (p i) := by
  have hj := hdone.terminal
  -- the potential: distances capped at the distance of the terminal column
  let dh : Nat → ℚ := fun k => min (nth sc.dist k) (nth sc.dist j0)
  let e : Nat → ℚ := fun i => if i = s then 0 else dh (nth L0 i).toNat
  have hterm : ∀ i, i ∈ Finset.range n →
      dh (permFun p i) - e i ≤ red cost u v i (permFun p i) := by
    intro i hi
    have hin := Finset.mem_range.mp hi
    have hk := permFun_lt p hin
    by_cases his : i = s
    · subst his
      simp only [e, if_true, sub_zero]
      exact le_trans (min_le_left _ _) (hdone.direct _ hk)
    · simp only [e, his, if_false]
      have h1 := hm.rangeL i hin
      have h2 := hrows i hin his
      have hx : (nth L0 i).toNat < n := by omega
      have hRx : nth R0 (nth L0 i).toNat = (i : Int) :=
        (hm.inv i (nth L0 i).toNat hin hx).mp (by omega)
      have hxj : (nth L0 i).toNat ≠ j0 := by
        intro h; rw [h, hdone.terminalFree] at hRx; omega
      have hfe := hfeas i (permFun p i) hin hk
      by_cases hseen : nth sc.seen (nth L0 i).toNat ≠ 0
      · have hle := hdone.settledLe _ hx hseen
        have hrel := hdone.relaxed _ (permFun p i) hx hk hseen hxj
        rw [hRx] at hrel
        simp only [Int.toNat_ofNat] at hrel
        have hd1 : dh (nth L0 i).toNat = nth sc.dist (nth L0 i).toNat := min_eq_left hle
        have hd2 : dh (permFun p i) ≤ nth sc.dist (permFun p i) := min_le_left _ _
        rw [hd1]; linarith
      · have hun : nth sc.seen (nth L0 i).toNat = 0 := by simpa using hseen
        have hge := hdone.unsettledGe _ hx hun
        have hd1 : dh (nth L0 i).toNat = nth sc.dist j0 := min_eq_right hge
        have hd2 : dh (permFun p i) ≤ nth sc.dist j0 := min_le_right _ _
        rw [hd1]; linarith
  have hsum := Finset.sum_le_sum hterm
  rw [Finset.sum_sub_distrib, sum_comp_perm_range p dh] at hsum
  have he : ∑ i ∈ Finset.range n, e i = ∑ k ∈ (Finset.range n).erase j0, dh k := by
    rw [← Finset.sum_erase (Finset.range n) (show e s = 0 by simp [e])]
    rw [← sum_matched_cols hm hrows hcols hsfree hdone.terminalFree dh]
    apply Finset.sum_congr rfl
    intro i hi
    have := (Finset.mem_erase.mp hi).1
    simp [e, this]
  have hsplit := Finset.add_sum_erase (Finset.range n) dh (Finset.mem_range.mpr hj)
  have hdj : dh j0 = nth sc.dist j0 := min_self _
  rw [sum_perm_range p (fun i k => red cost u v i k)]
  rw [he] at hsum
  linarith


/-! ## One round and the augmentation loop (lines 83-144) -/

theorem round_unfold (cost : List (List ℚ)) (n fs fw : Nat) (st : State) :
    round cost n fs fw st = (do
      let s ← findFree st.L (st.L.length + 1) 0
      let dist ← forLoop (fun k dist => do
          let c ← cell cost s k
          let us ← idx st.u s
          let vk ← idx st.v k
          upd dist k (c - us - vk)) n 0 st.dist
      let (j, sc) ← search cost n st.u st.v st.R fs ⟨dist, fill st.dad (-1), fill st.seen 0⟩
      let (u, v) ← updateDuals n st.R s j sc (st.u, st.v)
      let (j, L, R) ← walk sc.dad fw j st.L st.R
      let R ← upd R j (s : Int)
      let L ← upd L s j
      pure { u := u, v := v, L := L, R := R, mated := st.mated,
             dist := sc.dist, dad := sc.dad, seen := sc.seen }) := rfl

/-- The part of a round up to the end of the search succeeds whenever a row is unmatched. -/
theorem round_search {cost : List (List ℚ)} {n : Nat} {st : State} {fs : Nat}
    (hn : cost.length = n) (hw : ∀ row ∈ cost, n ≤ row.length)
    (hinv : RoundInv cost n st) (hfree : 0 < (free n st.L).card) (hfs : n ≤ fs) :
    ∃ (s j0 : Nat) (dist : List ℚ) (sc : Scratch) (t : Nat → Nat),
      findFree st.L (st.L.length + 1) 0 = .ok s ∧ s < n ∧ nth st.L s = -1 ∧
      forLoop (fun k dist => do
          let c ← cell cost s k
          let us ← idx st.u s
          let vk ← idx st.v k
          upd dist k (c - us - vk)) n 0 st.dist = .ok dist ∧
      search cost n st.u st.v st.R fs ⟨dist, fill st.dad (-1), fill st.seen 0⟩ =
        .ok ((j0 : Int), sc) ∧
      SearchDone cost n st.u st.v st.R s t j0 sc := by
  have hm := hinv.matching
  obtain ⟨s0, hs0⟩ := Finset.card_pos.mp hfree
  have hs0' := mem_free.mp hs0
  obtain ⟨s, hfind, hs, hsfree, _⟩ := findFree_spec hm.lenL (st.L.length + 1) 0
    (fun i hi => by omega) ⟨s0, by omega, hs0'.1, hs0'.2⟩ (by rw [hm.lenL]; omega)
  obtain ⟨dist, hdist, hdl, hdv⟩ := @distInit_spec cost n s st.u st.v st.dist hn hw hs hinv.lenU
    hinv.lenV hinv.lenDist
  have hinit := @searchInv_init cost n s st.u st.v st.R dist st.dad st.seen hdl hinv.lenDad
    hinv.lenSeen hdv
  have hfreeR : (free n st.R).Nonempty := by
    apply Finset.card_pos.mp
    have := hinv.rows
    have := hinv.cols
    omega
  obtain ⟨j0, sc, t, hsearch, hdone⟩ := search_spec hn hw hinv.lenU hinv.lenV hm.lenR hm.rangeR
    hinv.feas hfreeR fs _ _ hinit (by
      have := Finset.card_pos.mpr hfreeR
      omega)
  exact ⟨s, j0, dist, sc, t, hfind, hs, hsfree, hdist, hsearch, hdone⟩

/-- With two or more unmatched columns the round panics in the dual update. -/
theorem round_panics {cost : List (List ℚ)} {n : Nat} {st : State} {fs fw : Nat}
    (hn : cost.length = n) (hw : ∀ row ∈ cost, n ≤ row.length)
    (hinv : RoundInv cost n st) (hfree : 2 ≤ (free n st.L).card) (hfs : n ≤ fs) :
    round cost n fs fw st = .error .indexOutOfRange := by
  have hm := hinv.matching
  obtain ⟨s, j0, dist, sc, t, hfind, hs, hsfree, hdist, hsearch, hdone⟩ :=
    round_search hn hw hinv (by omega) hfs
  have hcard : 1 < (free n st.R).card := by
    have := hinv.rows
    have := hinv.cols
    omega
  obtain ⟨a, ha, b, hb, hab⟩ := Finset.one_lt_card.mp hcard
  have hex : ∃ k, k < n ∧ k ≠ j0 ∧ nth sc.seen k = 0 ∧ nth st.R k = -1 := by
    have key : ∀ k, k ∈ free n st.R → k ≠ j0 →
        k < n ∧ k ≠ j0 ∧ nth sc.seen k = 0 ∧ nth st.R k = -1 := by
      intro k hk hne
      have hk' := mem_free.mp hk
      refine ⟨hk'.1, hne, ?_, hk'.2⟩
      by_contra hseen
      have := hdone.seenMatched k hk'.1 hseen hne
      omega
    by_cases haj : a = j0
    · exact ⟨b, key b hb (fun h => hab (haj.trans h.symm))⟩
    · exact ⟨a, key a ha haj⟩
  have hupd := (updateDuals_spec (s := s) (u := st.u) (v := st.v) hm.lenR hm.rangeR
    hdone.lenDist hdone.lenSeen hdone.terminal hs hinv.lenU hinv.lenV).1 hex
  rw [round_unfold]
  simp only [hfind, ok_bind, hdist, hsearch, hupd, error_bind]

/-- With exactly one unmatched row the round succeeds and completes the matching; the total
reduced cost grows by at most the total reduced cost of any assignment. -/
theorem round_completes {cost : List (List ℚ)} {n : Nat} {st : State} {fs fw : Nat}
    (hn : cost.length = n) (hw : ∀ row ∈ cost, n ≤ row.length)
    (hinv : RoundInv cost n st) (hfree : (free n st.L).card = 1) (hfs : n ≤ fs)
    (hfw : n ≤ fw) :
    ∃ st', round cost n fs fw st = .ok st' ∧ Matching n st'.L st'.R ∧
      free n st'.L = ∅ ∧ free n st'.R = ∅ ∧ st'.mated = st.mated ∧
      ∀ p : Equiv.Perm (Fin n), redSum cost n st.u st.v st'.L ≤
        redSum cost n st.u st.v st.L + ∑ i : Fin n, red cost st.u st.v i (p i) := by
  have hm := hinv.matching
  obtain ⟨s, j0, dist, sc, t, hfind, hs, hsfree, hdist, hsearch, hdone⟩ :=
    round_search hn hw hinv (by omega) hfs
  have hcardR : (free n st.R).card = 1 := by
    have := hinv.rows
    have := hinv.cols
    omega
  obtain ⟨a, ha⟩ := Finset.card_eq_one.mp hfree
  obtain ⟨b, hb⟩ := Finset.card_eq_one.mp hcardR
  have has : a = s := by
    have : s ∈ free n st.L := mem_free.mpr ⟨hs, hsfree⟩
    rw [ha] at this
    exact (Finset.mem_singleton.mp this).symm
  have hbj : b = j0 := by
    have : j0 ∈ free n st.R := mem_free.mpr ⟨hdone.terminal, hdone.terminalFree⟩
    rw [hb] at this
    exact (Finset.mem_singleton.mp this).symm
  subst has hbj
  have hrows : ∀ i, i < n → i ≠ a → nth st.L i ≠ -1 := by
    intro i hi hne h
    have : i ∈ free n st.L := mem_free.mpr ⟨hi, h⟩
    rw [ha] at this
    exact hne (Finset.mem_singleton.mp this)
  have hcols : ∀ k, k < n → k ≠ b → nth st.R k ≠ -1 := by
    intro k hk hne h
    have : k ∈ free n st.R := mem_free.mpr ⟨hk, h⟩
    rw [hb] at this
    exact hne (Finset.mem_singleton.mp this)
  obtain ⟨u', v', hupd, _, _⟩ := (updateDuals_spec (s := a) (u := st.u) (v := st.v) hm.lenR
    hm.rangeR hdone.lenDist hdone.lenSeen hdone.terminal hs hinv.lenU hinv.lenV).2
    (fun k hk hne _ => hcols k hk hne)
  obtain ⟨jE, L', R', hwalk, hwinv, hroot⟩ := walk_spec hinv.feas hdone fw b st.L st.R
    (walkInv_init hm hdone) (by
      have := hdone.rankBound b hdone.terminal hdone.terminalSeen
      omega)
  obtain ⟨hmat, hfL, hfR, hcost⟩ := walk_finish hs hsfree hdone hwinv hroot
  refine ⟨{ u := u', v := v', L := L'.set a (jE : Int), R := R'.set jE (a : Int),
            mated := st.mated, dist := sc.dist, dad := sc.dad, seen := sc.seen }, ?_, hmat, ?_,
          ?_, rfl, ?_⟩
  · rw [round_unfold]
    simp only [hfind, ok_bind, hdist, hsearch, hupd, hwalk,
      upd_nat _ (show jE < R'.length by rw [hwinv.lenR]; exact hwinv.cur),
      upd_nat _ (show a < L'.length by rw [hwinv.lenL]; exact hs)]
    rfl
  · show free n (L'.set a (jE : Int)) = ∅
    rw [hfL, ha]; simp
  · show free n (R'.set jE (a : Int)) = ∅
    rw [hfR, hb]; simp
  · intro p
    have := search_bound hm hs hsfree hrows hcols hinv.feas hdone p
    show redSum cost n st.u st.v (L'.set a (jE : Int)) ≤ _
    linarith

theorem rounds_unfold (cost : List (List ℚ)) (n fs fw fuel : Nat) (st : State) :
    rounds cost n fs fw fuel st =
      if st.mated < n then
        match fuel with
        | 0 => .error .outOfFuel
        | fuel + 1 => do
          let st ← round cost n fs fw st
          rounds cost n fs fw fuel { st with mated := st.mated + 1 }
      else .ok st := by
  cases fuel <;> rfl

/-- The augmentation loop: no round when the greedy matching is perfect, one completing round
when one row is unmatched, and a panic in the first round otherwise. -/
theorem rounds_spec {cost : List (List ℚ)} {n : Nat} {st : State} {fs fw fr : Nat}
    (hn : cost.length = n) (hw : ∀ row ∈ cost, n ≤ row.length)
    (hinv : RoundInv cost n st) (hfs : n ≤ fs) (hfw : n ≤ fw) (hfr : n ≤ fr) :
    (2 ≤ (free n st.L).card ∧ rounds cost n fs fw fr st = .error .indexOutOfRange) ∨
    ((free n st.L).card ≤ 1 ∧
      ∃ st', rounds cost n fs fw fr st = .ok st' ∧ Matching n st'.L st'.R ∧
        free n st'.L = ∅ ∧ free n st'.R = ∅ ∧ st'.mated = n ∧
        ∀ p : Equiv.Perm (Fin n), redSum cost n st.u st.v st'.L ≤
          redSum cost n st.u st.v st.L + ∑ i : Fin n, red cost st.u st.v i (p i)) := by
  have hrows := hinv.rows
  have hcols := hinv.cols
  have hle := card_free_le n st.L
  by_cases h2 : 2 ≤ (free n st.L).card
  · left
    refine ⟨h2, ?_⟩
    obtain ⟨f, rfl⟩ : ∃ f, fr = f + 1 := ⟨fr - 1, by omega⟩
    rw [rounds_unfold, if_pos (by omega)]
    simp only [round_panics hn hw hinv h2 hfs, bind, Except.bind]
  · right
    refine ⟨by omega, ?_⟩
    by_cases h1 : (free n st.L).card = 1
    · obtain ⟨f, rfl⟩ : ∃ f, fr = f + 1 := ⟨fr - 1, by omega⟩
      obtain ⟨st', hround, hmat, hfL, hfR, hmated, hcost⟩ :=
        round_completes hn hw hinv h1 hfs hfw
      refine ⟨{ st' with mated := st'.mated + 1 }, ?_, hmat, hfL, hfR, ?_, hcost⟩
      · rw [rounds_unfold, if_pos (by omega)]
        simp only [hround, bind, Except.bind]
        rw [rounds_unfold, if_neg (by simp only [hmated]; omega)]
      · show st'.mated + 1 = n
        omega
    · have h0 : (free n st.L).card = 0 := by omega
      have h0R : (free n st.R).card = 0 := by omega
      refine ⟨st, ?_, hinv.matching, Finset.card_eq_zero.mp h0, Finset.card_eq_zero.mp h0R,
        by omega, ?_⟩
      · rw [rounds_unfold, if_neg (by omega)]
      · intro p
        have : 0 ≤ ∑ i : Fin n, red cost st.u st.v i (p i) :=
          Finset.sum_nonneg (fun i _ => hinv.feas i (p i) i.2 (p i).2)
        linarith


/-! ## Cost accumulation and the whole function -/

/-- Lines 146-149 on a perfect matching: the loop returns `Σ_i cost[i][L[i]]`. -/
theorem totalCost_spec {cost : List (List ℚ)} {n : Nat} {L : List Int}
    (hn : cost.length = n) (hw : ∀ row ∈ cost, n ≤ row.length) (hL : L.length = n)
    (hrange : ∀ i, i < n → 0 ≤ nth L i ∧ nth L i < n) :
    totalCost cost n L = .ok (∑ i ∈ Finset.range n, ent cost i (nth L i).toNat) := by
  obtain ⟨val, hrun, hval⟩ := forLoop_ok
    (fun i (value : ℚ) => do
      let l ← idx L i
      let c ← cell cost i l
      pure (value + c))
    (fun k (value : ℚ) => value = ∑ i ∈ Finset.range k, ent cost i (nth L i).toNat)
    n 0 0 (by simp)
    (by
      intro k value _ hk hv
      have hkn : k < n := by omega
      have hr := hrange k hkn
      refine ⟨value + ent cost k (nth L k).toNat, ?_, ?_⟩
      · have hc : cell cost (k : Int) (nth L k) = .ok (ent cost k (nth L k).toNat) := by
          have := @cell_int cost n (k : Int) (nth L k) hw
            (by omega) (by omega) hr.1 hr.2
          simpa using this
        simp only [idx_nat (show k < L.length by omega), ok_bind, hc]
        rfl
      · show value + ent cost k (nth L k).toNat =
          ∑ i ∈ Finset.range (k + 1), ent cost i (nth L i).toNat
        rw [Finset.sum_range_succ, hv])
  simp only [Nat.zero_add] at hval
  rw [← hval]
  exact hrun

/-- A matching without unmatched rows or columns is a pair of mutually inverse
permutations. -/
theorem inversePerms_of_matching {n : Nat} {L R : List Int} (hm : Matching n L R)
    (hL : free n L = ∅) (hR : free n R = ∅) : InversePerms n L R := by
  have hLne : ∀ i, i < n → nth L i ≠ -1 := by
    intro i hi h
    have : i ∈ free n L := mem_free.mpr ⟨hi, h⟩
    rw [hL] at this
    exact absurd this (Finset.not_mem_empty i)
  have hRne : ∀ k, k < n → nth R k ≠ -1 := by
    intro k hk h
    have : k ∈ free n R := mem_free.mpr ⟨hk, h⟩
    rw [hR] at this
    exact absurd this (Finset.not_mem_empty k)
  refine ⟨hm.lenL, hm.lenR, ?_, ?_⟩
  · intro i hi
    have h1 := hm.rangeL i hi
    have h2 := hLne i hi
    have hlt : (nth L i).toNat < n := by omega
    have := (hm.inv i (nth L i).toNat hi hlt).mp (by omega)
    exact ⟨by omega, h1.2, this⟩
  · intro k hk
    have h1 := hm.rangeR k hk
    have h2 := hRne k hk
    have hlt : (nth R k).toNat < n := by omega
    have := (hm.inv (nth R k).toNat k hlt hk).mpr (by omega)
    exact ⟨by omega, h1.2, this⟩

/-- Mutually inverse slices come from a permutation of `Fin n`. -/
theorem exists_perm_of_inversePerms {n : Nat} {L R : List Int} (h : InversePerms n L R) :
    ∃ p : Equiv.Perm (Fin n), ∀ i : Fin n, ((p i : Nat) : Int) = nth L i := by
  obtain ⟨_, _, hL, hR⟩ := h
  refine ⟨⟨fun i => ⟨(nth L i).toNat, by have := hL i i.2; omega⟩,
           fun k => ⟨(nth R k).toNat, by have := hR k k.2; omega⟩, ?_, ?_⟩, ?_⟩
  · intro i
    apply Fin.ext
    have := hL i i.2
    show (nth R (nth L i).toNat).toNat = (i : Nat)
    omega
  · intro k
    apply Fin.ext
    have := hR k k.2
    show (nth L (nth R k).toNat).toNat = (k : Nat)
    omega
  · intro i
    have := hL i i.2
    show (((nth L i).toNat : Nat) : Int) = nth L i
    omega

/-- The state on entering the augmentation loop. -/
theorem startState_spec {cost : List (List ℚ)} {n : Nat}
    (hn : cost.length = n) (hw : ∀ row ∈ cost, n ≤ row.length) :
    ∃ st, startState cost = .ok st ∧ RoundInv cost n st ∧ Tight cost n st.u st.v st.L ∧
      GreedyInv cost n st.u st.v n ⟨st.L, st.R, st.mated⟩ ∧
      (∀ i, i < n → (∀ j, j < n → nth st.u i ≤ ent cost i j) ∧
        ∃ j, j < n ∧ nth st.u i = ent cost i j) ∧
      (∀ j, j < n → (∀ i, i < n → nth st.v j ≤ ent cost i j - nth st.u i) ∧
        ∃ i, i < n ∧ nth st.v j = ent cost i j - nth st.u i) := by
  obtain ⟨u, v, hinit, hu, hv, hrow, hcol⟩ := initDuals_spec hn hw
  obtain ⟨m, hgr, hg⟩ := greedy_spec (u := u) (v := v) hn hw hu hv
  refine ⟨{ u := u, v := v, L := m.L, R := m.R, mated := m.mated,
            dist := List.replicate n 0, dad := List.replicate n 0,
            seen := List.replicate n 0 }, ?_, ?_, hg.tight, hg, hrow, hcol⟩
  · simp only [startState, hn, hinit, ok_bind, hgr]
    rfl
  · exact ⟨hu, hv, by simp, by simp, by simp, hg.matching,
      fun i k hi hk => red_nonneg_of_init (fun j hj i hi => (hcol j hj).1 i hi) hi hk,
      hg.rows, hg.cols⟩

/-- Behaviour of `MinCostMatching` on every matrix whose rows are at least `n` long, in terms
of the state `st0` left by the greedy pass: a panic when two or more rows are unmatched, and
otherwise a perfect matching whose cost is the sum of its entries. -/
theorem mcm_spec {cost : List (List ℚ)} {n fs fw fr : Nat}
    (hn : cost.length = n) (hw : ∀ row ∈ cost, n ≤ row.length)
    (hfs : n ≤ fs) (hfw : n ≤ fw) (hfr : n ≤ fr) :
    ∃ st0, startState cost = .ok st0 ∧ RoundInv cost n st0 ∧ Tight cost n st0.u st0.v st0.L ∧
      ((2 ≤ (free n st0.L).card ∧
          MinCostMatchingFuel fs fw fr cost = .error .indexOutOfRange) ∨
       ((free n st0.L).card ≤ 1 ∧ ∃ st' val, finalState fs fw fr cost = .ok st' ∧
          MinCostMatchingFuel fs fw fr cost = .ok (val, st'.L, st'.R) ∧
          InversePerms n st'.L st'.R ∧
          val = ∑ i ∈ Finset.range n, ent cost i (nth st'.L i).toNat ∧
          ∀ p : Equiv.Perm (Fin n), redSum cost n st0.u st0.v st'.L ≤
            redSum cost n st0.u st0.v st0.L + ∑ i : Fin n, red cost st0.u st0.v i (p i))) := by
  obtain ⟨st0, hstart, hinv, htight, _, _, _⟩ := startState_spec hn hw
  refine ⟨st0, hstart, hinv, htight, ?_⟩
  rcases @rounds_spec cost n st0 fs fw fr hn hw hinv hfs hfw hfr with
    ⟨h2, hrun⟩ | ⟨h1, st', hrun, hmat, hfL, hfR, _, hcost⟩
  · left
    refine ⟨h2, ?_⟩
    simp only [MinCostMatchingFuel, finalState, hstart, ok_bind, hn, hrun, error_bind]
  · right
    have hperm := inversePerms_of_matching hmat hfL hfR
    have hfinal : finalState fs fw fr cost = .ok st' := by
      simp only [finalState, hstart, ok_bind, hn, hrun]
    have htot := totalCost_spec hn hw hmat.lenL (fun i hi => ⟨(hperm.2.2.1 i hi).1,
      (hperm.2.2.1 i hi).2.1⟩)
    refine ⟨h1, st', _, hfinal, ?_, hperm, rfl, hcost⟩
    simp only [MinCostMatchingFuel, hfinal, ok_bind, hn, htot]
    rfl


/-! ## Optimality up to the tolerance of `zero` -/

/-- The cost of an assignment splits into the dual objective and its total reduced cost. -/
theorem permCost_split (cost : List (List ℚ)) (n : Nat) (u v : List ℚ)
    (p : Equiv.Perm (Fin n)) :
    permCost cost n p = ∑ i ∈ Finset.range n, nth u i + ∑ k ∈ Finset.range n, nth v k +
      ∑ i : Fin n, red cost u v i (p i) := by
  have h1 : permCost cost n p =
      ∑ i : Fin n, (nth u i + nth v (p i) + red cost u v i (p i)) := by
    unfold permCost
    apply Finset.sum_congr rfl
    intro i _
    unfold red; ring
  have h2 : ∑ i : Fin n, nth v (p i) = ∑ k ∈ Finset.range n, nth v k := by
    rw [Finset.sum_range (fun k => nth v k)]
    exact Equiv.sum_comp p (fun k : Fin n => nth v k)
  rw [h1, Finset.sum_add_distrib, Finset.sum_add_distrib, h2,
    Finset.sum_range (fun i => nth u i)]

/-- The cost of a perfect matching `L` is the cost of a permutation, whose total reduced cost
is `redSum L`. -/
theorem exists_perm_cost {cost : List (List ℚ)} {n : Nat} {L R : List Int} (u v : List ℚ)
    (h : InversePerms n L R) :
    ∃ p : Equiv.Perm (Fin n),
      ∑ i ∈ Finset.range n, ent cost i (nth L i).toNat = permCost cost n p ∧
      redSum cost n u v L = ∑ i : Fin n, red cost u v i (p i) := by
  obtain ⟨p, hp⟩ := exists_perm_of_inversePerms h
  have hp' : ∀ i : Fin n, (nth L i).toNat = (p i : Nat) := by
    intro i
    have := hp i
    omega
  refine ⟨p, ?_, ?_⟩
  · rw [Finset.sum_range (fun i => ent cost i (nth L i).toNat)]
    unfold permCost
    apply Finset.sum_congr rfl
    intro i _
    rw [hp' i]
  · unfold redSum
    rw [Finset.sum_range (fun i => if nth L i = -1 then 0 else red cost u v i (nth L i).toNat)]
    apply Finset.sum_congr rfl
    intro i _
    have := (h.2.2.1 i i.2).1
    rw [if_neg (by omega), hp' i]

theorem zero_iff (x : ℚ) : zero x = true ↔ |x| < eps := by
  simp [zero]

/-- The total reduced cost of a tight matching under feasible duals lies in `[0, n * eps)`. -/
theorem redSum_bounds {cost : List (List ℚ)} {n : Nat} {u v : List ℚ} {L R : List Int}
    (hm : Matching n L R) (htight : Tight cost n u v L)
    (hfeas : ∀ i k, i < n → k < n → 0 ≤ red cost u v i k) :
    0 ≤ redSum cost n u v L ∧ (0 < n → redSum cost n u v L < n * eps) := by
  have hterm : ∀ i, i ∈ Finset.range n →
      0 ≤ (if nth L i = -1 then 0 else red cost u v i (nth L i).toNat) ∧
      (if nth L i = -1 then 0 else red cost u v i (nth L i).toNat) < eps := by
    intro i hi
    have hin := Finset.mem_range.mp hi
    have heps : (0 : ℚ) < eps := by unfold eps; norm_num
    by_cases hL : nth L i = -1
    · simp only [hL, if_true]; exact ⟨le_refl _, heps⟩
    · simp only [hL, if_false]
      have hr := hm.rangeL i hin
      have hlt : (nth L i).toNat < n := by omega
      have hz := htight i (nth L i).toNat hin hlt (by omega)
      rw [zero_iff] at hz
      exact ⟨hfeas i _ hin hlt, lt_of_le_of_lt (le_abs_self _) hz⟩
  constructor
  · exact Finset.sum_nonneg (fun i hi => (hterm i hi).1)
  · intro hn
    have hne : (Finset.range n).Nonempty := ⟨0, Finset.mem_range.mpr hn⟩
    have := Finset.sum_lt_sum_of_nonempty hne (fun i hi => (hterm i hi).2)
    simpa [redSum] using this

theorem ent_integral {cost : List (List ℚ)} {n : Nat} (hn : cost.length = n)
    (hw : ∀ row ∈ cost, n ≤ row.length) (hint : Integral cost) {i j : Nat} (hi : i < n)
    (hj : j < n) : ∃ z : ℤ, ent cost i j = z := by
  have hi' : i < cost.length := by omega
  have hrow : cost.getD i [] = cost[i] := List.getD_eq_getElem cost [] hi'
  have hmem : cost[i] ∈ cost := List.getElem_mem hi'
  have hj' : j < cost[i].length := lt_of_lt_of_le hj (hw _ hmem)
  have hent : ent cost i j = cost[i][j] := by
    unfold ent nth
    rw [hrow]
    exact List.getD_eq_getElem _ 0 hj'
  have := hint _ hmem _ (List.getElem_mem hj')
  exact ⟨(cost[i][j]).num, by rw [hent]; exact (Rat.coe_int_num_of_den_eq_one this).symm⟩

/-- On an integer matrix the reduced costs after initialisation are integers, so every edge
accepted by `zero` has reduced cost exactly `0`. -/
theorem redSum_integral {cost : List (List ℚ)} {n : Nat} {u v : List ℚ} {L R : List Int}
    (hn : cost.length = n) (hw : ∀ row ∈ cost, n ≤ row.length) (hint : Integral cost)
    (hu : ∀ i, i < n → ∃ j, j < n ∧ nth u i = ent cost i j)
    (hv : ∀ j, j < n → ∃ i, i < n ∧ nth v j = ent cost i j - nth u i)
    (hm : Matching n L R) (htight : Tight cost n u v L) :
    redSum cost n u v L = 0 := by
  have huz : ∀ i, i < n → ∃ z : ℤ, nth u i = z := by
    intro i hi
    obtain ⟨j, hj, h⟩ := hu i hi
    obtain ⟨z, hz⟩ := ent_integral hn hw hint hi hj
    exact ⟨z, by rw [h, hz]⟩
  have hvz : ∀ j, j < n → ∃ z : ℤ, nth v j = z := by
    intro j hj
    obtain ⟨i, hi, h⟩ := hv j hj
    obtain ⟨z, hz⟩ := ent_integral hn hw hint hi hj
    obtain ⟨z', hz'⟩ := huz i hi
    exact ⟨z - z', by rw [h, hz, hz']; push_cast; ring⟩
  apply Finset.sum_eq_zero
  intro i hi
  have hin := Finset.mem_range.mp hi
  by_cases hL : nth L i = -1
  · simp only [hL, if_true]
  · simp only [hL, if_false]
    have hr := hm.rangeL i hin
    have hlt : (nth L i).toNat < n := by omega
    have hz := htight i (nth L i).toNat hin hlt (by omega)
    rw [zero_iff] at hz
    obtain ⟨a, ha⟩ := ent_integral hn hw hint hin hlt
    obtain ⟨b, hb⟩ := huz i hin
    obtain ⟨c, hc⟩ := hvz _ hlt
    have hred : red cost u v i (nth L i).toNat = ((a - b - c : ℤ) : ℚ) := by
      unfold red; rw [ha, hb, hc]; push_cast; ring
    rw [hred] at hz ⊢
    have h1 : |((a - b - c : ℤ) : ℚ)| < 1 := lt_trans hz (by unfold eps; norm_num)
    have h2 : |a - b - c| < 1 := by exact_mod_cast h1
    have h3 : a - b - c = 0 := Int.abs_lt_one_iff.mp h2
    rw [h3]; simp

/-- Whenever `MinCostMatching` returns on a matrix whose rows are at least `n` long, `L` and
`R` are mutually inverse permutations, the value is the cost of `L`, and it exceeds the cost
of any assignment by at most the total reduced cost `gap` of the edges accepted by the greedy
pass; `gap` lies in `[0, n * eps)` and vanishes on integer matrices. -/
theorem mcm_gap {cost : List (List ℚ)} {n fs fw fr : Nat} {val : ℚ} {L R : List Int}
    (hn : cost.length = n) (hw : ∀ row ∈ cost, n ≤ row.length)
    (hfs : n ≤ fs) (hfw : n ≤ fw) (hfr : n ≤ fr)
    (hret : MinCostMatchingFuel fs fw fr cost = .ok (val, L, R)) :
    InversePerms n L R ∧ val = ∑ i ∈ Finset.range n, ent cost i (nth L i).toNat ∧
    ∃ st0 gap, startState cost = .ok st0 ∧ gap = redSum cost n st0.u st0.v st0.L ∧
      0 ≤ gap ∧ (0 < n → gap < n * eps) ∧ (Integral cost → gap = 0) ∧
      (∃ p, val = permCost cost n p) ∧ ∀ q, val ≤ permCost cost n q + gap := by
  obtain ⟨st0, hstart, hinv, htight, hcase⟩ := mcm_spec hn hw hfs hfw hfr
  obtain ⟨_, _, _, _, _, hrow, hcol⟩ := startState_spec hn hw
  rename_i st1 hst1 _ _ _
  have hst : st1 = st0 := by
    rw [hstart] at hst1
    exact (Except.ok.inj hst1).symm
  subst hst
  rcases hcase with ⟨_, herr⟩ | ⟨_, st', v', _, hok, hperm, hval, hcost⟩
  · rw [herr] at hret; cases hret
  · rw [hok] at hret
    have hinj := Except.ok.inj hret
    simp only [Prod.mk.injEq] at hinj
    obtain ⟨h1, h2, h3⟩ := hinj
    subst h1 h2 h3
    obtain ⟨p, hp1, hp2⟩ := @exists_perm_cost cost n st'.L st'.R st1.u st1.v hperm
    have hb := redSum_bounds hinv.matching htight hinv.feas
    refine ⟨hperm, hval, st1, _, hstart, rfl, hb.1, hb.2, ?_, ⟨p, by rw [hval, hp1]⟩, ?_⟩
    · intro hint
      exact redSum_integral hn hw hint (fun i hi => (hrow i hi).2) (fun j hj => (hcol j hj).2)
        hinv.matching htight
    · intro q
      have hq := hcost q
      rw [hp2] at hq
      have e1 := permCost_split cost n st1.u st1.v p
      have e2 := permCost_split cost n st1.u st1.v q
      rw [hval, hp1]
      linarith


/-! ## Iteration budgets: a larger budget never changes a result -/

theorem extends_refl {α : Type} (r : Res α) : Extends r r := fun _ => rfl

theorem extends_bind {α β : Type} {x y : Res α} {f g : α → Res β} (hxy : Extends x y)
    (hfg : ∀ a, Extends (f a) (g a)) : Extends (x >>= f) (y >>= g) := by
  intro h
  cases x with
  | error e =>
    have he : e ≠ .outOfFuel := fun h' => h (by rw [h']; rfl)
    rw [hxy (fun h' => he (Except.error.inj h'))]
    rfl
  | ok a =>
    rw [hxy (fun h' => by cases h')]
    exact hfg a h

theorem extends_ite {α : Type} {c : Prop} [Decidable c] {a b a' b' : Res α}
    (h1 : Extends a a') (h2 : Extends b b') :
    Extends (if c then a else b) (if c then a' else b') := by
  split
  · exact h1
  · exact h2

theorem search_succ (cost : List (List ℚ)) (n : Nat) (u v : List ℚ) (R : List Int)
    (fuel : Nat) (sc : Scratch) :
    search cost n u v R (fuel + 1) sc =
      (closest sc.dist sc.seen n 0 (-1) >>= fun j =>
        upd sc.seen j 1 >>= fun seen =>
          idx R j >>= fun i =>
            if i = -1 then pure (j, { sc with seen := seen })
            else relax cost n u v j i { sc with seen := seen } >>= fun sc' =>
              search cost n u v R fuel sc') := rfl

theorem search_extends (cost : List (List ℚ)) (n : Nat) (u v : List ℚ) (R : List Int) :
    ∀ fuel sc, Extends (search cost n u v R fuel sc) (search cost n u v R (fuel + 1) sc) := by
  intro fuel
  induction fuel with
  | zero => intro sc h; exact absurd rfl h
  | succ f ih =>
    intro sc
    rw [search_succ cost n u v R f, search_succ cost n u v R (f + 1)]
    refine extends_bind (extends_refl _) (fun j => ?_)
    refine extends_bind (extends_refl _) (fun seen => ?_)
    refine extends_bind (extends_refl _) (fun i => ?_)
    refine extends_ite (extends_refl _) ?_
    exact extends_bind (extends_refl _) (fun sc' => ih sc')

theorem search_mono (cost : List (List ℚ)) (n : Nat) (u v : List ℚ) (R : List Int)
    {f f' : Nat} (h : f ≤ f') (sc : Scratch) :
    Extends (search cost n u v R f sc) (search cost n u v R f' sc) := by
  induction h with
  | refl => exact extends_refl _
  | step _ ih =>
    intro hne
    rw [← ih hne]
    exact search_extends cost n u v R _ sc (by rw [ih hne]; exact hne)

theorem walk_extends (dad : List Int) :
    ∀ fuel j L R, Extends (walk dad fuel j L R) (walk dad (fuel + 1) j L R) := by
  intro fuel
  induction fuel with
  | zero =>
    intro j L R
    rw [walk_unfold dad 0, walk_unfold dad 1]
    refine extends_bind (extends_refl _) (fun d => ?_)
    refine extends_ite ?_ (extends_refl _)
    intro h; exact absurd rfl h
  | succ f ih =>
    intro j L R
    rw [walk_unfold dad (f + 1), walk_unfold dad (f + 2)]
    refine extends_bind (extends_refl _) (fun d => ?_)
    refine extends_ite ?_ (extends_refl _)
    refine extends_bind (extends_refl _) (fun rd => ?_)
    refine extends_bind (extends_refl _) (fun R' => ?_)
    refine extends_bind (extends_refl _) (fun rj => ?_)
    refine extends_bind (extends_refl _) (fun L' => ?_)
    exact ih _ _ _

theorem walk_mono (dad : List Int) {f f' : Nat} (h : f ≤ f') (j : Int) (L R : List Int) :
    Extends (walk dad f j L R) (walk dad f' j L R) := by
  induction h with
  | refl => exact extends_refl _
  | step _ ih =>
    intro hne
    rw [← ih hne]
    exact walk_extends dad _ j L R (by rw [ih hne]; exact hne)

theorem round_mono (cost : List (List ℚ)) (n : Nat) {fs fs' fw fw' : Nat} (hs : fs ≤ fs')
    (hw : fw ≤ fw') (st : State) :
    Extends (round cost n fs fw st) (round cost n fs' fw' st) := by
  rw [round_unfold, round_unfold]
  refine extends_bind (extends_refl _) (fun s => ?_)
  refine extends_bind (extends_refl _) (fun dist => ?_)
  refine extends_bind (search_mono cost n st.u st.v st.R hs _) (fun jsc => ?_)
  refine extends_bind (extends_refl _) (fun uv => ?_)
  refine extends_bind (walk_mono _ hw _ _ _) (fun jLR => ?_)
  exact extends_refl _

theorem rounds_mono (cost : List (List ℚ)) (n : Nat) {fs fs' fw fw' : Nat} (hs : fs ≤ fs')
    (hw : fw ≤ fw') :
    ∀ fr fr' st, fr ≤ fr' →
      Extends (rounds cost n fs fw fr st) (rounds cost n fs' fw' fr' st) := by
  intro fr
  induction fr with
  | zero =>
    intro fr' st _
    rw [rounds_unfold cost n fs fw 0, rounds_unfold cost n fs' fw' fr']
    by_cases hm : st.mated < n
    · rw [if_pos hm]; intro h; exact absurd rfl h
    · rw [if_neg hm, if_neg hm]; exact extends_refl _
  | succ f ih =>
    intro fr' st hle
    obtain ⟨f', rfl⟩ : ∃ f', fr' = f' + 1 := ⟨fr' - 1, by omega⟩
    rw [rounds_unfold cost n fs fw (f + 1), rounds_unfold cost n fs' fw' (f' + 1)]
    refine extends_ite ?_ (extends_refl _)
    exact extends_bind (round_mono cost n hs hw st) (fun st' => ih f' _ (by omega))

/-- Raising any of the three budgets leaves every result other than budget exhaustion
unchanged. -/
theorem mcm_mono (cost : List (List ℚ)) {fs fs' fw fw' fr fr' : Nat} (hs : fs ≤ fs')
    (hw : fw ≤ fw') (hr : fr ≤ fr') :
    Extends (MinCostMatchingFuel fs fw fr cost) (MinCostMatchingFuel fs' fw' fr' cost) := by
  unfold MinCostMatchingFuel finalState
  refine extends_bind ?_ (fun st => extends_refl _)
  exact extends_bind (extends_refl _) (fun st => rounds_mono cost _ hs hw _ _ st hr)

/-- On a matrix whose rows are at least `n` long the budget `n` is never exhausted. -/
theorem mcm_no_outOfFuel {cost : List (List ℚ)} (hw : ∀ row ∈ cost, cost.length ≤ row.length) :
    MinCostMatching cost ≠ .error .outOfFuel := by
  obtain ⟨st0, _, _, _, hcase⟩ := @mcm_spec cost cost.length cost.length cost.length
    cost.length rfl hw (le_refl _) (le_refl _) (le_refl _)
  unfold MinCostMatching
  rcases hcase with ⟨_, h⟩ | ⟨_, st', val, _, h, _⟩
  · rw [h]; intro h'; cases h'
  · rw [h]; intro h'; cases h'


/-! ## Extremal assignment costs -/

theorem minPermCost_le (cost : List (List ℚ)) (n : Nat) (p : Equiv.Perm (Fin n)) :
    minPermCost cost n ≤ permCost cost n p :=
  Finset.inf'_le _ (Finset.mem_univ p)

theorem exists_minPermCost (cost : List (List ℚ)) (n : Nat) :
    ∃ p, minPermCost cost n = permCost cost n p := by
  obtain ⟨p, _, hp⟩ := Finset.exists_mem_eq_inf' (Finset.univ_nonempty
    (α := Equiv.Perm (Fin n))) (permCost cost n)
  exact ⟨p, hp⟩

theorem le_maxPermCost (cost : List (List ℚ)) (n : Nat) (p : Equiv.Perm (Fin n)) :
    permCost cost n p ≤ maxPermCost cost n :=
  Finset.le_sup' _ (Finset.mem_univ p)

theorem exists_maxPermCost (cost : List (List ℚ)) (n : Nat) :
    ∃ p, maxPermCost cost n = permCost cost n p := by
  obtain ⟨p, _, hp⟩ := Finset.exists_mem_eq_sup' (Finset.univ_nonempty
    (α := Equiv.Perm (Fin n))) (permCost cost n)
  exact ⟨p, hp⟩

/-- The value of a returning call lies within `n * eps` above the least assignment cost, and
equals it on integer matrices. -/
theorem mcm_optimal {cost : List (List ℚ)} {val : ℚ} {L R : List Int}
    (hw : ∀ row ∈ cost, cost.length ≤ row.length) (hpos : 0 < cost.length)
    (hret : MinCostMatching cost = .ok (val, L, R)) :
    minPermCost cost cost.length ≤ val ∧
    val < minPermCost cost cost.length + cost.length * eps ∧
    (Integral cost → val = minPermCost cost cost.length) := by
  obtain ⟨_, _, st0, gap, _, _, h0, hlt, hint, ⟨p, hp⟩, hq⟩ :=
    mcm_gap rfl hw (le_refl _) (le_refl _) (le_refl _) hret
  obtain ⟨q, hmin⟩ := exists_minPermCost cost cost.length
  have hle : minPermCost cost cost.length ≤ val := by
    rw [hp]; exact minPermCost_le cost _ p
  have hub := hq q
  rw [← hmin] at hub
  refine ⟨hle, ?_, ?_⟩
  · have := hlt hpos
    linarith
  · intro hI
    have := hint hI
    linarith

/-! ## Negated, row-shifted and column-shifted matrices -/

theorem nth_map_neg (row : List ℚ) (j : Nat) : nth (row.map (fun x => -x)) j = - nth row j := by
  simp only [nth_eq_getElem?, List.getElem?_map]
  cases row[j]? <;> simp

theorem ent_negate (cost : List (List ℚ)) (i j : Nat) :
    ent (negate cost) i j = - ent cost i j := by
  unfold ent negate
  have : (cost.map (fun row => row.map (fun x => -x))).getD i [] =
      (cost.getD i []).map (fun x => -x) := by
    simp only [List.getD_eq_getElem?_getD, List.getElem?_map]
    cases cost[i]? <;> simp
  rw [this, nth_map_neg]

theorem permCost_negate (cost : List (List ℚ)) (n : Nat) (p : Equiv.Perm (Fin n)) :
    permCost (negate cost) n p = - permCost cost n p := by
  unfold permCost
  rw [← Finset.sum_neg_distrib]
  exact Finset.sum_congr rfl (fun i _ => ent_negate cost i (p i))

theorem minPermCost_negate (cost : List (List ℚ)) (n : Nat) :
    minPermCost (negate cost) n = - maxPermCost cost n := by
  apply le_antisymm
  · obtain ⟨p, hp⟩ := exists_maxPermCost cost n
    have := minPermCost_le (negate cost) n p
    rw [permCost_negate] at this
    rw [hp]; exact this
  · obtain ⟨p, hp⟩ := exists_minPermCost (negate cost) n
    rw [hp, permCost_negate]
    have := le_maxPermCost cost n p
    linarith

@[simp] theorem length_negate (cost : List (List ℚ)) : (negate cost).length = cost.length := by
  simp [negate]

theorem wide_negate {cost : List (List ℚ)} (hw : ∀ row ∈ cost, cost.length ≤ row.length) :
    ∀ row ∈ negate cost, (negate cost).length ≤ row.length := by
  intro row hrow
  simp only [negate, List.mem_map] at hrow
  obtain ⟨r, hr, rfl⟩ := hrow
  simpa using hw r hr

theorem integral_negate {cost : List (List ℚ)} (h : Integral cost) : Integral (negate cost) := by
  intro row hrow x hx
  simp only [negate, List.mem_map] at hrow
  obtain ⟨r, hr, rfl⟩ := hrow
  simp only [List.mem_map] at hx
  obtain ⟨y, hy, rfl⟩ := hx
  rw [Rat.neg_den]
  exact h r hr y hy

theorem wide_of_square {cost : List (List ℚ)} (h : Square cost) :
    ∀ row ∈ cost, cost.length ≤ row.length :=
  fun row hrow => le_of_eq (h row hrow).symm

@[simp] theorem length_addCol (cost : List (List ℚ)) (q : Nat) (c : ℚ) :
    (addCol cost q c).length = cost.length := by
  simp [addCol]

theorem wide_addCol {cost : List (List ℚ)} (q : Nat) (c : ℚ)
    (hw : ∀ row ∈ cost, cost.length ≤ row.length) :
    ∀ row ∈ addCol cost q c, (addCol cost q c).length ≤ row.length := by
  intro row hrow
  simp only [addCol, List.mem_map] at hrow
  obtain ⟨r, hr, rfl⟩ := hrow
  simpa using hw r hr

theorem ent_addCol {cost : List (List ℚ)} {q i : Nat} (c : ℚ)
    (hw : ∀ row ∈ cost, cost.length ≤ row.length) (hi : i < cost.length)
    (hq : q < cost.length) (j : Nat) :
    ent (addCol cost q c) i j = ent cost i j + if j = q then c else 0 := by
  have hrow : cost.getD i [] = cost[i] := List.getD_eq_getElem cost [] hi
  have hlen : q < (cost[i]).length := lt_of_lt_of_le hq (hw _ (List.getElem_mem hi))
  have hrow' : (addCol cost q c).getD i [] = (cost[i]).set q ((cost[i]).getD q 0 + c) := by
    simp [addCol, List.getD_eq_getElem?_getD, List.getElem?_map, List.getElem?_eq_getElem hi]
  unfold ent
  rw [hrow', hrow, nth_set _ hlen]
  by_cases hj : j = q
  · subst hj; simp [nth]
  · simp [hj]

theorem permCost_addCol {cost : List (List ℚ)} {q : Nat} (c : ℚ)
    (hw : ∀ row ∈ cost, cost.length ≤ row.length) (hq : q < cost.length)
    (p : Equiv.Perm (Fin cost.length)) :
    permCost (addCol cost q c) cost.length p = permCost cost cost.length p + c := by
  unfold permCost
  have h1 : ∀ i : Fin cost.length, ent (addCol cost q c) i (p i) =
      ent cost i (p i) + if i = p.symm ⟨q, hq⟩ then c else 0 := by
    intro i
    rw [ent_addCol c hw i.2 hq]
    congr 1
    have : ((p i : Nat) = q) ↔ i = p.symm ⟨q, hq⟩ := by
      constructor
      · intro h
        have : p i = ⟨q, hq⟩ := Fin.ext h
        rw [← this]; simp
      · intro h
        rw [h]; simp
    by_cases hpi : (p i : Nat) = q
    · rw [if_pos hpi, if_pos (this.mp hpi)]
    · rw [if_neg hpi, if_neg (fun h => hpi (this.mpr h))]
  rw [Finset.sum_congr rfl (fun i _ => h1 i), Finset.sum_add_distrib]
  congr 1
  simp

theorem minPermCost_addCol {cost : List (List ℚ)} {q : Nat} (c : ℚ)
    (hw : ∀ row ∈ cost, cost.length ≤ row.length) (hq : q < cost.length) :
    minPermCost (addCol cost q c) cost.length = minPermCost cost cost.length + c := by
  apply le_antisymm
  · obtain ⟨p, hp⟩ := exists_minPermCost cost cost.length
    have := minPermCost_le (addCol cost q c) cost.length p
    rw [permCost_addCol c hw hq] at this
    rw [hp]; exact this
  · obtain ⟨p, hp⟩ := exists_minPermCost (addCol cost q c) cost.length
    rw [hp, permCost_addCol c hw hq]
    have := minPermCost_le cost cost.length p
    linarith

theorem den_add_eq_one {x y : ℚ} (hx : x.den = 1) (hy : y.den = 1) : (x + y).den = 1 := by
  have hx' := Rat.coe_int_num_of_den_eq_one hx
  have hy' := Rat.coe_int_num_of_den_eq_one hy
  have : x + y = ((x.num + y.num : ℤ) : ℚ) := by push_cast; rw [hx', hy']
  rw [this]
  exact Rat.den_intCast _

theorem integral_addCol {cost : List (List ℚ)} (q : Nat) {c : ℚ} (h : Integral cost)
    (hc : c.den = 1) : Integral (addCol cost q c) := by
  intro row hrow x hx
  simp only [addCol, List.mem_map] at hrow
  obtain ⟨r, hr, rfl⟩ := hrow
  rcases List.mem_or_eq_of_mem_set hx with hmem | rfl
  · exact h r hr x hmem
  · apply den_add_eq_one _ hc
    by_cases hq : q < r.length
    · rw [List.getD_eq_getElem r 0 hq]
      exact h r hr _ (List.getElem_mem hq)
    · have : r.getD q 0 = 0 := by
        simp [List.getD_eq_getElem?_getD, List.getElem?_eq_none (not_lt.mp hq)]
      rw [this]; rfl


/-! ## Rows shorter than the number of rows -/

theorem safe_bind {α β : Type} {P : α → Prop} {Q : β → Prop} {x : Res α} {f : α → Res β}
    (hx : Safe P x) (hf : ∀ a, P a → Safe Q (f a)) : Safe Q (x >>= f) := by
  rcases hx with h | ⟨a, h, ha⟩
  · left; rw [h]; rfl
  · rw [h]; exact hf a ha

theorem safe_idx {α : Type} (xs : List α) (i : Int) : Safe (fun _ => True) (idx xs i) := by
  cases h : idx xs i with
  | error e => left; rw [idx_error h]
  | ok a => right; exact ⟨a, rfl, trivial⟩

theorem safe_cell (cost : List (List ℚ)) (i j : Int) : Safe (fun _ => True) (cell cost i j) := by
  cases h : cell cost i j with
  | error e => left; rw [cell_error h]
  | ok a => right; exact ⟨a, rfl, trivial⟩

theorem safe_upd {α : Type} (xs : List α) (i : Int) (a : α) :
    Safe (fun ys => ys.length = xs.length) (upd xs i a) := by
  unfold upd
  split
  · left; rfl
  · split
    · right; exact ⟨_, rfl, by simp⟩
    · left; rfl

theorem safe_forLoop {σ : Type} (body : Nat → σ → Res σ) (P : σ → Prop)
    (hbody : ∀ k st, P st → Safe P (body k st)) :
    ∀ cnt lo st, P st → Safe P (forLoop body cnt lo st) := by
  intro cnt
  induction cnt with
  | zero => intro lo st h; right; exact ⟨st, rfl, h⟩
  | succ c ih =>
    intro lo st h
    rw [forLoop_succ]
    exact safe_bind (hbody lo st h) (fun a ha => ih (lo + 1) a ha)

theorem safe_initRow_body (cost : List (List ℚ)) (n i j : Nat) (w : List ℚ)
    (hw : w.length = n) :
    Safe (fun w' : List ℚ => w'.length = n) (do
      let ui ← idx w i
      let c ← cell cost i j
      upd w i (min ui c)) := by
  refine safe_bind (safe_idx w i) (fun ui _ => ?_)
  refine safe_bind (safe_cell cost i j) (fun c _ => ?_)
  rcases safe_upd w (i : Int) (min ui c) with h | ⟨a, h, ha⟩
  · left; exact h
  · right; exact ⟨a, h, ha.trans hw⟩

theorem safe_initRow (cost : List (List ℚ)) (n i : Nat) (u : List ℚ) (hu : u.length = n) :
    Safe (fun u' : List ℚ => u'.length = n) (initRow cost n i u) := by
  unfold initRow
  refine safe_bind (safe_cell cost i 0) (fun c0 _ => ?_)
  refine safe_bind (safe_upd u i c0) (fun u1 hu1 => ?_)
  exact safe_forLoop _ _ (fun j w hw => safe_initRow_body cost n i j w hw) _ _ _
    (hu1.trans hu)

theorem cell_col_ge {cost : List (List ℚ)} {i j : Nat} (hi : i < cost.length)
    (hj : (cost.getD i []).length ≤ j) : cell cost (i : Int) (j : Int) = .error .indexOutOfRange := by
  simp only [cell, idx_row hi, ok_bind]
  exact idx_ge (by omega)

/-- Reading a row shorter than `n` makes its initialisation panic. -/
theorem initRow_short {cost : List (List ℚ)} {n i : Nat} {u : List ℚ} (hn : cost.length = n)
    (hi : i < n) (hshort : (cost.getD i []).length < n) (hu : u.length = n) :
    initRow cost n i u = .error .indexOutOfRange := by
  have hi' : i < cost.length := by omega
  by_cases h0 : (cost.getD i []).length = 0
  · have := cell_col_ge (j := 0) hi' (by omega)
    simp only [Nat.cast_zero] at this
    simp only [initRow, this, error_bind]
  · have hc0 : cell cost (i : Int) 0 = .ok (ent cost i 0) := by
      have hj' : 0 < (cost.getD i []).length := by omega
      have := @idx_nat _ _ (cost.getD i []) 0 hj'
      simp only [cell, idx_row hi', ok_bind]
      simpa [ent] using this
    have hu0 : upd u (i : Int) (ent cost i 0) = .ok (u.set i (ent cost i 0)) :=
      upd_nat _ (by omega)
    have hloop := forLoop_error
      (fun j (w : List ℚ) => do
        let ui ← idx w i
        let c ← cell cost i j
        upd w i (min ui c))
      (fun _ (w : List ℚ) => w.length = n) .indexOutOfRange (n - 1) 1
      (u.set i (ent cost i 0)) (cost.getD i []).length (by omega) (by omega) (by simp [hu])
      (fun k st _ _ hst => by
        rcases safe_initRow_body cost n i k st hst with h | ⟨a, h, ha⟩
        · exact Or.inl h
        · exact Or.inr ⟨a, h, ha⟩)
      (fun st hst => by
        simp only [idx_nat (show i < st.length by omega), ok_bind,
          cell_col_ge hi' (le_refl _), error_bind])
    simp only [initRow, hc0, ok_bind, hu0]
    exact hloop

/-- A matrix with a row shorter than its number of rows makes `MinCostMatching` panic, for
every choice of budgets. -/
theorem mcm_short_row {cost : List (List ℚ)} (fs fw fr : Nat)
    (h : ∃ row ∈ cost, row.length < cost.length) :
    MinCostMatchingFuel fs fw fr cost = .error .indexOutOfRange := by
  obtain ⟨row, hrow, hlen⟩ := h
  obtain ⟨i, hi, hget⟩ := List.getElem_of_mem hrow
  have hrowi : cost.getD i [] = row := by
    rw [List.getD_eq_getElem cost [] hi, hget]
  have hloop := forLoop_error (initRow cost cost.length)
    (fun _ (w : List ℚ) => w.length = cost.length) .indexOutOfRange cost.length 0
    (List.replicate cost.length 0) i (by omega) (by omega) (by simp)
    (fun k st _ _ hst => by
      rcases safe_initRow cost cost.length k st hst with h | ⟨a, h, ha⟩
      · exact Or.inl h
      · exact Or.inr ⟨a, h, ha⟩)
    (fun st hst => initRow_short rfl hi (by rw [hrowi]; exact hlen) hst)
  simp only [MinCostMatchingFuel, finalState, startState, initDuals, hloop, error_bind]


/-! ## Two runs side by side -/

theorem relRes_ok {α β : Type} {P : α → β → Prop} {a : α} {b : β} (h : P a b) :
    RelRes P (.ok a) (.ok b) := h

theorem relRes_error {α β : Type} {P : α → β → Prop} (e : Err) :
    RelRes P (.error e : Res α) (.error e : Res β) := rfl

theorem relRes_bind {α β γ δ : Type} {P : α → β → Prop} {Q : γ → δ → Prop}
    {x : Res α} {y : Res β} {f : α → Res γ} {g : β → Res δ}
    (hxy : RelRes P x y) (hfg : ∀ a b, P a b → RelRes Q (f a) (g b)) :
    RelRes Q (x >>= f) (y >>= g) := by
  cases x with
  | error e =>
    cases y with
    | error e' => exact hxy
    | ok b => exact hxy.elim
  | ok a =>
    cases y with
    | error e' => exact hxy.elim
    | ok b => exact hfg a b hxy

theorem relRes_refl {α : Type} (x : Res α) : RelRes Eq x x := by
  cases x with
  | error e => rfl
  | ok a => exact Eq.refl a

theorem relRes_mono {α β : Type} {P Q : α → β → Prop} {x : Res α} {y : Res β}
    (h : ∀ a b, P a b → Q a b) (hxy : RelRes P x y) : RelRes Q x y := by
  cases x with
  | error e =>
    cases y with
    | error e' => exact hxy
    | ok b => exact hxy.elim
  | ok a =>
    cases y with
    | error e' => exact hxy.elim
    | ok b => exact h a b hxy

theorem relRes_map_eq {α β : Type} {x : Res α} {y : Res β} (φ : α → β)
    (h : RelRes (fun a b => b = φ a) x y) : y = Except.map φ x := by
  cases x with
  | error e =>
    cases y with
    | error e' => rw [show e = e' from h]; rfl
    | ok b => exact h.elim
  | ok a =>
    cases y with
    | error e' => exact h.elim
    | ok b => rw [show b = φ a from h]; rfl

theorem forLoop_rel {σ τ : Type} (Rel : Nat → σ → τ → Prop) (b1 : Nat → σ → Res σ)
    (b2 : Nat → τ → Res τ)
    (hstep : ∀ k s t, Rel k s t → RelRes (Rel (k + 1)) (b1 k s) (b2 k t)) :
    ∀ cnt lo s t, Rel lo s t →
      RelRes (Rel (lo + cnt)) (forLoop b1 cnt lo s) (forLoop b2 cnt lo t) := by
  intro cnt
  induction cnt with
  | zero => intro lo s t h; exact h
  | succ c ih =>
    intro lo s t h
    rw [forLoop_succ, forLoop_succ]
    refine relRes_bind (hstep lo s t h) (fun a b hab => ?_)
    have := ih (lo + 1) a b hab
    have he : lo + 1 + c = lo + (c + 1) := by omega
    rw [he] at this
    exact this

/-! ## Adding a constant to a row (exact arithmetic) -/

theorem idx_shift {n : Nat} {E : Nat → ℚ} {u u' : List ℚ} (h : Shifted n E u u') (i : Int) :
    RelRes (fun a b => b = a + E i.toNat) (idx u i) (idx u' i) := by
  obtain ⟨h1, h2, h3⟩ := h
  by_cases h0 : i < 0
  · rw [idx_neg h0, idx_neg h0]; rfl
  · by_cases hn : (n : Int) ≤ i
    · rw [idx_ge (by omega), idx_ge (by omega)]; rfl
    · rw [idx_int (by omega) (by omega), idx_int (by omega) (by omega)]
      exact h3 i.toNat (by omega)

theorem upd_shift {n : Nat} {E E' : Nat → ℚ} {u u' : List ℚ} (h : Shifted n E u u') (i : Int)
    {a b : ℚ} (hab : b = a + E' i.toNat) (hE : ∀ k, k ≠ i.toNat → E' k = E k) :
    RelRes (Shifted n E') (upd u i a) (upd u' i b) := by
  obtain ⟨h1, h2, h3⟩ := h
  by_cases h0 : i < 0
  · rw [upd_neg _ h0, upd_neg _ h0]; rfl
  · by_cases hn : (n : Int) ≤ i
    · rw [upd_ge _ (by omega), upd_ge _ (by omega)]; rfl
    · rw [upd_int _ (by omega) (by omega), upd_int _ (by omega) (by omega)]
      refine ⟨by simp [h1], by simp [h2], fun k hk => ?_⟩
      rw [nth_set _ (show i.toNat < u'.length by omega), nth_set _ (show i.toNat < u.length by omega)]
      by_cases hki : k = i.toNat
      · simp only [hki, if_true]; exact hab
      · simp only [hki, if_false]
        rw [h3 k hk, hE k hki]

theorem nth_map_add (row : List ℚ) (c : ℚ) {j : Nat} (hj : j < row.length) :
    nth (row.map (fun x => x + c)) j = nth row j + c := by
  simp [nth_eq_getElem?, List.getElem?_map, List.getElem?_eq_getElem hj]

@[simp] theorem length_addRow (cost : List (List ℚ)) (r : Nat) (c : ℚ) :
    (addRow cost r c).length = cost.length := by
  simp [addRow]

theorem getD_addRow (cost : List (List ℚ)) (r : Nat) (c : ℚ) (k : Nat) :
    (addRow cost r c).getD k [] =
      if k = r then (cost.getD r []).map (fun x => x + c) else cost.getD k [] := by
  unfold addRow
  simp only [List.getD_eq_getElem?_getD, List.getElem?_set]
  by_cases hk : r = k
  · subst hk
    by_cases hr : r < cost.length
    · simp [hr]
    · simp [hr, List.getElem?_eq_none (not_lt.mp hr)]
  · have hk' : ¬ k = r := fun h => hk h.symm
    simp [hk, hk']

theorem cell_shift (cost : List (List ℚ)) (r : Nat) (c : ℚ) (i j : Int) :
    RelRes (fun a b => b = a + rowOffset r c i.toNat) (cell cost i j)
      (cell (addRow cost r c) i j) := by
  by_cases h0 : i < 0
  · simp only [cell, idx_neg h0, error_bind]; rfl
  · by_cases hn : (cost.length : Int) ≤ i
    · simp only [cell, idx_ge hn, idx_ge (show ((addRow cost r c).length : Int) ≤ i by simpa using hn),
        error_bind]
      rfl
    · have hi : i.toNat < cost.length := by omega
      have hcast : ((i.toNat : Nat) : Int) = i := Int.toNat_of_nonneg (by omega)
      have e1 := idx_row hi
      have e2 := @idx_row (addRow cost r c) i.toNat (by simpa using hi)
      rw [hcast] at e1 e2
      simp only [cell, e1, e2, ok_bind, getD_addRow]
      by_cases hir : i.toNat = r
      · simp only [hir, if_true, rowOffset]
        by_cases hj0 : j < 0
        · rw [idx_neg hj0, idx_neg hj0]; rfl
        · by_cases hjn : ((cost.getD r []).length : Int) ≤ j
          · have hlen : ((cost.getD r []).map (fun x => x + c)).length =
                (cost.getD r []).length := List.length_map _ _
            rw [idx_ge hjn, idx_ge (by rw [hlen]; exact hjn)]; rfl
          · have hlen : ((cost.getD r []).map (fun x => x + c)).length =
                (cost.getD r []).length := List.length_map _ _
            rw [idx_int (by omega) (by omega), idx_int (by omega) (by rw [hlen]; omega)]
            exact nth_map_add _ c (by omega)
      · simp only [hir, if_false, rowOffset]
        cases idx (cost.getD i.toNat []) j with
        | error e => rfl
        | ok a => show a = a + 0; ring


/-! ## Row shift: the two runs proceed in lockstep -/

section RowShift

variable (cost : List (List ℚ)) (r : Nat) (c : ℚ)

theorem initRow_shift (n i : Nat) {u u' : List ℚ}
    (h : Shifted n (initOffset r c i) u u') :
    RelRes (Shifted n (initOffset r c (i + 1))) (initRow cost n i u)
      (initRow (addRow cost r c) n i u') := by
  have hoff : initOffset r c (i + 1) i = rowOffset r c i := by simp [initOffset]
  have hE : ∀ k, k ≠ i → initOffset r c (i + 1) k = initOffset r c i k := by
    intro k hk
    unfold initOffset
    by_cases h1 : k < i
    · simp [h1, show k < i + 1 by omega]
    · simp [h1, show ¬ k < i + 1 by omega]
  unfold initRow
  refine relRes_bind (cell_shift cost r c i 0) (fun a b hab => ?_)
  simp only [Int.toNat_ofNat] at hab
  refine relRes_bind (@upd_shift n (initOffset r c i) (initOffset r c (i + 1)) u u' h i a b
    (by simp only [Int.toNat_ofNat, hoff]; exact hab)
    (by simp only [Int.toNat_ofNat]; exact hE)) (fun w w' hw => ?_)
  have := forLoop_rel (fun _ (x y : List ℚ) => Shifted n (initOffset r c (i + 1)) x y)
    (fun j (w : List ℚ) => do
      let ui ← idx w i
      let c ← cell cost i j
      upd w i (min ui c))
    (fun j (w : List ℚ) => do
      let ui ← idx w i
      let c ← cell (addRow cost r c) i j
      upd w i (min ui c))
    (fun j x y hxy => by
      refine relRes_bind (idx_shift hxy i) (fun ui ui' hui => ?_)
      refine relRes_bind (cell_shift cost r c i j) (fun cc cc' hcc => ?_)
      simp only [Int.toNat_ofNat] at hui hcc
      rw [hoff] at hui
      refine upd_shift hxy i ?_ (fun k _ => rfl)
      simp only [Int.toNat_ofNat, hoff]
      rw [hui, hcc, min_add_add_right])
    (n - 1) 1 w w' hw
  exact this

theorem initCol_shift (n j : Nat) {u u' : List ℚ} (v : List ℚ)
    (h : Shifted n (rowOffset r c) u u') :
    RelRes Eq (initCol cost n u j v) (initCol (addRow cost r c) n u' j v) := by
  unfold initCol
  refine relRes_bind (cell_shift cost r c 0 j) (fun a b hab => ?_)
  refine relRes_bind (idx_shift h 0) (fun u0 u0' hu0 => ?_)
  have e : b - u0' = a - u0 := by rw [hab, hu0]; ring
  rw [e]
  refine relRes_bind (relRes_refl _) (fun w w' hw => ?_)
  subst hw
  have := forLoop_rel (fun _ (x y : List ℚ) => x = y)
    (fun i (w : List ℚ) => do
      let vj ← idx w j
      let c ← cell cost i j
      let ui ← idx u i
      upd w j (min vj (c - ui)))
    (fun i (w : List ℚ) => do
      let vj ← idx w j
      let c ← cell (addRow cost r c) i j
      let ui ← idx u' i
      upd w j (min vj (c - ui)))
    (fun i x y hxy => by
      subst hxy
      refine relRes_bind (relRes_refl _) (fun vj vj' hvj => ?_)
      subst hvj
      refine relRes_bind (cell_shift cost r c i j) (fun cc cc' hcc => ?_)
      refine relRes_bind (idx_shift h i) (fun ui ui' hui => ?_)
      have e : cc' - ui' = cc - ui := by rw [hcc, hui]; ring
      rw [e]
      exact relRes_refl _)
    (n - 1) 1 w w rfl
  exact this

theorem initDuals_shift (n : Nat) :
    RelRes (fun a b => Shifted n (rowOffset r c) a.1 b.1 ∧ b.2 = a.2) (initDuals cost n)
      (initDuals (addRow cost r c) n) := by
  unfold initDuals
  have hrows := forLoop_rel (fun m (x y : List ℚ) => Shifted n (initOffset r c m) x y)
    (initRow cost n) (initRow (addRow cost r c) n)
    (fun k x y hxy => initRow_shift cost r c n k hxy) n 0 (List.replicate n 0)
    (List.replicate n 0) ⟨by simp, by simp, fun k _ => by simp [initOffset]⟩
  refine relRes_bind hrows (fun u u' hu => ?_)
  have hu' : Shifted n (rowOffset r c) u u' := by
    refine ⟨hu.1, hu.2.1, fun k hk => ?_⟩
    have := hu.2.2 k hk
    simpa [initOffset, hk] using this
  have hcols := forLoop_rel (fun _ (x y : List ℚ) => x = y)
    (initCol cost n u) (initCol (addRow cost r c) n u')
    (fun k x y hxy => by subst hxy; exact initCol_shift cost r c n k x hu')
    n 0 (List.replicate n 0) (List.replicate n 0) rfl
  refine relRes_bind hcols (fun v v' hv => ?_)
  exact relRes_ok ⟨hu', hv.symm⟩

theorem greedyRow_shift {n : Nat} {u u' : List ℚ} (v : List ℚ) (i : Nat)
    (h : Shifted n (rowOffset r c) u u') :
    ∀ cnt j m, RelRes Eq (greedyRow cost u v i cnt j m)
      (greedyRow (addRow cost r c) u' v i cnt j m) := by
  intro cnt
  induction cnt with
  | zero => intro j m; exact relRes_refl _
  | succ k ih =>
    intro j m
    simp only [greedyRow]
    refine relRes_bind (relRes_refl _) (fun x y hxy => ?_)
    subst hxy
    split
    · exact ih (j + 1) m
    · refine relRes_bind (cell_shift cost r c i j) (fun cc cc' hcc => ?_)
      refine relRes_bind (idx_shift h i) (fun ui ui' hui => ?_)
      refine relRes_bind (relRes_refl _) (fun vj vj' hvj => ?_)
      subst hvj
      have e : cc' - ui' - vj = cc - ui - vj := by rw [hcc, hui]; ring
      rw [e]
      split
      · exact relRes_refl _
      · exact ih (j + 1) m

theorem greedy_shift {n : Nat} {u u' : List ℚ} (v : List ℚ)
    (h : Shifted n (rowOffset r c) u u') :
    RelRes Eq (greedy cost n u v) (greedy (addRow cost r c) n u' v) := by
  unfold greedy
  have := forLoop_rel (fun _ (x y : Mate) => x = y)
    (fun i m => greedyRow cost u v i n 0 m)
    (fun i m => greedyRow (addRow cost r c) u' v i n 0 m)
    (fun i x y hxy => by subst hxy; exact greedyRow_shift cost r c v i h n 0 x)
    n 0 ⟨vi n (-1), vi n (-1), 0⟩ ⟨vi n (-1), vi n (-1), 0⟩ rfl
  exact this

theorem relax_shift {n : Nat} {u u' : List ℚ} (v : List ℚ) (j i : Int) (sc : Scratch)
    (h : Shifted n (rowOffset r c) u u') :
    RelRes Eq (relax cost n u v j i sc) (relax (addRow cost r c) n u' v j i sc) := by
  unfold relax
  have := forLoop_rel (fun _ (x y : Scratch) => x = y)
    (fun k (sc : Scratch) => do
      let sk ← idx sc.seen k
      if sk ≠ 0 then pure sc
      else do
        let dj ← idx sc.dist j
        let c ← cell cost i k
        let ui ← idx u i
        let vk ← idx v k
        let new_dist := dj + c - ui - vk
        let dk ← idx sc.dist k
        if dk > new_dist then do
          let dist ← upd sc.dist k new_dist
          let dad ← upd sc.dad k j
          pure { sc with dist := dist, dad := dad }
        else pure sc)
    (fun k (sc : Scratch) => do
      let sk ← idx sc.seen k
      if sk ≠ 0 then pure sc
      else do
        let dj ← idx sc.dist j
        let c ← cell (addRow cost r c) i k
        let ui ← idx u' i
        let vk ← idx v k
        let new_dist := dj + c - ui - vk
        let dk ← idx sc.dist k
        if dk > new_dist then do
          let dist ← upd sc.dist k new_dist
          let dad ← upd sc.dad k j
          pure { sc with dist := dist, dad := dad }
        else pure sc)
    (fun k x y hxy => by
      subst hxy
      refine relRes_bind (relRes_refl _) (fun sk sk' hsk => ?_)
      subst hsk
      split
      · exact relRes_refl _
      · refine relRes_bind (relRes_refl _) (fun dj dj' hdj => ?_)
        subst hdj
        refine relRes_bind (cell_shift cost r c i k) (fun cc cc' hcc => ?_)
        refine relRes_bind (idx_shift h i) (fun ui ui' hui => ?_)
        refine relRes_bind (relRes_refl _) (fun vk vk' hvk => ?_)
        subst hvk
        have e : dj + cc' - ui' - vk = dj + cc - ui - vk := by rw [hcc, hui]; ring
        simp only [e]
        exact relRes_refl _)
    n 0 sc sc rfl
  exact this

theorem search_shift {n : Nat} {u u' : List ℚ} (v : List ℚ) (R : List Int)
    (h : Shifted n (rowOffset r c) u u') :
    ∀ fuel sc, RelRes Eq (search cost n u v R fuel sc)
      (search (addRow cost r c) n u' v R fuel sc) := by
  intro fuel
  induction fuel with
  | zero => intro sc; exact relRes_refl _
  | succ f ih =>
    intro sc
    rw [search_succ, search_succ]
    refine relRes_bind (relRes_refl _) (fun j j' hj => ?_)
    subst hj
    refine relRes_bind (relRes_refl _) (fun seen seen' hs => ?_)
    subst hs
    refine relRes_bind (relRes_refl _) (fun i i' hi => ?_)
    subst hi
    split
    · exact relRes_refl _
    · refine relRes_bind (relax_shift cost r c v j i _ h) (fun x y hxy => ?_)
      subst hxy
      exact ih x

theorem distInit_shift {n : Nat} {u u' : List ℚ} (v : List ℚ) (s : Nat) (dist : List ℚ)
    (h : Shifted n (rowOffset r c) u u') :
    RelRes Eq
      (forLoop (fun k dist => do
        let c ← cell cost s k
        let us ← idx u s
        let vk ← idx v k
        upd dist k (c - us - vk)) n 0 dist)
      (forLoop (fun k dist => do
        let c ← cell (addRow cost r c) s k
        let us ← idx u' s
        let vk ← idx v k
        upd dist k (c - us - vk)) n 0 dist) := by
  have := forLoop_rel (fun _ (x y : List ℚ) => x = y)
    (fun k (dist : List ℚ) => do
        let c ← cell cost s k
        let us ← idx u s
        let vk ← idx v k
        upd dist k (c - us - vk))
    (fun k (dist : List ℚ) => do
        let c ← cell (addRow cost r c) s k
        let us ← idx u' s
        let vk ← idx v k
        upd dist k (c - us - vk))
    (fun k x y hxy => by
      subst hxy
      refine relRes_bind (cell_shift cost r c s k) (fun cc cc' hcc => ?_)
      refine relRes_bind (idx_shift h s) (fun us us' hus => ?_)
      refine relRes_bind (relRes_refl _) (fun vk vk' hvk => ?_)
      subst hvk
      have e : cc' - us' - vk = cc - us - vk := by rw [hcc, hus]; ring
      rw [e]
      exact relRes_refl _)
    n 0 dist dist rfl
  exact this

theorem dualStep_shift {n : Nat} (R : List Int) (j : Int) (sc : Scratch) (k : Nat)
    {x y : List ℚ × List ℚ} (hxy : Shifted n (rowOffset r c) x.1 y.1 ∧ y.2 = x.2) :
    RelRes (fun a b => Shifted n (rowOffset r c) a.1 b.1 ∧ b.2 = a.2)
      (dualStep R j sc k x) (dualStep R j sc k y) := by
  obtain ⟨x1, x2⟩ := x
  obtain ⟨y1, y2⟩ := y
  obtain ⟨h1, h2⟩ := hxy
  simp only at h1 h2
  subst h2
  unfold dualStep
  split
  · exact relRes_ok ⟨h1, rfl⟩
  · refine relRes_bind (relRes_refl _) (fun sk sk' hsk => ?_)
    subst hsk
    split
    · exact relRes_ok ⟨h1, rfl⟩
    · refine relRes_bind (relRes_refl _) (fun dk dk' hdk => ?_)
      subst hdk
      refine relRes_bind (relRes_refl _) (fun dj dj' hdj => ?_)
      subst hdj
      refine relRes_bind (relRes_refl _) (fun vk vk' hvk => ?_)
      subst hvk
      refine relRes_bind (relRes_refl _) (fun v1 v1' hv1 => ?_)
      subst hv1
      refine relRes_bind (relRes_refl _) (fun rk rk' hrk => ?_)
      subst hrk
      refine relRes_bind (idx_shift h1 rk) (fun ur ur' hur => ?_)
      refine relRes_bind (upd_shift h1 rk (show ur' - (dk - dj) =
        ur - (dk - dj) + rowOffset r c rk.toNat by rw [hur]; ring) (fun _ _ => rfl))
        (fun u1 u1' hu1 => ?_)
      exact relRes_ok ⟨hu1, rfl⟩

theorem updateDuals_shift {n : Nat} (R : List Int) (s : Nat) (j : Int) (sc : Scratch)
    {u u' : List ℚ} (v : List ℚ) (h : Shifted n (rowOffset r c) u u') :
    RelRes (fun a b => Shifted n (rowOffset r c) a.1 b.1 ∧ b.2 = a.2)
      (updateDuals n R s j sc (u, v)) (updateDuals n R s j sc (u', v)) := by
  unfold updateDuals
  have hloop := forLoop_rel
    (fun _ (a b : List ℚ × List ℚ) => Shifted n (rowOffset r c) a.1 b.1 ∧ b.2 = a.2)
    (dualStep R j sc) (dualStep R j sc)
    (fun k x y hxy => dualStep_shift r c R j sc k hxy)
    n 0 (u, v) (u', v) ⟨h, rfl⟩
  refine relRes_bind hloop (fun a b hab => ?_)
  obtain ⟨a1, a2⟩ := a
  obtain ⟨b1, b2⟩ := b
  obtain ⟨h1, h2⟩ := hab
  simp only at h1 h2
  subst h2
  refine relRes_bind (idx_shift h1 s) (fun us us' hus => ?_)
  refine relRes_bind (relRes_refl _) (fun dj dj' hdj => ?_)
  subst hdj
  refine relRes_bind (upd_shift h1 s (show us' + dj =
    us + dj + rowOffset r c (s : Int).toNat by rw [hus]; ring) (fun _ _ => rfl))
    (fun u1 u1' hu1 => ?_)
  exact relRes_ok ⟨hu1, rfl⟩

theorem round_shift (n fs fw : Nat) {st st' : State} (h : StateShift n r c st st') :
    RelRes (StateShift n r c) (round cost n fs fw st) (round (addRow cost r c) n fs fw st') := by
  obtain ⟨hu, hv, hL, hR, hm, hd, hdad, hseen⟩ := h
  rw [round_unfold, round_unfold, hv, hL, hR, hm, hd, hdad, hseen]
  refine relRes_bind (relRes_refl _) (fun s s' hs => ?_)
  subst hs
  refine relRes_bind (distInit_shift cost r c st.v s st.dist hu) (fun d d' hdd => ?_)
  subst hdd
  refine relRes_bind (search_shift cost r c st.v st.R hu fs _) (fun x y hxy => ?_)
  subst hxy
  obtain ⟨j, sc⟩ := x
  refine relRes_bind (updateDuals_shift r c st.R s j sc st.v hu) (fun a b hab => ?_)
  obtain ⟨a1, a2⟩ := a
  obtain ⟨b1, b2⟩ := b
  obtain ⟨h1, h2⟩ := hab
  simp only at h1 h2
  subst h2
  refine relRes_bind (relRes_refl _) (fun x y hxy => ?_)
  subst hxy
  obtain ⟨jE, L', R'⟩ := x
  refine relRes_bind (relRes_refl _) (fun R1 R1' hR1 => ?_)
  subst hR1
  refine relRes_bind (relRes_refl _) (fun L1 L1' hL1 => ?_)
  subst hL1
  exact relRes_ok ⟨h1, rfl, rfl, rfl, rfl, rfl, rfl, rfl⟩

theorem rounds_shift (n fs fw : Nat) :
    ∀ fuel st st', StateShift n r c st st' →
      RelRes (StateShift n r c) (rounds cost n fs fw fuel st)
        (rounds (addRow cost r c) n fs fw fuel st') := by
  intro fuel
  induction fuel with
  | zero =>
    intro st st' h
    rw [rounds_unfold, rounds_unfold, h.2.2.2.2.1]
    split
    · rfl
    · exact relRes_ok h
  | succ f ih =>
    intro st st' h
    rw [rounds_unfold, rounds_unfold, h.2.2.2.2.1]
    split
    · refine relRes_bind (round_shift cost r c n fs fw h) (fun a b hab => ?_)
      apply ih
      obtain ⟨hu, hv, hL, hR, hm, hd, hdad, hseen⟩ := hab
      exact ⟨hu, hv, hL, hR, by simp only [hm], hd, hdad, hseen⟩
    · exact relRes_ok h

theorem totalCost_shift (n : Nat) (L : List Int) (hr : r < n) :
    RelRes (fun a b => b = a + c) (totalCost cost n L) (totalCost (addRow cost r c) n L) := by
  unfold totalCost
  have := forLoop_rel (fun m (a b : ℚ) => b = a + if r < m then c else 0)
    (fun i (value : ℚ) => do
      let l ← idx L i
      let c ← cell cost i l
      pure (value + c))
    (fun i (value : ℚ) => do
      let l ← idx L i
      let c ← cell (addRow cost r c) i l
      pure (value + c))
    (fun k x y hxy => by
      refine relRes_bind (relRes_refl _) (fun l l' hl => ?_)
      subst hl
      refine relRes_bind (cell_shift cost r c k l) (fun cc cc' hcc => ?_)
      simp only [Int.toNat_ofNat, rowOffset] at hcc
      refine relRes_ok ?_
      rw [hxy, hcc]
      by_cases h1 : r < k
      · have h2 : ¬ k = r := by omega
        simp only [h1, h2, show r < k + 1 by omega, if_true, if_false]; ring
      · by_cases h2 : k = r
        · subst h2
          simp only [lt_irrefl, show k < k + 1 by omega, if_true, if_false]; ring
        · simp only [h1, h2, show ¬ r < k + 1 by omega, if_false]; ring)
    n 0 0 0 (by simp)
  refine relRes_mono (fun a b hab => ?_) this
  simp only [Nat.zero_add, hr, if_true] at hab
  exact hab

/-- Row-shift invariance of the whole function, for any budgets. -/
theorem mcm_shift (fs fw fr : Nat) (hr : r < cost.length) :
    MinCostMatchingFuel fs fw fr (addRow cost r c) =
      Except.map (fun res => (res.1 + c, res.2.1, res.2.2))
        (MinCostMatchingFuel fs fw fr cost) := by
  apply relRes_map_eq
  unfold MinCostMatchingFuel finalState startState
  simp only [length_addRow]
  refine relRes_bind (P := StateShift cost.length r c) ?_ (fun st st' hst => ?_)
  · refine relRes_bind (P := StateShift cost.length r c) ?_
      (fun st st' hst => rounds_shift cost r c _ fs fw fr st st' hst)
    refine relRes_bind (initDuals_shift cost r c cost.length) (fun a b hab => ?_)
    obtain ⟨a1, a2⟩ := a
    obtain ⟨b1, b2⟩ := b
    obtain ⟨h1, h2⟩ := hab
    simp only at h1 h2
    subst h2
    refine relRes_bind (greedy_shift cost r c b2 h1) (fun m m' hm => ?_)
    subst hm
    exact relRes_ok ⟨h1, rfl, rfl, rfl, rfl, rfl, rfl, rfl⟩
  · obtain ⟨hu, hv, hL, hR, hm, hd, hdad, hseen⟩ := hst
    rw [hL, hR]
    refine relRes_bind (totalCost_shift cost r c _ st.L hr) (fun a b hab => ?_)
    exact relRes_ok (by rw [hab])

end RowShift


/-! ## The contract of `MinCostMatching` -/

/-- Every one-row matrix with a first entry is accepted, whatever its width. -/
theorem mcm_single_row (x : ℚ) (xs : List ℚ) :
    MinCostMatching [x :: xs] = .ok (x, [0], [0]) := by
  have hw : ∀ row ∈ [x :: xs], [x :: xs].length ≤ row.length := by
    intro row hrow
    rw [List.mem_singleton.mp hrow]
    simp
  obtain ⟨st0, _, hinv, _, hcase⟩ := @mcm_spec [x :: xs] 1 1 1 1 rfl hw (le_refl _) (le_refl _)
    (le_refl _)
  have hle := card_free_le 1 st0.L
  rcases hcase with ⟨h2, _⟩ | ⟨_, st', val, _, hok, hperm, hval, _⟩
  · omega
  · obtain ⟨hL, hR, hLr, hRr⟩ := hperm
    have hL0 : nth st'.L 0 = 0 := by have := hLr 0 (by omega); omega
    have hR0 : nth st'.R 0 = 0 := by have := hRr 0 (by omega); omega
    have eL : st'.L = [0] := by
      match hLs : st'.L, hL with
      | [a], _ => rw [hLs] at hL0; simpa [nth] using hL0
    have eR : st'.R = [0] := by
      match hRs : st'.R, hR with
      | [a], _ => rw [hRs] at hR0; simpa [nth] using hR0
    have hv : val = x := by
      rw [hval, eL]
      simp [ent, nth]
    unfold MinCostMatching
    show MinCostMatchingFuel 1 1 1 [x :: xs] = _
    rw [hok, hv, eL, eR]

/-- C1 (counterexample): on the square matrix `[[1, 1], [1, 1 + 2^-34]]` the call returns the
total cost `2 + 2^-34`, which is not the minimum over all permutations (the assignment
`0 ↦ 1, 1 ↦ 0` costs `2`). -/
theorem optimality_counterexample :
    Square [[1, 1], [1, 1 + 1 / 2 ^ 34]] ∧
    MinCostMatching [[1, 1], [1, 1 + 1 / 2 ^ 34]] = .ok (2 + 1 / 2 ^ 34, [0, 1], [0, 1]) ∧
    minPermCost [[1, 1], [1, 1 + 1 / 2 ^ 34]] 2 < 2 + 1 / 2 ^ 34 := by
  refine ⟨by decide!, by decide!, by decide!⟩

/-- C1 (amended): in exact arithmetic (every `float64` operation taken without rounding), for
every square n×n cost matrix (n ≥ 1) on which `MinCostMatching` returns a result, the returned
total cost is at least the minimum over all permutations `p` of `Σ_i cost[i][p(i)]` and
exceeds it by less than `n * 1e-10`; it equals that minimum when every entry is an integer. -/
theorem optimality_within_tolerance (cost : List (List ℚ)) (val : ℚ) (L R : List Int)
    (hsq : Square cost) (hpos : 0 < cost.length)
    (hret : MinCostMatching cost = .ok (val, L, R)) :
    minPermCost cost cost.length ≤ val ∧
    val < minPermCost cost cost.length + cost.length * eps ∧
    (Integral cost → val = minPermCost cost cost.length) :=
  mcm_optimal (wide_of_square hsq) hpos hret

/-- Witness for C1: the matrix `[[1, 2], [1, 3]]`, completed by one augmentation round. -/
theorem optimality_within_tolerance_witness :
    (Square [[1, 2], [1, 3]] ∧ 0 < [[(1 : ℚ), 2], [1, 3]].length ∧
      MinCostMatching [[1, 2], [1, 3]] = .ok (3, [1, 0], [1, 0])) ∧
    (minPermCost [[1, 2], [1, 3]] [[(1 : ℚ), 2], [1, 3]].length ≤ 3 ∧
      3 < minPermCost [[1, 2], [1, 3]] [[(1 : ℚ), 2], [1, 3]].length +
        [[(1 : ℚ), 2], [1, 3]].length * eps ∧
      (Integral [[1, 2], [1, 3]] → 3 = minPermCost [[1, 2], [1, 3]] [[(1 : ℚ), 2], [1, 3]].length)) :=
  ⟨⟨by decide!, by decide!, by decide!⟩,
    optimality_within_tolerance [[1, 2], [1, 3]] 3 [1, 0] [1, 0] (by decide!) (by decide!)
      (by decide!)⟩

/-- C2 (failing input): on the square matrix `[[0,0,0],[0,1,1],[0,1,1]]` the greedy pass leaves
two rows unmatched and the call panics with an index out of range instead of returning a
pair of mutually inverse permutations. -/
theorem matching_failing_input :
    Square [[0, 0, 0], [0, 1, 1], [0, 1, 1]] ∧
    0 < [[(0 : ℚ), 0, 0], [0, 1, 1], [0, 1, 1]].length ∧
    MinCostMatching [[0, 0, 0], [0, 1, 1], [0, 1, 1]] = .error .indexOutOfRange := by
  refine ⟨by decide!, by decide!, by decide!⟩

/-- C3 (failing input): on the square matrix `[[1,2,3],[1,4,5],[1,6,7]]` the first round picks
row `1`, its search stops at the unmatched column `1` with column `2` unsettled, and the dual
update reads `R[2] = -1` and panics on `u[R[2]]`. -/
theorem dual_update_failing_input :
    Square [[1, 2, 3], [1, 4, 5], [1, 6, 7]] ∧
    startState [[1, 2, 3], [1, 4, 5], [1, 6, 7]] =
      .ok ⟨[1, 1, 1], [0, 1, 2], [0, -1, -1], [0, -1, -1], 1, [0, 0, 0], [0, 0, 0], [0, 0, 0]⟩ ∧
    findFree [0, -1, -1] 4 0 = .ok 1 ∧
    search [[1, 2, 3], [1, 4, 5], [1, 6, 7]] 3 [1, 1, 1] [0, 1, 2] [0, -1, -1] 3
      ⟨[0, 2, 2], [-1, -1, -1], [0, 0, 0]⟩ = .ok (1, ⟨[0, 0, 0], [-1, 0, 0], [1, 1, 0]⟩) ∧
    idx [(0 : Int), -1, -1] 2 = .ok (-1) ∧
    updateDuals 3 [0, -1, -1] 1 1 ⟨[0, 0, 0], [-1, 0, 0], [1, 1, 0]⟩ ([1, 1, 1], [0, 1, 2]) =
      .error .indexOutOfRange ∧
    MinCostMatching [[1, 2, 3], [1, 4, 5], [1, 6, 7]] = .error .indexOutOfRange := by
  refine ⟨by decide!, by decide!, by decide!, by decide!, by decide!, by decide!, by decide!⟩

/-- C5: for every square n×n cost matrix, whenever `MinCostMatching` returns
`(value, L, R)`, every `L[i]` is a column index and `value` is the sum over all rows `i` of
`cost[i][L[i]]`. -/
theorem cost_consistency (cost : List (List ℚ)) (val : ℚ) (L R : List Int)
    (hsq : Square cost)
    (hret : MinCostMatching cost = .ok (val, L, R)) :
    L.length = cost.length ∧
    (∀ i, i < cost.length → 0 ≤ nth L i ∧ nth L i < cost.length) ∧
    val = ∑ i ∈ Finset.range cost.length, ent cost i (nth L i).toNat := by
  obtain ⟨hperm, hval, _⟩ := mcm_gap rfl (wide_of_square hsq) (le_refl _) (le_refl _)
    (le_refl _) hret
  exact ⟨hperm.1, fun i hi => ⟨(hperm.2.2.1 i hi).1, (hperm.2.2.1 i hi).2.1⟩, hval⟩

/-- Witness for C5: the matrix `[[3, 1], [1, 3]]`, with cost `1 + 1`. -/
theorem cost_consistency_witness :
    (Square [[3, 1], [1, 3]] ∧
      MinCostMatching [[3, 1], [1, 3]] = .ok (2, [1, 0], [1, 0])) ∧
    (2 : ℚ) = ∑ i ∈ Finset.range [[(3 : ℚ), 1], [1, 3]].length,
      ent [[3, 1], [1, 3]] i (nth [(1 : Int), 0] i).toNat :=
  ⟨⟨by decide!, by decide!⟩,
    (cost_consistency [[3, 1], [1, 3]] 2 [1, 0] [1, 0] (by decide!) (by decide!)).2.2⟩

/-- C6 (counterexample): for `cost = [[-1, -1], [-1, -1 - 2^-34]]` the call on the negated
matrix returns `2 + 2^-34`, which is larger than minus the maximum assignment cost of `cost`
(the assignment `0 ↦ 1, 1 ↦ 0` costs `-2`). -/
theorem negation_counterexample :
    Square [[-1, -1], [-1, -1 - 1 / 2 ^ 34]] ∧
    MinCostMatching (negate [[-1, -1], [-1, -1 - 1 / 2 ^ 34]]) =
      .ok (2 + 1 / 2 ^ 34, [0, 1], [0, 1]) ∧
    - maxPermCost [[-1, -1], [-1, -1 - 1 / 2 ^ 34]] 2 < 2 + 1 / 2 ^ 34 := by
  refine ⟨by decide!, by decide!, by decide!⟩

/-- C6 (amended): in exact arithmetic (every `float64` operation taken without rounding), for
every square n×n cost matrix (n ≥ 1) such that `MinCostMatching` returns a result on the
entry-wise negated matrix, the returned total cost is at least minus the maximum over all
permutations `p` of `Σ_i cost[i][p(i)]` and exceeds it by less than `n * 1e-10`; it equals
minus that maximum when every entry is an integer. -/
theorem negation_within_tolerance (cost : List (List ℚ)) (val : ℚ) (L R : List Int)
    (hsq : Square cost) (hpos : 0 < cost.length)
    (hret : MinCostMatching (negate cost) = .ok (val, L, R)) :
    - maxPermCost cost cost.length ≤ val ∧
    val < - maxPermCost cost cost.length + cost.length * eps ∧
    (Integral cost → val = - maxPermCost cost cost.length) := by
  have h := mcm_optimal (wide_negate (wide_of_square hsq)) (by simpa using hpos) hret
  rw [length_negate, minPermCost_negate] at h
  exact ⟨h.1, h.2.1, fun hI => h.2.2 (integral_negate hI)⟩

/-- Witness for C6: the matrix `[[1, 2], [3, 5]]`, whose maximum assignment cost is `6`. -/
theorem negation_within_tolerance_witness :
    (Square [[1, 2], [3, 5]] ∧ 0 < [[(1 : ℚ), 2], [3, 5]].length ∧
      MinCostMatching (negate [[1, 2], [3, 5]]) = .ok (-6, [0, 1], [0, 1])) ∧
    (- maxPermCost [[1, 2], [3, 5]] [[(1 : ℚ), 2], [3, 5]].length ≤ -6 ∧
      -6 < - maxPermCost [[1, 2], [3, 5]] [[(1 : ℚ), 2], [3, 5]].length +
        [[(1 : ℚ), 2], [3, 5]].length * eps ∧
      (Integral [[1, 2], [3, 5]] →
        -6 = - maxPermCost [[1, 2], [3, 5]] [[(1 : ℚ), 2], [3, 5]].length)) :=
  ⟨⟨by decide!, by decide!, by decide!⟩,
    negation_within_tolerance [[1, 2], [3, 5]] (-6) [0, 1] [0, 1] (by decide!) (by decide!)
      (by decide!)⟩

/-- C7 (counterexample): called on the matrix with no rows, `MinCostMatching` signals no
error. -/
theorem empty_input_counterexample : ¬ ∃ e, MinCostMatching [] = .error e := by
  rintro ⟨e, he⟩
  have h : MinCostMatching [] = .ok (0, [], []) := by decide!
  rw [h] at he
  cases he

/-- C7 (amended): called on a cost matrix of size zero (no rows), `MinCostMatching` performs no
check and returns the total cost `0` with empty `L` and `R`. -/
theorem empty_input_returns : MinCostMatching [] = .ok (0, [], []) := by
  decide!

/-- C8 (counterexample): the 1×2 matrix `[[3, 1]]` has a row longer than its number of rows,
and `MinCostMatching` returns a result for it. -/
theorem wide_input_counterexample :
    (∃ row ∈ [[(3 : ℚ), 1]], row.length ≠ [[(3 : ℚ), 1]].length) ∧
    MinCostMatching [[3, 1]] = .ok (3, [0], [0]) :=
  ⟨⟨[3, 1], by simp, by simp⟩, by decide!⟩

/-- C8 (amended): for every cost matrix in which some row is shorter than the number `n` of
rows, `MinCostMatching` panics with an index out of range, whatever the budgets, and returns
no result; rows longer than `n` are not rejected: every one-row matrix `[[x, ...]]` returns
the total cost `x` with `L = [0]` and `R = [0]`. -/
theorem short_row_rejected (cost : List (List ℚ))
    (hshort : ∃ row ∈ cost, row.length < cost.length) :
    MinCostMatching cost = .error .indexOutOfRange ∧
    (∀ fs fw fr, MinCostMatchingFuel fs fw fr cost = .error .indexOutOfRange) ∧
    (∀ (x : ℚ) (xs : List ℚ), MinCostMatching [x :: xs] = .ok (x, [0], [0])) :=
  ⟨mcm_short_row _ _ _ hshort, fun fs fw fr => mcm_short_row fs fw fr hshort, mcm_single_row⟩

/-- Witness for C8: the ragged matrix `[[1, 2], [3]]`. -/
theorem short_row_rejected_witness :
    (∃ row ∈ [[(1 : ℚ), 2], [3]], row.length < [[(1 : ℚ), 2], [3]].length) ∧
    MinCostMatching [[1, 2], [3]] = .error .indexOutOfRange :=
  ⟨⟨[3], by simp, by simp⟩, (short_row_rejected [[1, 2], [3]] ⟨[3], by simp, by simp⟩).1⟩

/-- C9: for every cost matrix with `n` rows, square or not, every row `r < n` and every
constant `c` (exact arithmetic), `MinCostMatching` on the matrix with `c` added to every entry of row `r` returns
the same `L` and `R` as on the original matrix and a total cost larger by exactly `c`, and it
fails exactly when the original call fails, with the same failure. -/
theorem row_shift_invariance (cost : List (List ℚ)) (r : Nat) (c : ℚ)
    (hr : r < cost.length) :
    (∀ val L R, MinCostMatching cost = .ok (val, L, R) →
      MinCostMatching (addRow cost r c) = .ok (val + c, L, R)) ∧
    (∀ e, MinCostMatching cost = .error e → MinCostMatching (addRow cost r c) = .error e) ∧
    (∀ val L R, MinCostMatching (addRow cost r c) = .ok (val, L, R) →
      MinCostMatching cost = .ok (val - c, L, R)) := by
  have key : MinCostMatching (addRow cost r c) =
      Except.map (fun res => (res.1 + c, res.2.1, res.2.2)) (MinCostMatching cost) := by
    unfold MinCostMatching
    rw [length_addRow]
    exact mcm_shift cost r c _ _ _ hr
  refine ⟨?_, ?_, ?_⟩
  · intro val L R h
    rw [key, h]; rfl
  · intro e h
    rw [key, h]; rfl
  · intro val L R h
    rw [key] at h
    cases hres : MinCostMatching cost with
    | error e => rw [hres] at h; cases h
    | ok res =>
      rw [hres] at h
      obtain ⟨v0, L0, R0⟩ := res
      have hinj := Except.ok.inj h
      simp only [Prod.mk.injEq] at hinj
      obtain ⟨h1, h2, h3⟩ := hinj
      subst h1 h2 h3
      simp

/-- Witness for C9: adding `1/3` to row `1` of `[[1, 2], [1, 3]]`. -/
theorem row_shift_invariance_witness :
    (Square [[1, 2], [1, 3]] ∧ 1 < [[(1 : ℚ), 2], [1, 3]].length ∧
      MinCostMatching [[1, 2], [1, 3]] = .ok (3, [1, 0], [1, 0])) ∧
    MinCostMatching (addRow [[1, 2], [1, 3]] 1 (1 / 3)) = .ok (3 + 1 / 3, [1, 0], [1, 0]) :=
  ⟨⟨by decide!, by decide!, by decide!⟩,
    (row_shift_invariance [[1, 2], [1, 3]] 1 (1 / 3) (by decide!)).1
      3 [1, 0] [1, 0] (by decide!)⟩

/-- C10 (counterexample): for `cost = [[2^-34, 0], [0, 2^-34]]` the call returns `2 * 2^-34`,
and after adding `1` to every entry of column `0` it returns `1`, which is not the original
total cost plus `1`. -/
theorem column_shift_counterexample :
    Square [[1 / 2 ^ 34, 0], [0, 1 / 2 ^ 34]] ∧
    MinCostMatching [[1 / 2 ^ 34, 0], [0, 1 / 2 ^ 34]] = .ok (2 / 2 ^ 34, [0, 1], [0, 1]) ∧
    MinCostMatching (addCol [[1 / 2 ^ 34, 0], [0, 1 / 2 ^ 34]] 0 1) = .ok (1, [1, 0], [1, 0]) ∧
    (1 : ℚ) ≠ 2 / 2 ^ 34 + 1 := by
  refine ⟨by decide!, by decide!, by decide!, by decide!⟩

/-- C10 (amended): in exact arithmetic (every `float64` operation taken without rounding),
for every square n×n cost matrix (n ≥ 1), every column `q` and every constant `c`, if
`MinCostMatching` returns a result both on the matrix and on the matrix with `c` added to
every entry of column `q`, the two total costs differ by `c` up to less than `n * 1e-10`, and
by exactly `c` when all entries and `c` are integers. -/
theorem column_shift_within_tolerance (cost : List (List ℚ)) (q : Nat) (c : ℚ)
    (val val' : ℚ) (L R L' R' : List Int) (hsq : Square cost) (hpos : 0 < cost.length)
    (hq : q < cost.length) (hret : MinCostMatching cost = .ok (val, L, R))
    (hret' : MinCostMatching (addCol cost q c) = .ok (val', L', R')) :
    |val' - (val + c)| < cost.length * eps ∧
    (Integral cost → c.den = 1 → val' = val + c) := by
  have hw := wide_of_square hsq
  have h := mcm_optimal hw hpos hret
  have h' := mcm_optimal (wide_addCol q c hw) (by simpa using hpos) hret'
  rw [length_addCol, minPermCost_addCol c hw hq] at h'
  refine ⟨?_, ?_⟩
  · rw [abs_lt]
    constructor <;> linarith [h.1, h.2.1, h'.1, h'.2.1]
  · intro hI hc
    rw [h.2.2 hI, h'.2.2 (integral_addCol q hI hc)]

/-- Witness for C10: adding `2` to column `1` of `[[1, 2], [1, 3]]`. -/
theorem column_shift_within_tolerance_witness :
    (Square [[1, 2], [1, 3]] ∧ 0 < [[(1 : ℚ), 2], [1, 3]].length ∧
      1 < [[(1 : ℚ), 2], [1, 3]].length ∧
      MinCostMatching [[1, 2], [1, 3]] = .ok (3, [1, 0], [1, 0]) ∧
      MinCostMatching (addCol [[1, 2], [1, 3]] 1 2) = .ok (5, [1, 0], [1, 0])) ∧
    (|(5 : ℚ) - (3 + 2)| < [[(1 : ℚ), 2], [1, 3]].length * eps ∧
      (Integral [[1, 2], [1, 3]] → (2 : ℚ).den = 1 → (5 : ℚ) = 3 + 2)) :=
  ⟨⟨by decide!, by decide!, by decide!, by decide!, by decide!⟩,
    column_shift_within_tolerance [[1, 2], [1, 3]] 1 2 3 5 [1, 0] [1, 0] [1, 0] [1, 0]
      (by decide!) (by decide!) (by decide!) (by decide!) (by decide!)⟩


/-! ## The greedy pass row by row -/

theorem bind_ok_right {α : Type} (x : Res α) : (x >>= fun a => (Except.ok a : Res α)) = x := by
  cases x <;> rfl

theorem forLoop_snoc {σ : Type} (body : Nat → σ → Res σ) :
    ∀ cnt lo st, forLoop body (cnt + 1) lo st = (forLoop body cnt lo st >>= body (lo + cnt)) := by
  intro cnt
  induction cnt with
  | zero =>
    intro lo st
    rw [forLoop_succ, forLoop_zero, ok_bind]
    simp only [forLoop_zero, Nat.add_zero]
    exact bind_ok_right _
  | succ c ih =>
    intro lo st
    rw [forLoop_succ, forLoop_succ]
    cases h : body lo st with
    | error e => rfl
    | ok s =>
      rw [ok_bind, ok_bind, ih (lo + 1) s]
      have : lo + 1 + c = lo + (c + 1) := by omega
      rw [this]

theorem greedyUpTo_succ (cost : List (List ℚ)) (n : Nat) (u v : List ℚ) (k : Nat) :
    greedyUpTo cost n u v (k + 1) =
      (greedyUpTo cost n u v k >>= fun m => greedyRow cost u v k n 0 m) := by
  unfold greedyUpTo
  rw [forLoop_snoc]
  simp

theorem greedy_eq_upTo (cost : List (List ℚ)) (n : Nat) (u v : List ℚ) :
    greedy cost n u v = greedyUpTo cost n u v n := rfl

theorem not_zero_iff (x : ℚ) : zero x = false ↔ ¬ |x| < eps := by
  simp [zero]

/-- Row by row: after the rows below `k` the state satisfies the matching invariant, every
processed row holds the first column that was unmatched and within tolerance when it was
scanned, and a processed row is unmatched only if every column within tolerance is matched. -/
theorem greedy_trace {cost : List (List ℚ)} {n : Nat} {u v : List ℚ}
    (hn : cost.length = n) (hw : ∀ row ∈ cost, n ≤ row.length)
    (hu : u.length = n) (hv : v.length = n) :
    ∀ k, k ≤ n → ∃ m, greedyUpTo cost n u v k = .ok m ∧ GreedyInv cost n u v k m ∧
      (∀ i, i < k → nth m.L i = -1 →
        ∀ j, j < n → nth m.R j ≠ -1 ∨ ¬ |red cost u v i j| < eps) ∧
      (∀ i, i < k → ∃ b, greedyUpTo cost n u v i = .ok b ∧
        FirstTight cost n u v i b (nth m.L i)) := by
  intro k
  induction k with
  | zero =>
    intro _
    exact ⟨_, rfl, greedyInv_init cost n u v, fun i hi => by omega, fun i hi => by omega⟩
  | succ k ih =>
    intro hk
    obtain ⟨m, hrun, hinv, hU, hT⟩ := ih (by omega)
    have hkn : k < n := by omega
    have hL := hinv.matching.lenL
    have hR := hinv.matching.lenR
    obtain ⟨m', hrow, hinv'⟩ := greedy_step hn hw hkn hu hv hinv
    have hrun' : greedyUpTo cost n u v (k + 1) = .ok m' := by
      rw [greedyUpTo_succ, hrun, ok_bind, hrow]
    refine ⟨m', hrun', hinv', ?_, ?_⟩
    all_goals
      rcases @greedyRow_spec cost n k u v m hn hw hkn hu hv hL hR n 0 (by omega)
        (fun j' hj' => by omega) with ⟨j0, hj0, hfree, hz, hfirst, hrow2⟩ | ⟨hnone, hrow2⟩
    · -- row `k` is matched to `j0`
      have hm' : m' = ⟨m.L.set k j0, m.R.set j0 k, m.mated + 1⟩ := by
        rw [hrow] at hrow2; exact Except.ok.inj hrow2
      subst hm'
      intro i hi hLi j hj
      have hLi' : nth (m.L.set k (j0 : Int)) i = -1 := hLi
      rw [nth_set _ (show k < m.L.length by omega)] at hLi'
      by_cases hik : i = k
      · simp only [hik, if_true] at hLi'; omega
      · simp only [hik, if_false] at hLi'
        rcases hU i (by omega) hLi' j hj with h | h
        · left
          show nth (m.R.set j0 (k : Int)) j ≠ -1
          rw [nth_set _ (show j0 < m.R.length by omega)]
          by_cases hjj : j = j0
          · simp only [hjj, if_true]; omega
          · simp only [hjj, if_false]; exact h
        · exact Or.inr h
    · have hm' : m' = m := by
        rw [hrow] at hrow2; exact Except.ok.inj hrow2
      subst hm'
      intro i hi hLi j hj
      by_cases hik : i = k
      · subst hik
        rcases hnone j hj with h | h
        · exact Or.inl h
        · exact Or.inr ((not_zero_iff _).mp h)
      · exact hU i (by omega) hLi j hj
    · have hm' : m' = ⟨m.L.set k j0, m.R.set j0 k, m.mated + 1⟩ := by
        rw [hrow] at hrow2; exact Except.ok.inj hrow2
      subst hm'
      intro i hi
      by_cases hik : i = k
      · subst hik
        refine ⟨m, hrun, Or.inl ⟨j0, hj0, ?_, hfree, (zero_iff _).mp hz, ?_⟩⟩
        · show nth (m.L.set i (j0 : Int)) i = _
          rw [nth_set_eq _ (by omega)]
        · intro j' hj'
          rcases hfirst j' hj' with h | h
          · exact Or.inl h
          · exact Or.inr ((not_zero_iff _).mp h)
      · obtain ⟨b, hb, hft⟩ := hT i (by omega)
        refine ⟨b, hb, ?_⟩
        show FirstTight cost n u v i b (nth (m.L.set k (j0 : Int)) i)
        rw [nth_set_ne _ (Ne.symm hik)]
        exact hft
    · have hm' : m' = m := by
        rw [hrow] at hrow2; exact Except.ok.inj hrow2
      subst hm'
      intro i hi
      by_cases hik : i = k
      · subst hik
        refine ⟨m', hrun, Or.inr ⟨hinv.later i (le_refl _) hkn, ?_⟩⟩
        intro j hj
        rcases hnone j hj with h | h
        · exact Or.inl h
        · exact Or.inr ((not_zero_iff _).mp h)
      · exact hT i (by omega)

/-- The counter `mated` is the number of rows with `L[i] ≠ -1`. -/
theorem mated_eq_card {cost : List (List ℚ)} {n : Nat} {u v : List ℚ} {k : Nat} {m : Mate}
    (h : GreedyInv cost n u v k m) :
    m.mated = ((Finset.range n).filter (fun i => nth m.L i ≠ -1)).card := by
  have h1 := Finset.filter_card_add_filter_neg_card_eq_card (s := Finset.range n)
    (fun i => nth m.L i = -1)
  have h2 := h.rows
  rw [Finset.card_range] at h1
  unfold free at h2
  simp only [ne_eq]
  omega


/-! ## What a completed round changes, and where a failing round fails -/

/-- With exactly one unmatched row the round succeeds: it picks the unmatched row `s`, its
search ends at the unmatched column `j0`, and afterwards `(L, R)` is a matching in which `s`
and `j0` are matched and nothing that was matched has become unmatched. -/
theorem round_grows {cost : List (List ℚ)} {n : Nat} {st : State} {fs fw : Nat}
    (hn : cost.length = n) (hw : ∀ row ∈ cost, n ≤ row.length)
    (hinv : RoundInv cost n st) (hfree : (free n st.L).card = 1) (hfs : n ≤ fs)
    (hfw : n ≤ fw) :
    ∃ (st' : State) (s j0 : Nat) (dist : List ℚ) (sc : Scratch),
      round cost n fs fw st = .ok st' ∧
      findFree st.L (st.L.length + 1) 0 = .ok s ∧
      search cost n st.u st.v st.R fs ⟨dist, fill st.dad (-1), fill st.seen 0⟩ =
        .ok ((j0 : Int), sc) ∧
      s < n ∧ j0 < n ∧ nth st.L s = -1 ∧ nth st.R j0 = -1 ∧
      Matching n st'.L st'.R ∧
      free n st'.L = (free n st.L).erase s ∧ free n st'.R = (free n st.R).erase j0 ∧
      st'.mated = st.mated := by
  have hm := hinv.matching
  obtain ⟨s, j0, dist, sc, t, hfind, hs, hsfree, hdist, hsearch, hdone⟩ :=
    round_search hn hw hinv (by omega) hfs
  have hcardR : (free n st.R).card = 1 := by
    have := hinv.rows
    have := hinv.cols
    omega
  obtain ⟨b, hb⟩ := Finset.card_eq_one.mp hcardR
  have hbj : b = j0 := by
    have : j0 ∈ free n st.R := mem_free.mpr ⟨hdone.terminal, hdone.terminalFree⟩
    rw [hb] at this
    exact (Finset.mem_singleton.mp this).symm
  subst hbj
  have hcols : ∀ k, k < n → k ≠ b → nth st.R k ≠ -1 := by
    intro k hk hne h
    have : k ∈ free n st.R := mem_free.mpr ⟨hk, h⟩
    rw [hb] at this
    exact hne (Finset.mem_singleton.mp this)
  obtain ⟨u', v', hupd, _, _⟩ := (updateDuals_spec (s := s) (u := st.u) (v := st.v) hm.lenR
    hm.rangeR hdone.lenDist hdone.lenSeen hdone.terminal hs hinv.lenU hinv.lenV).2
    (fun k hk hne _ => hcols k hk hne)
  obtain ⟨jE, L', R', hwalk, hwinv, hroot⟩ := walk_spec hinv.feas hdone fw b st.L st.R
    (walkInv_init hm hdone) (by
      have := hdone.rankBound b hdone.terminal hdone.terminalSeen
      omega)
  obtain ⟨hmat, hfL, hfR, _⟩ := walk_finish hs hsfree hdone hwinv hroot
  refine ⟨{ u := u', v := v', L := L'.set s (jE : Int), R := R'.set jE (s : Int),
            mated := st.mated, dist := sc.dist, dad := sc.dad, seen := sc.seen },
          s, b, dist, sc, ?_, hfind, hsearch, hs, hdone.terminal, hsfree, hdone.terminalFree,
          hmat, hfL, hfR, rfl⟩
  rw [round_unfold]
  simp only [hfind, ok_bind, hdist, hsearch, hupd, hwalk,
    upd_nat _ (show jE < R'.length by rw [hwinv.lenR]; exact hwinv.cur),
    upd_nat _ (show s < L'.length by rw [hwinv.lenL]; exact hs)]
  rfl

/-- With two or more unmatched rows the round reaches the dual update, where an unsettled
unmatched column `k` other than the terminal column makes `u[R[k]]` an access at `-1`. -/
theorem round_panic_site {cost : List (List ℚ)} {n : Nat} {st : State} {fs : Nat}
    (hn : cost.length = n) (hw : ∀ row ∈ cost, n ≤ row.length)
    (hinv : RoundInv cost n st) (hfree : 2 ≤ (free n st.L).card) (hfs : n ≤ fs) :
    ∃ (s j0 k : Nat) (dist : List ℚ) (sc : Scratch),
      findFree st.L (st.L.length + 1) 0 = .ok s ∧
      search cost n st.u st.v st.R fs ⟨dist, fill st.dad (-1), fill st.seen 0⟩ =
        .ok ((j0 : Int), sc) ∧
      k < n ∧ k ≠ j0 ∧ nth sc.seen k = 0 ∧ nth st.R k = -1 ∧
      (∀ uv : List ℚ × List ℚ, uv.1.length = n → uv.2.length = n →
        dualStep st.R (j0 : Int) sc k uv = .error .indexOutOfRange) ∧
      updateDuals n st.R s (j0 : Int) sc (st.u, st.v) = .error .indexOutOfRange := by
  have hm := hinv.matching
  obtain ⟨s, j0, dist, sc, t, hfind, hs, hsfree, hdist, hsearch, hdone⟩ :=
    round_search hn hw hinv (by omega) hfs
  have hcard : 1 < (free n st.R).card := by
    have := hinv.rows
    have := hinv.cols
    omega
  obtain ⟨a, ha, b, hb, hab⟩ := Finset.one_lt_card.mp hcard
  have hex : ∃ k, k < n ∧ k ≠ j0 ∧ nth sc.seen k = 0 ∧ nth st.R k = -1 := by
    have key : ∀ k, k ∈ free n st.R → k ≠ j0 →
        k < n ∧ k ≠ j0 ∧ nth sc.seen k = 0 ∧ nth st.R k = -1 := by
      intro k hk hne
      have hk' := mem_free.mp hk
      refine ⟨hk'.1, hne, ?_, hk'.2⟩
      by_contra hseen
      have := hdone.seenMatched k hk'.1 hseen hne
      omega
    by_cases haj : a = j0
    · exact ⟨b, key b hb (fun h => hab (haj.trans h.symm))⟩
    · exact ⟨a, key a ha haj⟩
  have hupd := (updateDuals_spec (s := s) (u := st.u) (v := st.v) hm.lenR hm.rangeR
    hdone.lenDist hdone.lenSeen hdone.terminal hs hinv.lenU hinv.lenV).1 hex
  obtain ⟨k, hk, hne, hun, hfr⟩ := hex
  have hstep : ∀ uv : List ℚ × List ℚ, uv.1.length = n → uv.2.length = n →
      dualStep st.R (j0 : Int) sc k uv = .error .indexOutOfRange := fun uv h1 h2 =>
    (@updateDuals_body n st.R (j0 : Int) sc hm.lenR hm.rangeR hdone.lenDist
      hdone.lenSeen (by omega) (by have := hdone.terminal; omega) k hk uv h1 h2).1
      ⟨by omega, hun, hfr⟩
  exact ⟨s, j0, k, dist, sc, hfind, hsearch, hk, hne, hun, hfr, hstep, hupd⟩

/-! ## Counting the rounds -/

theorem bind_eq_ok {α β : Type} {x : Res α} {f : α → Res β} {b : β}
    (h : (x >>= f) = .ok b) : ∃ a, x = .ok a ∧ f a = .ok b := by
  cases x with
  | error e => cases h
  | ok a => exact ⟨a, rfl, h⟩

/-- A round leaves the counter `mated` alone (the loop header increments it). -/
theorem round_mated {cost : List (List ℚ)} {n fs fw : Nat} {st st' : State}
    (h : round cost n fs fw st = .ok st') : st'.mated = st.mated := by
  rw [round_unfold] at h
  obtain ⟨s, _, h⟩ := bind_eq_ok h
  obtain ⟨dist, _, h⟩ := bind_eq_ok h
  obtain ⟨⟨j, sc⟩, _, h⟩ := bind_eq_ok h
  obtain ⟨⟨u, v⟩, _, h⟩ := bind_eq_ok h
  obtain ⟨⟨jE, L, R⟩, _, h⟩ := bind_eq_ok h
  obtain ⟨R1, _, h⟩ := bind_eq_ok h
  obtain ⟨L1, _, h⟩ := bind_eq_ok h
  have := Except.ok.inj h
  rw [← this]

theorem roundsCounted_unfold (cost : List (List ℚ)) (n fs fw fuel : Nat) (st : State)
    (cnt : Nat) :
    roundsCounted cost n fs fw fuel st cnt =
      if st.mated < n then
        match fuel with
        | 0 => .error .outOfFuel
        | fuel + 1 => do
          let st ← round cost n fs fw st
          roundsCounted cost n fs fw fuel { st with mated := st.mated + 1 } (cnt + 1)
      else .ok (st, cnt) := by
  cases fuel <;> rfl

/-- The counting loop is the loop of `rounds`: forgetting the counter gives the same run. -/
theorem roundsCounted_fst (cost : List (List ℚ)) (n fs fw : Nat) :
    ∀ fuel st cnt, Except.map Prod.fst (roundsCounted cost n fs fw fuel st cnt) =
      rounds cost n fs fw fuel st := by
  intro fuel
  induction fuel with
  | zero =>
    intro st cnt
    rw [roundsCounted_unfold, rounds_unfold]
    split <;> rfl
  | succ f ih =>
    intro st cnt
    rw [roundsCounted_unfold, rounds_unfold]
    split
    · cases hr : round cost n fs fw st with
      | error e => rfl
      | ok st1 =>
        simp only [ok_bind]
        exact ih _ _
    · rfl

/-- Every completed round raises `mated` by one, so a loop that returns has run
`n - mated` rounds. -/
theorem roundsCounted_count (cost : List (List ℚ)) (n fs fw : Nat) :
    ∀ fuel st cnt st' k, roundsCounted cost n fs fw fuel st cnt = .ok (st', k) →
      st.mated ≤ n → k + st.mated = cnt + n := by
  intro fuel
  induction fuel with
  | zero =>
    intro st cnt st' k h hle
    rw [roundsCounted_unfold] at h
    split at h
    · cases h
    · have := Except.ok.inj h
      simp only [Prod.mk.injEq] at this
      omega
  | succ f ih =>
    intro st cnt st' k h hle
    rw [roundsCounted_unfold] at h
    split at h
    · rename_i hlt
      obtain ⟨st1, hr, h⟩ := bind_eq_ok h
      have hm := round_mated hr
      have := ih _ _ _ _ h (by simp only [hm]; omega)
      simp only [hm] at this
      omega
    · have := Except.ok.inj h
      simp only [Prod.mk.injEq] at this
      omega

/-- A returning call has completed `n - g` rounds, `g` the pairs matched by the greedy pass. -/
theorem roundCount_spec {cost : List (List ℚ)} {val : ℚ} {L R : List Int}
    (hw : ∀ row ∈ cost, cost.length ≤ row.length)
    (hret : MinCostMatching cost = .ok (val, L, R)) :
    ∃ st0, startState cost = .ok st0 ∧ st0.mated ≤ cost.length ∧
      roundCount cost = .ok (cost.length - st0.mated) := by
  obtain ⟨st0, hstart, hinv, _, hcase⟩ := @mcm_spec cost cost.length cost.length cost.length
    cost.length rfl hw (le_refl _) (le_refl _) (le_refl _)
  have hle : st0.mated ≤ cost.length := by have := hinv.rows; omega
  refine ⟨st0, hstart, hle, ?_⟩
  rcases hcase with ⟨_, herr⟩ | ⟨_, st', v', hfinal, _⟩
  · unfold MinCostMatching at hret
    rw [herr] at hret; cases hret
  · have hrounds : rounds cost cost.length cost.length cost.length cost.length st0 = .ok st' := by
      simpa only [finalState, hstart, ok_bind] using hfinal
    have hfst := roundsCounted_fst cost cost.length cost.length cost.length cost.length st0 0
    rw [hrounds] at hfst
    cases hc : roundsCounted cost cost.length cost.length cost.length cost.length st0 0 with
    | error e => rw [hc] at hfst; cases hfst
    | ok res =>
      obtain ⟨st1, k⟩ := res
      have hk := roundsCounted_count cost cost.length cost.length cost.length cost.length st0 0
        st1 k hc hle
      have hk' : k = cost.length - st0.mated := by omega
      subst hk'
      simp only [roundCount, hstart, ok_bind, hc]
      rfl


/-! ## The state after the greedy pass, with its history -/

/-- The start state of the augmentation loop is the dual initialisation followed by the greedy
pass, and the greedy pass treats every row as the source does: first unmatched column that
passes `zero`, else unmatched. -/
theorem startState_trace {cost : List (List ℚ)} {n : Nat}
    (hn : cost.length = n) (hw : ∀ row ∈ cost, n ≤ row.length) :
    ∃ st u v m, startState cost = .ok st ∧ initDuals cost n = .ok (u, v) ∧
      greedy cost n u v = .ok m ∧ st.u = u ∧ st.v = v ∧ st.L = m.L ∧ st.R = m.R ∧
      st.mated = m.mated ∧ GreedyInv cost n u v n m ∧
      (∀ i, i < n → nth m.L i = -1 →
        ∀ j, j < n → nth m.R j ≠ -1 ∨ ¬ |red cost u v i j| < eps) ∧
      (∀ i, i < n → ∃ b, greedyUpTo cost n u v i = .ok b ∧
        FirstTight cost n u v i b (nth m.L i)) := by
  obtain ⟨u, v, hinit, hu, hv, _, _⟩ := initDuals_spec hn hw
  obtain ⟨m, hgr, hg, hmax, htr⟩ := greedy_trace hn hw hu hv n (le_refl _)
  rw [← greedy_eq_upTo] at hgr
  refine ⟨{ u := u, v := v, L := m.L, R := m.R, mated := m.mated,
            dist := List.replicate n 0, dad := List.replicate n 0,
            seen := List.replicate n 0 }, u, v, m, ?_, hinit, hgr, rfl, rfl, rfl, rfl, rfl,
          hg, hmax, htr⟩
  simp only [startState, hn, hinit, ok_bind, hgr]
  rfl

/-! ## Dual initialisation: a zero in every row and column -/

theorem initDuals_zeros {cost : List (List ℚ)} {n : Nat} {u v : List ℚ}
    (hrow : ∀ i, i < n → (∀ j, j < n → nth u i ≤ ent cost i j) ∧
      ∃ j, j < n ∧ nth u i = ent cost i j)
    (hcol : ∀ j, j < n → (∀ i, i < n → nth v j ≤ ent cost i j - nth u i) ∧
      ∃ i, i < n ∧ nth v j = ent cost i j - nth u i) :
    (∀ i j, i < n → j < n → 0 ≤ red cost u v i j) ∧
    (∀ i, i < n → ∃ j, j < n ∧ red cost u v i j = 0) ∧
    (∀ j, j < n → ∃ i, i < n ∧ red cost u v i j = 0) := by
  refine ⟨fun i j hi hj => red_nonneg_of_init (fun j hj i hi => (hcol j hj).1 i hi) hi hj,
    ?_, ?_⟩
  · intro i hi
    obtain ⟨j, hj, hij⟩ := (hrow i hi).2
    refine ⟨j, hj, ?_⟩
    have h1 := (hcol j hj).1 i hi
    obtain ⟨i', hi', hv⟩ := (hcol j hj).2
    have h2 := (hrow i' hi').1 j hj
    unfold red
    linarith
  · intro j hj
    obtain ⟨i, hi, hv⟩ := (hcol j hj).2
    refine ⟨i, hi, ?_⟩
    unfold red
    linarith

/-! ## Constant matrices -/

theorem ent_replicate {n : Nat} (c : ℚ) {i j : Nat} (hi : i < n) (hj : j < n) :
    ent (List.replicate n (List.replicate n c)) i j = c := by
  have h1 : (List.replicate n (List.replicate n c)).getD i [] = List.replicate n c := by
    rw [List.getD_eq_getElem _ _ (by simpa using hi), List.getElem_replicate]
  have h2 : (List.replicate n c).getD j 0 = c := by
    rw [List.getD_eq_getElem _ _ (by simpa using hj), List.getElem_replicate]
  unfold ent nth
  rw [h1, h2]

/-- On the constant matrix every reduced cost is `0` after the dual initialisation, so the
greedy pass matches every row and the call returns without entering the augmentation loop. -/
theorem mcm_constant (n : Nat) (c : ℚ) :
    ∃ L R, MinCostMatching (List.replicate n (List.replicate n c)) = .ok (n * c, L, R) ∧
      InversePerms n L R := by
  have hn : (List.replicate n (List.replicate n c)).length = n := by simp
  have hw : ∀ row ∈ List.replicate n (List.replicate n c), n ≤ row.length := by
    intro row hrow
    rw [(List.mem_replicate.mp hrow).2]
    simp
  obtain ⟨st0, hstart, hinv, _, hcase⟩ := @mcm_spec _ n n n n hn hw (le_refl _) (le_refl _)
    (le_refl _)
  obtain ⟨st1, hst1, _, _, _, hrow, hcol⟩ := startState_spec hn hw
  obtain ⟨st2, u, v, m, hst2, _, _, hu, hv, hL, hR, hmated, hg, hmax, _⟩ :=
    startState_trace hn hw
  have e1 : st1 = st0 := by rw [hstart] at hst1; exact (Except.ok.inj hst1).symm
  have e2 : st2 = st0 := by rw [hstart] at hst2; exact (Except.ok.inj hst2).symm
  subst e1
  subst e2
  subst hu
  subst hv
  have hred : ∀ i j, i < n → j < n → red (List.replicate n (List.replicate n c)) st2.u st2.v
      i j = 0 := by
    intro i j hi hj
    have hui : nth st2.u i = c := by
      obtain ⟨j', hj', h⟩ := (hrow i hi).2
      rw [h, ent_replicate c hi hj']
    have hvj : nth st2.v j = 0 := by
      obtain ⟨i', hi', h⟩ := (hcol j hj).2
      obtain ⟨j', hj', h'⟩ := (hrow i' hi').2
      rw [h, h', ent_replicate c hi' hj, ent_replicate c hi' hj']
      ring
    unfold red
    rw [hui, hvj, ent_replicate c hi hj]
    ring
  have heps : (0 : ℚ) < eps := by unfold eps; norm_num
  have hfree : free n st2.L = ∅ := by
    apply Finset.eq_empty_of_forall_not_mem
    intro i hi
    obtain ⟨hin, hLi⟩ := mem_free.mp hi
    rw [hL] at hLi
    have hall : free n m.R = ∅ := by
      apply Finset.eq_empty_of_forall_not_mem
      intro j hj
      obtain ⟨hjn, hRj⟩ := mem_free.mp hj
      rcases hmax i hin hLi j hjn with h | h
      · exact h hRj
      · apply h
        rw [hred i j hin hjn]
        simpa using heps
    have h1 := hg.rows
    have h2 := hg.cols
    rw [hall] at h2
    have : (free n m.L).card = 0 := by
      simp only [Finset.card_empty] at h2
      omega
    have hmem : i ∈ free n m.L := mem_free.mpr ⟨hin, hLi⟩
    rw [Finset.card_eq_zero.mp this] at hmem
    exact absurd hmem (Finset.not_mem_empty i)
  rcases hcase with ⟨h2, _⟩ | ⟨_, st', val, _, hok, hperm, hval, _⟩
  · rw [hfree] at h2
    simp at h2
  · refine ⟨st'.L, st'.R, ?_, hperm⟩
    have hsum : val = n * c := by
      rw [hval]
      have : ∀ i ∈ Finset.range n,
          ent (List.replicate n (List.replicate n c)) i (nth st'.L i).toNat = c := by
        intro i hi
        have hin := Finset.mem_range.mp hi
        obtain ⟨h0, h1, _⟩ := hperm.2.2.1 i hin
        exact ent_replicate c hin (by omega)
      rw [Finset.sum_congr rfl this]
      simp
    subst hsum
    show MinCostMatchingFuel (List.length _) (List.length _) (List.length _) _ = _
    rw [hn]
    exact hok

/-! ## Where the gap to the optimum comes from -/

/-- A greedy edge has a reduced cost in `[0, eps)`. -/
theorem greedy_edge_bounds {cost : List (List ℚ)} {n : Nat} {st : State}
    (hinv : RoundInv cost n st) (htight : Tight cost n st.u st.v st.L) :
    ∀ i, i < n → nth st.L i ≠ -1 →
      0 ≤ red cost st.u st.v i (nth st.L i).toNat ∧
      red cost st.u st.v i (nth st.L i).toNat < eps := by
  intro i hi hL
  have hr := hinv.matching.rangeL i hi
  have hlt : (nth st.L i).toNat < n := by omega
  have hz := htight i (nth st.L i).toNat hi hlt (by omega)
  rw [zero_iff] at hz
  exact ⟨hinv.feas i _ hi hlt, lt_of_le_of_lt (le_abs_self _) hz⟩

theorem redSum_eq_zero {cost : List (List ℚ)} {n : Nat} {u v : List ℚ} {L : List Int}
    (h : ∀ i, i < n → nth L i ≠ -1 → red cost u v i (nth L i).toNat = 0) :
    redSum cost n u v L = 0 := by
  unfold redSum
  apply Finset.sum_eq_zero
  intro i hi
  by_cases hL : nth L i = -1
  · simp only [hL, if_true]
  · simp only [hL, if_false]
    exact h i (Finset.mem_range.mp hi) hL

theorem card_matched (n : Nat) (xs : List Int) :
    ((Finset.range n).filter (fun i => nth xs i ≠ -1)).card + (free n xs).card = n := by
  have h1 := Finset.filter_card_add_filter_neg_card_eq_card (s := Finset.range n)
    (fun i => nth xs i = -1)
  rw [Finset.card_range] at h1
  unfold free
  simp only [ne_eq]
  omega


/-! ## Claims C11 to C20 -/

/-- C11: every 1×1 matrix `[[x]]` returns `L = [0]`, `R = [0]` and total cost `x`. -/
theorem single_entry_matrix (x : ℚ) : MinCostMatching [[x]] = .ok (x, [0], [0]) :=
  mcm_single_row x []

/-- C12 (amended): in exact arithmetic (every `float64` operation taken without rounding),
for every `n` (in particular every `n ≥ 1`) and every `c`, the call on the n×n matrix with all
entries `c` returns a perfect matching (`L` and `R` mutually inverse permutations of
`0..n-1`) with total cost `n * c`. -/
theorem constant_matrix (n : Nat) (c : ℚ) :
    ∃ L R, MinCostMatching (List.replicate n (List.replicate n c)) = .ok (n * c, L, R) ∧
      InversePerms n L R :=
  mcm_constant n c

/-- C14: after the greedy pass `L[i] = j` holds exactly when `R[j] = i`, and a completed
augmentation round keeps this, keeps every matched row and column matched, raises the number
of matched pairs by exactly one, and newly matches the chosen unmatched row `s` and the
terminal column `j` of its search; no further round follows it. -/
theorem matching_invariant (cost : List (List ℚ)) (hsq : Square cost) :
    ∃ st0, startState cost = .ok st0 ∧
      (∀ i j, i < cost.length → j < cost.length →
        (nth st0.L i = (j : Int) ↔ nth st0.R j = (i : Int))) ∧
      ∀ fs fw st1, cost.length ≤ fs → cost.length ≤ fw → st0.mated < cost.length →
        round cost cost.length fs fw st0 = .ok st1 →
        (∀ i j, i < cost.length → j < cost.length →
          (nth st1.L i = (j : Int) ↔ nth st1.R j = (i : Int))) ∧
        (∀ i, i < cost.length → nth st0.L i ≠ -1 → nth st1.L i ≠ -1) ∧
        (∀ j, j < cost.length → nth st0.R j ≠ -1 → nth st1.R j ≠ -1) ∧
        ((Finset.range cost.length).filter (fun i => nth st1.L i ≠ -1)).card =
          ((Finset.range cost.length).filter (fun i => nth st0.L i ≠ -1)).card + 1 ∧
        st1.mated + 1 = cost.length ∧
        ∃ (s j : Nat) (dist : List ℚ) (sc : Scratch),
          findFree st0.L (st0.L.length + 1) 0 = .ok s ∧
          search cost cost.length st0.u st0.v st0.R fs
            ⟨dist, fill st0.dad (-1), fill st0.seen 0⟩ = .ok ((j : Int), sc) ∧
          s < cost.length ∧ j < cost.length ∧
          nth st0.L s = -1 ∧ nth st0.R j = -1 ∧ nth st1.L s ≠ -1 ∧ nth st1.R j ≠ -1 := by
  have hw := wide_of_square hsq
  obtain ⟨st0, hstart, hinv, _⟩ := startState_spec rfl hw
  refine ⟨st0, hstart, hinv.matching.inv, ?_⟩
  intro fs fw st1 hfs hfw hlt hround
  have hrows := hinv.rows
  have hcard : (free cost.length st0.L).card = 1 := by
    by_contra hne
    have h2 : 2 ≤ (free cost.length st0.L).card := by omega
    rw [@round_panics cost cost.length st0 fs fw rfl hw hinv h2 hfs] at hround
    cases hround
  obtain ⟨st', s, j0, dist, sc, hr, hfind, hsearch, hs, hj, hLs, hRj, hmat, hfL, hfR, hmated⟩ :=
    round_grows rfl hw hinv hcard hfs hfw
  rw [hround] at hr
  have e := Except.ok.inj hr
  subst e
  have hsmem : s ∈ free cost.length st0.L := mem_free.mpr ⟨hs, hLs⟩
  have hkeepL : ∀ i, i < cost.length → nth st0.L i ≠ -1 → nth st1.L i ≠ -1 := by
    intro i hi h0 h1
    have : i ∈ free cost.length st1.L := mem_free.mpr ⟨hi, h1⟩
    rw [hfL] at this
    exact h0 (mem_free.mp (Finset.mem_of_mem_erase this)).2
  have hkeepR : ∀ j, j < cost.length → nth st0.R j ≠ -1 → nth st1.R j ≠ -1 := by
    intro j hj h0 h1
    have : j ∈ free cost.length st1.R := mem_free.mpr ⟨hj, h1⟩
    rw [hfR] at this
    exact h0 (mem_free.mp (Finset.mem_of_mem_erase this)).2
  have hnewL : nth st1.L s ≠ -1 := by
    intro h1
    have : s ∈ free cost.length st1.L := mem_free.mpr ⟨hs, h1⟩
    rw [hfL] at this
    exact (Finset.not_mem_erase s _) this
  have hnewR : nth st1.R j0 ≠ -1 := by
    intro h1
    have : j0 ∈ free cost.length st1.R := mem_free.mpr ⟨hj, h1⟩
    rw [hfR] at this
    exact (Finset.not_mem_erase j0 _) this
  have hcount : ((Finset.range cost.length).filter (fun i => nth st1.L i ≠ -1)).card =
      ((Finset.range cost.length).filter (fun i => nth st0.L i ≠ -1)).card + 1 := by
    have h0 := card_matched cost.length st0.L
    have h1 := card_matched cost.length st1.L
    have he := Finset.card_erase_of_mem hsmem
    rw [← hfL] at he
    omega
  refine ⟨hmat.inv, hkeepL, hkeepR, hcount, by omega, s, j0, dist, sc, hfind, hsearch, hs, hj,
    hLs, hRj, hnewL, hnewR⟩

/-- Witness for C14: the matrix `[[1, 2], [1, 3]]`, where the greedy pass matches one row and
one round completes the matching. -/
theorem matching_invariant_witness :
    Square [[1, 2], [1, 3]] ∧
    ∃ st0, startState [[1, 2], [1, 3]] = .ok st0 ∧
      (∀ i j, i < [[(1 : ℚ), 2], [1, 3]].length → j < [[(1 : ℚ), 2], [1, 3]].length →
        (nth st0.L i = (j : Int) ↔ nth st0.R j = (i : Int))) ∧
      ∀ fs fw st1, [[(1 : ℚ), 2], [1, 3]].length ≤ fs → [[(1 : ℚ), 2], [1, 3]].length ≤ fw →
        st0.mated < [[(1 : ℚ), 2], [1, 3]].length →
        round [[1, 2], [1, 3]] [[(1 : ℚ), 2], [1, 3]].length fs fw st0 = .ok st1 →
        (∀ i j, i < [[(1 : ℚ), 2], [1, 3]].length → j < [[(1 : ℚ), 2], [1, 3]].length →
          (nth st1.L i = (j : Int) ↔ nth st1.R j = (i : Int))) ∧
        (∀ i, i < [[(1 : ℚ), 2], [1, 3]].length → nth st0.L i ≠ -1 → nth st1.L i ≠ -1) ∧
        (∀ j, j < [[(1 : ℚ), 2], [1, 3]].length → nth st0.R j ≠ -1 → nth st1.R j ≠ -1) ∧
        ((Finset.range [[(1 : ℚ), 2], [1, 3]].length).filter
            (fun i => nth st1.L i ≠ -1)).card =
          ((Finset.range [[(1 : ℚ), 2], [1, 3]].length).filter
            (fun i => nth st0.L i ≠ -1)).card + 1 ∧
        st1.mated + 1 = [[(1 : ℚ), 2], [1, 3]].length ∧
        ∃ (s j : Nat) (dist : List ℚ) (sc : Scratch),
          findFree st0.L (st0.L.length + 1) 0 = .ok s ∧
          search [[1, 2], [1, 3]] [[(1 : ℚ), 2], [1, 3]].length st0.u st0.v st0.R fs
            ⟨dist, fill st0.dad (-1), fill st0.seen 0⟩ = .ok ((j : Int), sc) ∧
          s < [[(1 : ℚ), 2], [1, 3]].length ∧ j < [[(1 : ℚ), 2], [1, 3]].length ∧
          nth st0.L s = -1 ∧ nth st0.R j = -1 ∧ nth st1.L s ≠ -1 ∧ nth st1.R j ≠ -1 :=
  ⟨by decide!, matching_invariant [[1, 2], [1, 3]] (by decide!)⟩

/-- C16: on a square matrix the dual initialisation (lines 51-62) returns `u` and `v` with
`u[i]` the minimum of row `i` and `v[j]` the minimum over `i` of `cost[i][j] - u[i]`; every
reduced cost `cost[i][j] - u[i] - v[j]` is then `≥ 0`, and every row and every column has a
reduced cost equal to `0`. -/
theorem dual_initialisation (cost : List (List ℚ)) (hsq : Square cost) :
    ∃ u v, initDuals cost cost.length = .ok (u, v) ∧
      (∀ i, i < cost.length → (∀ j, j < cost.length → nth u i ≤ ent cost i j) ∧
        ∃ j, j < cost.length ∧ nth u i = ent cost i j) ∧
      (∀ j, j < cost.length → (∀ i, i < cost.length → nth v j ≤ ent cost i j - nth u i) ∧
        ∃ i, i < cost.length ∧ nth v j = ent cost i j - nth u i) ∧
      (∀ i j, i < cost.length → j < cost.length → 0 ≤ red cost u v i j) ∧
      (∀ i, i < cost.length → ∃ j, j < cost.length ∧ red cost u v i j = 0) ∧
      (∀ j, j < cost.length → ∃ i, i < cost.length ∧ red cost u v i j = 0) := by
  obtain ⟨u, v, hinit, _, _, hrow, hcol⟩ := initDuals_spec rfl (wide_of_square hsq)
  obtain ⟨h1, h2, h3⟩ := initDuals_zeros hrow hcol
  exact ⟨u, v, hinit, hrow, hcol, h1, h2, h3⟩

/-- Witness for C16: the matrix `[[4, 1, 3], [2, 0, 5], [3, 2, 2]]`. -/
theorem dual_initialisation_witness :
    Square [[4, 1, 3], [2, 0, 5], [3, 2, 2]] ∧
    ∃ u v, initDuals [[4, 1, 3], [2, 0, 5], [3, 2, 2]]
        [[(4 : ℚ), 1, 3], [2, 0, 5], [3, 2, 2]].length = .ok (u, v) ∧
      (∀ i, i < [[(4 : ℚ), 1, 3], [2, 0, 5], [3, 2, 2]].length →
        (∀ j, j < [[(4 : ℚ), 1, 3], [2, 0, 5], [3, 2, 2]].length →
          nth u i ≤ ent [[4, 1, 3], [2, 0, 5], [3, 2, 2]] i j) ∧
        ∃ j, j < [[(4 : ℚ), 1, 3], [2, 0, 5], [3, 2, 2]].length ∧
          nth u i = ent [[4, 1, 3], [2, 0, 5], [3, 2, 2]] i j) ∧
      (∀ j, j < [[(4 : ℚ), 1, 3], [2, 0, 5], [3, 2, 2]].length →
        (∀ i, i < [[(4 : ℚ), 1, 3], [2, 0, 5], [3, 2, 2]].length →
          nth v j ≤ ent [[4, 1, 3], [2, 0, 5], [3, 2, 2]] i j - nth u i) ∧
        ∃ i, i < [[(4 : ℚ), 1, 3], [2, 0, 5], [3, 2, 2]].length ∧
          nth v j = ent [[4, 1, 3], [2, 0, 5], [3, 2, 2]] i j - nth u i) ∧
      (∀ i j, i < [[(4 : ℚ), 1, 3], [2, 0, 5], [3, 2, 2]].length →
        j < [[(4 : ℚ), 1, 3], [2, 0, 5], [3, 2, 2]].length →
        0 ≤ red [[4, 1, 3], [2, 0, 5], [3, 2, 2]] u v i j) ∧
      (∀ i, i < [[(4 : ℚ), 1, 3], [2, 0, 5], [3, 2, 2]].length →
        ∃ j, j < [[(4 : ℚ), 1, 3], [2, 0, 5], [3, 2, 2]].length ∧
          red [[4, 1, 3], [2, 0, 5], [3, 2, 2]] u v i j = 0) ∧
      (∀ j, j < [[(4 : ℚ), 1, 3], [2, 0, 5], [3, 2, 2]].length →
        ∃ i, i < [[(4 : ℚ), 1, 3], [2, 0, 5], [3, 2, 2]].length ∧
          red [[4, 1, 3], [2, 0, 5], [3, 2, 2]] u v i j = 0) :=
  ⟨by decide!, dual_initialisation [[4, 1, 3], [2, 0, 5], [3, 2, 2]] (by decide!)⟩

/-- C17: on a square matrix the greedy pass (lines 64-81) returns, and in its result every
row `i` is matched to the lowest-index column `j` that was unmatched when row `i` was
processed (in the state `b` left by rows `0..i-1`) and has `|cost[i][j] - u[i] - v[j]| < 1e-10`,
or has `L[i] = -1` when there is no such column; `mated` is the number of rows with
`L[i] ≠ -1`. -/
theorem greedy_first_tight (cost : List (List ℚ)) (hsq : Square cost) :
    ∃ u v m, initDuals cost cost.length = .ok (u, v) ∧
      greedy cost cost.length u v = .ok m ∧
      (∀ i, i < cost.length → ∃ b, greedyUpTo cost cost.length u v i = .ok b ∧
        FirstTight cost cost.length u v i b (nth m.L i)) ∧
      m.mated = ((Finset.range cost.length).filter (fun i => nth m.L i ≠ -1)).card := by
  obtain ⟨_, u, v, m, _, hinit, hgr, _, _, _, _, _, hg, _, htr⟩ :=
    startState_trace rfl (wide_of_square hsq)
  exact ⟨u, v, m, hinit, hgr, htr, mated_eq_card hg⟩

/-- Witness for C17: the matrix `[[1, 2, 3], [1, 4, 5], [1, 6, 7]]`, where rows `1` and `2`
stay unmatched. -/
theorem greedy_first_tight_witness :
    Square [[1, 2, 3], [1, 4, 5], [1, 6, 7]] ∧
    ∃ u v m, initDuals [[1, 2, 3], [1, 4, 5], [1, 6, 7]]
        [[(1 : ℚ), 2, 3], [1, 4, 5], [1, 6, 7]].length = .ok (u, v) ∧
      greedy [[1, 2, 3], [1, 4, 5], [1, 6, 7]]
        [[(1 : ℚ), 2, 3], [1, 4, 5], [1, 6, 7]].length u v = .ok m ∧
      (∀ i, i < [[(1 : ℚ), 2, 3], [1, 4, 5], [1, 6, 7]].length →
        ∃ b, greedyUpTo [[1, 2, 3], [1, 4, 5], [1, 6, 7]]
            [[(1 : ℚ), 2, 3], [1, 4, 5], [1, 6, 7]].length u v i = .ok b ∧
          FirstTight [[1, 2, 3], [1, 4, 5], [1, 6, 7]]
            [[(1 : ℚ), 2, 3], [1, 4, 5], [1, 6, 7]].length u v i b (nth m.L i)) ∧
      m.mated = ((Finset.range [[(1 : ℚ), 2, 3], [1, 4, 5], [1, 6, 7]].length).filter
        (fun i => nth m.L i ≠ -1)).card :=
  ⟨by decide!, greedy_first_tight [[1, 2, 3], [1, 4, 5], [1, 6, 7]] (by decide!)⟩

/-- C18 (amended): a call on a square matrix that returns has executed exactly `n - g`
augmentation rounds, where `g ≤ n` is the number of pairs matched by the greedy pass. -/
theorem round_count (cost : List (List ℚ)) (val : ℚ) (L R : List Int) (hsq : Square cost)
    (hret : MinCostMatching cost = .ok (val, L, R)) :
    ∃ st0, startState cost = .ok st0 ∧ st0.mated ≤ cost.length ∧
      roundCount cost = .ok (cost.length - st0.mated) :=
  roundCount_spec (wide_of_square hsq) hret

/-- C19: on a square matrix the call fails with an index out of range exactly when the greedy
pass leaves two or more rows unmatched, and returns when it leaves at most one. The failure
is in the dual update of the first round: some column `k ≠ j` that the search left unsettled
is unmatched, `R[k] = -1`, and the step for `k` reads `u[R[k]]`. -/
theorem panic_iff_two_unmatched (cost : List (List ℚ)) (hsq : Square cost) :
    ∃ st0, startState cost = .ok st0 ∧
      st0.mated + (free cost.length st0.L).card = cost.length ∧
      (MinCostMatching cost = .error .indexOutOfRange ↔ 2 ≤ (free cost.length st0.L).card) ∧
      ((free cost.length st0.L).card ≤ 1 → ∃ val L R, MinCostMatching cost = .ok (val, L, R)) ∧
      (2 ≤ (free cost.length st0.L).card →
        ∃ (s j k : Nat) (dist : List ℚ) (sc : Scratch),
          findFree st0.L (st0.L.length + 1) 0 = .ok s ∧
          search cost cost.length st0.u st0.v st0.R cost.length
            ⟨dist, fill st0.dad (-1), fill st0.seen 0⟩ = .ok ((j : Int), sc) ∧
          k < cost.length ∧ k ≠ j ∧ nth sc.seen k = 0 ∧ nth st0.R k = -1 ∧
          (∀ uv : List ℚ × List ℚ, uv.1.length = cost.length → uv.2.length = cost.length →
            dualStep st0.R (j : Int) sc k uv = .error .indexOutOfRange) ∧
          updateDuals cost.length st0.R s (j : Int) sc (st0.u, st0.v) =
            .error .indexOutOfRange) := by
  have hw := wide_of_square hsq
  obtain ⟨st0, hstart, hinv, _, hcase⟩ := @mcm_spec cost cost.length cost.length cost.length
    cost.length rfl hw (le_refl _) (le_refl _) (le_refl _)
  refine ⟨st0, hstart, hinv.rows, ?_, ?_, ?_⟩
  · rcases hcase with ⟨h2, herr⟩ | ⟨h1, st', val, _, hok, _⟩
    · exact ⟨fun _ => h2, fun _ => herr⟩
    · constructor
      · intro h
        unfold MinCostMatching at h
        rw [hok] at h
        cases h
      · intro h
        omega
  · intro h1
    rcases hcase with ⟨h2, _⟩ | ⟨_, st', val, _, hok, _⟩
    · omega
    · exact ⟨val, st'.L, st'.R, hok⟩
  · intro h2
    exact round_panic_site rfl hw hinv h2 (le_refl _)

/-- C20: on a square n×n matrix (n ≥ 1) on which the call returns `m`, with `opt` the least
assignment cost, `opt ≤ m < opt + n * 1e-10`; the excess `m - opt` is at most the sum of the
reduced costs of the edges matched by the greedy pass, each of which lies in `[0, 1e-10)`,
so `m = opt` when all of them are `0`. -/
theorem gap_from_greedy_edges (cost : List (List ℚ)) (val : ℚ) (L R : List Int)
    (hsq : Square cost) (hpos : 0 < cost.length)
    (hret : MinCostMatching cost = .ok (val, L, R)) :
    ∃ st0, startState cost = .ok st0 ∧
      minPermCost cost cost.length ≤ val ∧
      val < minPermCost cost cost.length + cost.length * eps ∧
      val ≤ minPermCost cost cost.length + redSum cost cost.length st0.u st0.v st0.L ∧
      (∀ i, i < cost.length → nth st0.L i ≠ -1 →
        0 ≤ red cost st0.u st0.v i (nth st0.L i).toNat ∧
        red cost st0.u st0.v i (nth st0.L i).toNat < eps) ∧
      ((∀ i, i < cost.length → nth st0.L i ≠ -1 →
          red cost st0.u st0.v i (nth st0.L i).toNat = 0) →
        val = minPermCost cost cost.length) := by
  have hw := wide_of_square hsq
  obtain ⟨_, _, st0, gap, hstart, hgap, h0, hlt, _, ⟨p, hp⟩, hq⟩ :=
    mcm_gap rfl hw (le_refl _) (le_refl _) (le_refl _) hret
  obtain ⟨st1, hst1, hinv, htight, _⟩ := startState_spec rfl hw
  have e : st1 = st0 := by rw [hstart] at hst1; exact (Except.ok.inj hst1).symm
  subst e
  obtain ⟨q, hmin⟩ := exists_minPermCost cost cost.length
  have hle : minPermCost cost cost.length ≤ val := by
    rw [hp]; exact minPermCost_le cost _ p
  have hub := hq q
  rw [← hmin] at hub
  refine ⟨st1, hstart, hle, ?_, ?_, greedy_edge_bounds hinv htight, ?_⟩
  · have := hlt hpos
    linarith
  · rw [← hgap]; exact hub
  · intro hall
    have hz := redSum_eq_zero hall
    rw [← hgap] at hz
    linarith


/-- C13: on `[[4, 1, 3], [2, 0, 5], [3, 2, 2]]` the call returns total cost `5` with
`L = R = [1, 0, 2]`, which are mutually inverse permutations, and `5` is the minimum of
`Σ_i cost[i][p(i)]` over the six permutations. -/
theorem worked_example :
    MinCostMatching [[4, 1, 3], [2, 0, 5], [3, 2, 2]] = .ok (5, [1, 0, 2], [1, 0, 2]) ∧
    InversePerms 3 [1, 0, 2] [1, 0, 2] ∧
    minPermCost [[4, 1, 3], [2, 0, 5], [3, 2, 2]] 3 = 5 := by
  refine ⟨by decide!, ?_, by decide!⟩
  unfold InversePerms
  decide!

/-- C15 (failing input): on the square matrix `[[1, 1, 2], [1, 1, 0], [2, 2, 1]]` the call
returns `(3, [0, 2, 1], [0, 2, 1])` after one round whose dual update leaves `u = [1, 0, 2]`,
`v = [0, 0, 0]`, so at termination `cost[2][2] - u[2] - v[2] = -1 < -1e-10`. -/
theorem dual_feasibility_failing_input :
    Square [[1, 1, 2], [1, 1, 0], [2, 2, 1]] ∧
    MinCostMatching [[1, 1, 2], [1, 1, 0], [2, 2, 1]] = .ok (3, [0, 2, 1], [0, 2, 1]) ∧
    Except.map (fun st => (st.u, st.v)) (finalState 3 3 3 [[1, 1, 2], [1, 1, 0], [2, 2, 1]]) =
      .ok ([1, 0, 2], [0, 0, 0]) ∧
    red [[1, 1, 2], [1, 1, 0], [2, 2, 1]] [1, 0, 2] [0, 0, 0] 2 2 = -1 ∧
    ¬ (-eps ≤ red [[1, 1, 2], [1, 1, 0], [2, 2, 1]] [1, 0, 2] [0, 0, 0] 2 2) := by
  refine ⟨by decide!, by decide!, by decide!, by decide!, by decide!⟩

/-- C18 (counterexample): on the square 2×2 matrix `[[1, 2], [3, 4]]` the greedy pass matches
both rows and the call returns after `0` augmentation rounds, not `n = 2`. -/
theorem round_count_counterexample :
    Square [[1, 2], [3, 4]] ∧
    MinCostMatching [[1, 2], [3, 4]] = .ok (5, [0, 1], [0, 1]) ∧
    roundCount [[1, 2], [3, 4]] = .ok 0 ∧
    roundCount [[1, 2], [3, 4]] ≠ .ok [[(1 : ℚ), 2], [3, 4]].length := by
  refine ⟨by decide!, by decide!, by decide!, by decide!⟩

/-- Witness for C18: the matrix `[[1, 2], [1, 3]]`, where the greedy pass matches one row. -/
theorem round_count_witness :
    (Square [[1, 2], [1, 3]] ∧ MinCostMatching [[1, 2], [1, 3]] = .ok (3, [1, 0], [1, 0])) ∧
    ∃ st0, startState [[1, 2], [1, 3]] = .ok st0 ∧
      st0.mated ≤ [[(1 : ℚ), 2], [1, 3]].length ∧
      roundCount [[1, 2], [1, 3]] = .ok ([[(1 : ℚ), 2], [1, 3]].length - st0.mated) :=
  ⟨⟨by decide!, by decide!⟩,
    round_count [[1, 2], [1, 3]] 3 [1, 0] [1, 0] (by decide!) (by decide!)⟩

/-- Witness for C19: the matrix `[[1, 2, 3], [1, 4, 5], [1, 6, 7]]`, where the greedy pass
leaves two rows unmatched. -/
theorem panic_iff_two_unmatched_witness :
    Square [[1, 2, 3], [1, 4, 5], [1, 6, 7]] ∧
    ∃ st0, startState [[1, 2, 3], [1, 4, 5], [1, 6, 7]] = .ok st0 ∧
      st0.mated + (free [[(1 : ℚ), 2, 3], [1, 4, 5], [1, 6, 7]].length st0.L).card =
        [[(1 : ℚ), 2, 3], [1, 4, 5], [1, 6, 7]].length ∧
      (MinCostMatching [[1, 2, 3], [1, 4, 5], [1, 6, 7]] = .error .indexOutOfRange ↔
        2 ≤ (free [[(1 : ℚ), 2, 3], [1, 4, 5], [1, 6, 7]].length st0.L).card) ∧
      ((free [[(1 : ℚ), 2, 3], [1, 4, 5], [1, 6, 7]].length st0.L).card ≤ 1 →
        ∃ val L R, MinCostMatching [[1, 2, 3], [1, 4, 5], [1, 6, 7]] = .ok (val, L, R)) ∧
      (2 ≤ (free [[(1 : ℚ), 2, 3], [1, 4, 5], [1, 6, 7]].length st0.L).card →
        ∃ (s j k : Nat) (dist : List ℚ) (sc : Scratch),
          findFree st0.L (st0.L.length + 1) 0 = .ok s ∧
          search [[1, 2, 3], [1, 4, 5], [1, 6, 7]]
            [[(1 : ℚ), 2, 3], [1, 4, 5], [1, 6, 7]].length st0.u st0.v st0.R
            [[(1 : ℚ), 2, 3], [1, 4, 5], [1, 6, 7]].length
            ⟨dist, fill st0.dad (-1), fill st0.seen 0⟩ = .ok ((j : Int), sc) ∧
          k < [[(1 : ℚ), 2, 3], [1, 4, 5], [1, 6, 7]].length ∧ k ≠ j ∧
          nth sc.seen k = 0 ∧ nth st0.R k = -1 ∧
          (∀ uv : List ℚ × List ℚ,
            uv.1.length = [[(1 : ℚ), 2, 3], [1, 4, 5], [1, 6, 7]].length →
            uv.2.length = [[(1 : ℚ), 2, 3], [1, 4, 5], [1, 6, 7]].length →
            dualStep st0.R (j : Int) sc k uv = .error .indexOutOfRange) ∧
          updateDuals [[(1 : ℚ), 2, 3], [1, 4, 5], [1, 6, 7]].length st0.R s (j : Int) sc
            (st0.u, st0.v) = .error .indexOutOfRange) :=
  ⟨by decide!, panic_iff_two_unmatched [[1, 2, 3], [1, 4, 5], [1, 6, 7]] (by decide!)⟩

/-- Witness for C20: the matrix `[[1, 1], [1, 1 + 2^-34]]`, where the greedy edge `(1, 1)` has
reduced cost `2^-34` and the call returns `2 + 2^-34` against the optimum `2`. -/
theorem gap_from_greedy_edges_witness :
    (Square [[1, 1], [1, 1 + 1 / 2 ^ 34]] ∧ 0 < [[(1 : ℚ), 1], [1, 1 + 1 / 2 ^ 34]].length ∧
      MinCostMatching [[1, 1], [1, 1 + 1 / 2 ^ 34]] = .ok (2 + 1 / 2 ^ 34, [0, 1], [0, 1])) ∧
    ∃ st0, startState [[1, 1], [1, 1 + 1 / 2 ^ 34]] = .ok st0 ∧
      minPermCost [[1, 1], [1, 1 + 1 / 2 ^ 34]] [[(1 : ℚ), 1], [1, 1 + 1 / 2 ^ 34]].length ≤
        2 + 1 / 2 ^ 34 ∧
      2 + 1 / 2 ^ 34 < minPermCost [[1, 1], [1, 1 + 1 / 2 ^ 34]]
          [[(1 : ℚ), 1], [1, 1 + 1 / 2 ^ 34]].length +
        [[(1 : ℚ), 1], [1, 1 + 1 / 2 ^ 34]].length * eps ∧
      2 + 1 / 2 ^ 34 ≤ minPermCost [[1, 1], [1, 1 + 1 / 2 ^ 34]]
          [[(1 : ℚ), 1], [1, 1 + 1 / 2 ^ 34]].length +
        redSum [[1, 1], [1, 1 + 1 / 2 ^ 34]] [[(1 : ℚ), 1], [1, 1 + 1 / 2 ^ 34]].length
          st0.u st0.v st0.L ∧
      (∀ i, i < [[(1 : ℚ), 1], [1, 1 + 1 / 2 ^ 34]].length → nth st0.L i ≠ -1 →
        0 ≤ red [[1, 1], [1, 1 + 1 / 2 ^ 34]] st0.u st0.v i (nth st0.L i).toNat ∧
        red [[1, 1], [1, 1 + 1 / 2 ^ 34]] st0.u st0.v i (nth st0.L i).toNat < eps) ∧
      ((∀ i, i < [[(1 : ℚ), 1], [1, 1 + 1 / 2 ^ 34]].length → nth st0.L i ≠ -1 →
          red [[1, 1], [1, 1 + 1 / 2 ^ 34]] st0.u st0.v i (nth st0.L i).toNat = 0) →
        2 + 1 / 2 ^ 34 = minPermCost [[1, 1], [1, 1 + 1 / 2 ^ 34]]
          [[(1 : ℚ), 1], [1, 1 + 1 / 2 ^ 34]].length) :=
  ⟨⟨by decide!, by decide!, by decide!⟩,
    gap_from_greedy_edges [[1, 1], [1, 1 + 1 / 2 ^ 34]] (2 + 1 / 2 ^ 34) [0, 1] [0, 1]
      (by decide!) (by decide!) (by decide!)⟩


/-- C4: for every square n×n cost matrix every loop of `MinCostMatching` terminates within
`n` iterations. With a budget of `n` search iterations, `n` back-walk steps and `n` rounds the
run never exhausts a budget, and larger budgets give the same result. Each selection of the
search returns a column that was not settled before. In the state `st0` left by the greedy
pass, the outer loop does not exhaust `n` rounds and completes at most `n`; when a round is
entered (`mated < n`), its search, started from the distances of lines 90-92, stops within `n`
selections at a column `j` that is unmatched (`R[j] = -1`) and has just been settled, and the
back-walk from `j` ends within `n` steps at a column without `dad`. -/
theorem termination_within_budgets (cost : List (List ℚ)) (hsq : Square cost) :
    MinCostMatching cost ≠ .error .outOfFuel ∧
    (∀ fs fw fr, cost.length ≤ fs → cost.length ≤ fw → cost.length ≤ fr →
      MinCostMatchingFuel fs fw fr cost = MinCostMatching cost) ∧
    (∀ (dist : List ℚ) (seen : List Int) (j : Int), dist.length = cost.length →
      seen.length = cost.length → closest dist seen cost.length 0 (-1) = .ok j → j ≠ -1 →
      0 ≤ j ∧ j < cost.length ∧ nth seen j.toNat = 0) ∧
    ∃ st0, startState cost = .ok st0 ∧
      rounds cost cost.length cost.length cost.length cost.length st0 ≠ .error .outOfFuel ∧
      (∀ k, roundCount cost = .ok k → k ≤ cost.length) ∧
      (st0.mated < cost.length →
        ∃ (s j : Nat) (dist : List ℚ) (sc : Scratch),
          findFree st0.L (st0.L.length + 1) 0 = .ok s ∧
          forLoop (fun k dist => do
              let c ← cell cost s k
              let us ← idx st0.u s
              let vk ← idx st0.v k
              upd dist k (c - us - vk)) cost.length 0 st0.dist = .ok dist ∧
          search cost cost.length st0.u st0.v st0.R cost.length
            ⟨dist, fill st0.dad (-1), fill st0.seen 0⟩ = .ok ((j : Int), sc) ∧
          j < cost.length ∧ nth st0.R j = -1 ∧ nth sc.seen j ≠ 0 ∧
          ∃ (jE : Nat) (L R : List Int),
            walk sc.dad cost.length (j : Int) st0.L st0.R = .ok ((jE : Int), L, R) ∧
            nth sc.dad jE = -1) := by
  have hw := wide_of_square hsq
  have hne := mcm_no_outOfFuel hw
  refine ⟨hne, ?_, ?_, ?_⟩
  · intro fs fw fr h1 h2 h3
    exact mcm_mono cost h1 h2 h3 hne
  · intro dist seen j hd hs hcl hj
    obtain ⟨j', hrun, hres⟩ := closest_spec hd hs cost.length 0 (-1) (by omega)
      (Or.inl ⟨rfl, fun k' hk' => by omega⟩)
    rw [hcl] at hrun
    have hjj : j = j' := Except.ok.inj hrun
    subst hjj
    rcases hres with ⟨h, _⟩ | ⟨j0, h1, h2, h3, _⟩
    · exact absurd h hj
    · subst h1
      exact ⟨by omega, by omega, by simpa using h3⟩
  · obtain ⟨st0, hstart, hinv, _⟩ := startState_spec rfl hw
    refine ⟨st0, hstart, ?_, ?_, ?_⟩
    · rcases @rounds_spec cost cost.length st0 cost.length cost.length cost.length rfl hw hinv
        (le_refl _) (le_refl _) (le_refl _) with ⟨_, h⟩ | ⟨_, st', h, _⟩
      · rw [h]; intro h'; cases h'
      · rw [h]; intro h'; cases h'
    · intro k hk
      unfold roundCount at hk
      obtain ⟨st1, h1, hk⟩ := bind_eq_ok hk
      obtain ⟨⟨st2, k'⟩, h2, hk⟩ := bind_eq_ok hk
      have hkk : k' = k := Except.ok.inj hk
      subst hkk
      rw [hstart] at h1
      have e := Except.ok.inj h1
      subst e
      have hrows := hinv.rows
      have := roundsCounted_count cost cost.length cost.length cost.length cost.length st0 0
        st2 k' h2 (by omega)
      omega
    · intro hlt
      have hrows := hinv.rows
      obtain ⟨s, j0, dist, sc, t, hfind, _, _, hdist, hsearch, hdone⟩ :=
        round_search rfl hw hinv (by omega) (le_refl _)
      obtain ⟨jE, L', R', hwalk, _, hroot⟩ := walk_spec hinv.feas hdone cost.length j0 st0.L
        st0.R (walkInv_init hinv.matching hdone)
        (hdone.rankBound j0 hdone.terminal hdone.terminalSeen)
      exact ⟨s, j0, dist, sc, hfind, hdist, hsearch, hdone.terminal, hdone.terminalFree,
        hdone.terminalSeen, jE, L', R', hwalk, hroot⟩

/-- Witness for C4: the matrix `[[1, 2], [1, 3]]`. The greedy pass leaves row `1` unmatched,
so one round is entered: its search makes two selections (one is not enough), stops at the
unmatched column `1`, and the back-walk takes one step (none is not enough). -/
theorem termination_within_budgets_witness :
    (Square [[1, 2], [1, 3]] ∧
      startState [[1, 2], [1, 3]] =
        .ok ⟨[1, 1], [0, 1], [0, -1], [0, -1], 1, [0, 0], [0, 0], [0, 0]⟩ ∧
      search [[1, 2], [1, 3]] 2 [1, 1] [0, 1] [0, -1] 1 ⟨[0, 1], [-1, -1], [0, 0]⟩ =
        .error .outOfFuel ∧
      search [[1, 2], [1, 3]] 2 [1, 1] [0, 1] [0, -1] 2 ⟨[0, 1], [-1, -1], [0, 0]⟩ =
        .ok (1, ⟨[0, 0], [-1, 0], [1, 1]⟩) ∧
      walk [-1, 0] 0 1 [0, -1] [0, -1] = .error .outOfFuel ∧
      walk [-1, 0] 2 1 [0, -1] [0, -1] = .ok (0, [1, -1], [0, 0]) ∧
      roundCount [[1, 2], [1, 3]] = .ok 1 ∧
      MinCostMatching [[1, 2], [1, 3]] = .ok (3, [1, 0], [1, 0])) ∧
    (MinCostMatching [[1, 2], [1, 3]] ≠ .error .outOfFuel ∧
    (∀ fs fw fr, [[(1 : ℚ), 2], [1, 3]].length ≤ fs → [[(1 : ℚ), 2], [1, 3]].length ≤ fw →
      [[(1 : ℚ), 2], [1, 3]].length ≤ fr →
      MinCostMatchingFuel fs fw fr [[1, 2], [1, 3]] = MinCostMatching [[1, 2], [1, 3]]) ∧
    (∀ (dist : List ℚ) (seen : List Int) (j : Int),
      dist.length = [[(1 : ℚ), 2], [1, 3]].length →
      seen.length = [[(1 : ℚ), 2], [1, 3]].length →
      closest dist seen [[(1 : ℚ), 2], [1, 3]].length 0 (-1) = .ok j → j ≠ -1 →
      0 ≤ j ∧ j < [[(1 : ℚ), 2], [1, 3]].length ∧ nth seen j.toNat = 0) ∧
    ∃ st0, startState [[1, 2], [1, 3]] = .ok st0 ∧
      rounds [[1, 2], [1, 3]] [[(1 : ℚ), 2], [1, 3]].length [[(1 : ℚ), 2], [1, 3]].length
        [[(1 : ℚ), 2], [1, 3]].length [[(1 : ℚ), 2], [1, 3]].length st0 ≠ .error .outOfFuel ∧
      (∀ k, roundCount [[1, 2], [1, 3]] = .ok k → k ≤ [[(1 : ℚ), 2], [1, 3]].length) ∧
      (st0.mated < [[(1 : ℚ), 2], [1, 3]].length →
        ∃ (s j : Nat) (dist : List ℚ) (sc : Scratch),
          findFree st0.L (st0.L.length + 1) 0 = .ok s ∧
          forLoop (fun k dist => do
              let c ← cell [[1, 2], [1, 3]] s k
              let us ← idx st0.u s
              let vk ← idx st0.v k
              upd dist k (c - us - vk)) [[(1 : ℚ), 2], [1, 3]].length 0 st0.dist = .ok dist ∧
          search [[1, 2], [1, 3]] [[(1 : ℚ), 2], [1, 3]].length st0.u st0.v st0.R
            [[(1 : ℚ), 2], [1, 3]].length
            ⟨dist, fill st0.dad (-1), fill st0.seen 0⟩ = .ok ((j : Int), sc) ∧
          j < [[(1 : ℚ), 2], [1, 3]].length ∧ nth st0.R j = -1 ∧ nth sc.seen j ≠ 0 ∧
          ∃ (jE : Nat) (L R : List Int),
            walk sc.dad [[(1 : ℚ), 2], [1, 3]].length (j : Int) st0.L st0.R =
              .ok ((jE : Int), L, R) ∧
            nth sc.dad jE = -1)) :=
  ⟨⟨by decide!, by decide!, by decide!, by decide!, by decide!, by decide!, by decide!,
      by decide!⟩,
    termination_within_budgets [[1, 2], [1, 3]] (by decide!)⟩

/-! ## Where `float64` rounding changes the result -/

/-- C12 (counterexample): with `float64` arithmetic, on the 10×10 matrix whose entries all
equal the `float64` value of `0.1`, the call returns the identity matching with total cost
`(2^53 - 1) / 2^53 = 0.9999999999999999`, which is neither `10 * c` nor the `float64`
product `10 * c = 1`. -/
theorem constant_matrix_counterexample :
    rnd64 (1 / 10) = 3602879701896397 / 36028797018963968 ∧
    Representable (List.replicate 10 (List.replicate 10 (3602879701896397 / 36028797018963968))) ∧
    MinCostMatchingF64
        (List.replicate 10 (List.replicate 10 (3602879701896397 / 36028797018963968))) =
      .ok (9007199254740991 / 9007199254740992, [0, 1, 2, 3, 4, 5, 6, 7, 8, 9],
        [0, 1, 2, 3, 4, 5, 6, 7, 8, 9]) ∧
    (9007199254740991 / 9007199254740992 : ℚ) ≠
      ((10 : Nat) : ℚ) * (3602879701896397 / 36028797018963968) ∧
    (9007199254740991 / 9007199254740992 : ℚ) ≠
      rnd64 (((10 : Nat) : ℚ) * (3602879701896397 / 36028797018963968)) := by
  refine ⟨by decide!, by decide!, by decide!, by decide!, by decide!⟩

/-- With `float64` arithmetic the tolerance bound of the exact model can fail: on the integer
matrix `[[2e16, 3], [2e16, 5]]` the difference `2e16 - 3` rounds to `19999999999999996`, both
entries of column `0` get reduced cost `0`, the greedy pass keeps `L = [0, 1]`, and the call
returns `20000000000000004` (the rounded sum `2e16 + 5`) against the minimum
`20000000000000003`. -/
theorem rounding_exceeds_tolerance :
    Representable [[20000000000000000, 3], [20000000000000000, 5]] ∧
    Integral [[20000000000000000, 3], [20000000000000000, 5]] ∧
    MinCostMatchingF64 [[20000000000000000, 3], [20000000000000000, 5]] =
      .ok (20000000000000004, [0, 1], [0, 1]) ∧
    MinCostMatching [[20000000000000000, 3], [20000000000000000, 5]] =
      .ok (20000000000000003, [1, 0], [1, 0]) ∧
    minPermCost [[20000000000000000, 3], [20000000000000000, 5]] 2 = 20000000000000003 := by
  refine ⟨by decide!, by decide!, by decide!, by decide!, by decide!⟩

end Hungarian
